import Mathlib

/-!
# ConvertObj: MPW object file to assembly converter

A shallow embedding of `ConvertObj/ConvertObj.cc` (Retro68) and a verification
development about it.  The C++ program reads a record-oriented object file,
builds a list of modules, reorders them (`sortModules`) and writes assembly
text (`Module::write`, `Reloc::write`, `encodeIdentifier`).

Conventions of the embedding

* `uint8_t` and the bytes of a `std::string` are `Byte = Fin 256`.
* `int`, `stringid` are `Int`; sizes and offsets that are never negative are `Nat`.
* `std::unordered_map` is an association list searched with `List.lookup`;
  the order of the list is the iteration order, so a statement about every
  list covers every iteration order.
* `std::shared_ptr<Module>` identity is the index of the module in the list
  that owns it; the `nearrefs` member, written only by `sortModules`, is kept
  in a table indexed the same way.
* text written to a `std::ostream` is a `String`.
-/

namespace ConvertObj

/-! ## Global configuration (the initialisers of the globals, never reassigned) -/

def shouldSortModules : Bool := true
def addMacsbugNames : Bool := true
def functionSections : Bool := true
def dataSections : Bool := true
def dataInText : Bool := false

/-! ## Basic types -/

/-- One `uint8_t`, or one `char` of a `std::string` seen as its bit pattern. -/
abbrev Byte := Fin 256

/-- The type `stringid` of the source (`using stringid = int`). -/
abbrev stringid := Int

/-- The three global side tables `sectionMap`, `stringDictionary`, `localLabels`. -/
structure Tables where
  sectionMap : List (stringid × stringid) := []
  stringDictionary : List (stringid × List Byte) := []
  localLabels : List stringid := []

/-- Assignment `m[k] = v` on an unordered map: an existing binding is replaced in
place, a new key is added at the end. -/
def mapSet {κ α : Type} [DecidableEq κ] : List (κ × α) → κ → α → List (κ × α)
  | [], k, v => [(k, v)]
  | (k0, v0) :: rest, k, v =>
      if k0 = k then (k, v) :: rest else (k0, v0) :: mapSet rest k v

/-- Membership insert on an unordered set. -/
def setAdd (s : List stringid) (x : stringid) : List stringid :=
  if x ∈ s then s else s ++ [x]

/-- Equality of results is decidable. -/
instance exceptDecEq {ε α : Type} [DecidableEq ε] [DecidableEq α] : DecidableEq (Except ε α) :=
  fun a b =>
    match a, b with
    | .ok x, .ok y =>
        if h : x = y then isTrue (by rw [h]) else isFalse (fun h2 => h (by cases h2; rfl))
    | .error x, .error y =>
        if h : x = y then isTrue (by rw [h]) else isFalse (fun h2 => h (by cases h2; rfl))
    | .ok _, .error _ => isFalse (fun h => by cases h)
    | .error _, .ok _ => isFalse (fun h => by cases h)

/-! ## Characters -/

/-- The value of a `char` holding byte `b` when promoted to `int`: `char` is a
signed 8-bit type on the x86 and Apple targets Retro68 is built on, so bytes
from 0x80 up are negative. -/
def charValue (b : Byte) : Int :=
  if b.val < 128 then (b.val : Int) else (b.val : Int) - 256

/-- The C library `isdigit` in the "C" locale. -/
def isdigit (c : Int) : Bool := decide (48 ≤ c ∧ c ≤ 57)

/-- The C library `isalnum` in the "C" locale. -/
def isalnum (c : Int) : Bool :=
  isdigit c || decide (65 ≤ c ∧ c ≤ 90) || decide (97 ≤ c ∧ c ≤ 122)

/-- What the body of the `for(char c : s)` loop of `encodeIdentifier` appends
for one character. -/
def encodeChar (b : Byte) : String :=
  if charValue b = 95 ∨ isalnum (charValue b) = true then
    String.singleton (Char.ofNat b.val)
  else
    "__z" ++ toString (charValue b) ++ "_"

/-- The test `s.empty() || isdigit(s[0])`. -/
def needsEscapeMarker : List Byte → Bool
  | [] => true
  | c :: _ => isdigit (charValue c)

/-- Lookup `stringDictionary[id]`: a missing id yields the empty string. -/
def Tables.text (t : Tables) (id : stringid) : List Byte :=
  (t.stringDictionary.lookup id).getD []

/-- The function `encodeIdentifier` of the source. -/
def encodeIdentifier (t : Tables) (id : stringid) : String :=
  let s := t.text id
  (if id ∈ t.localLabels then "L" ++ toString id ++ "." else "")
    ++ (if needsEscapeMarker s then "__z" else "")
    ++ String.join (s.map encodeChar)

/-! ## Relocations -/

/-- The struct `Reloc`. -/
structure Reloc where
  size : Int
  name1 : stringid := -1
  name2 : stringid := -1
deriving DecidableEq

/-- Why an emission step cannot complete. -/
inductive WriteError where
  /-- a read through `p[i]` beyond the end of the byte buffer -/
  | outOfBounds
  /-- the `assert(false)` branch of `Reloc::write` -/
  | assertFalse
  /-- the round budget of the model ran out -/
  | outOfFuel
deriving DecidableEq

/-- A value of C type `int`: wrap-around to 32 bits, two's complement. -/
def toInt32 (x : Int) : Int := (x + 2147483648) % 4294967296 - 2147483648

/-- The addend text shared by both branches of `Reloc::write`:
`if(val > 0) out << " + " << val; else if(val < 0) out << " - " << -val;`. -/
def addendText (val : Int) : String :=
  if val > 0 then " + " ++ toString val
  else if val < 0 then " - " ++ toString (toInt32 (-val))
  else ""

/-- The text `encodeIdentifier(name1)` followed by the optional
`" - " << encodeIdentifier(name2)`. -/
def symbolText (t : Tables) (r : Reloc) : String :=
  encodeIdentifier t r.name1
    ++ (if r.name2 ≠ -1 then " - " ++ encodeIdentifier t r.name2 else "")

/-- The method `Reloc::write`; `p` is the byte buffer from the relocation's offset
on (the pointer `&bytes[offset]`).  Returns the text written and the width. -/
def Reloc.write (t : Tables) (r : Reloc) (p : List Byte) : Except WriteError (String × Nat) :=
  if r.size = 2 then
    match p with
    | p0 :: p1 :: _ =>
        let val : Int := (p0.val : Int) * 256 + p1.val
        .ok ("\t.short " ++ symbolText t r ++ addendText val
              ++ (if r.name2 = -1 then "-." else "") ++ "\n", 2)
    | _ => .error .outOfBounds
  else if r.size = 4 then
    match p with
    | p0 :: p1 :: p2 :: p3 :: _ =>
        let val : Int :=
          toInt32 ((p0.val : Int) * 16777216 + (p1.val : Int) * 65536
                    + (p2.val : Int) * 256 + p3.val)
        .ok ("\t.long " ++ symbolText t r ++ addendText val ++ "\n", 4)
    | _ => .error .outOfBounds
  else
    .error .assertFalse

/-! ## Modules -/

/-- The struct `Module` (without `nearrefs`, see the header). -/
structure Module where
  name : stringid
  segment : stringid
  isData : Bool
  bytes : List Byte := []
  labels : List (Nat × List stringid) := []
  relocs : List (Nat × Reloc) := []
deriving DecidableEq

/-- One thing written by the emission loop of `Module::write`, tagged with the
value of `offset` at which it was written. -/
inductive Item where
  /-- the lines for one label: optional `.globl`, then `label:` -/
  | label (offset : Nat) (raw : stringid) (text : String)
  /-- a `.byte` directive -/
  | byte (offset : Nat) (text : String)
  /-- a `.short` or `.long` relocation directive of the given width -/
  | reloc (offset : Nat) (width : Nat) (text : String)
deriving DecidableEq

def Item.offset : Item → Nat
  | .label o _ _ => o
  | .byte o _ => o
  | .reloc o _ _ => o

def Item.text : Item → String
  | .label _ _ s => s
  | .byte _ s => s
  | .reloc _ _ s => s

/-- Bytes consumed by an item: 0 for a label, 1 for `.byte`, the width returned by
`Reloc::write` for a relocation. -/
def Item.width : Item → Nat
  | .label _ _ _ => 0
  | .byte _ _ => 1
  | .reloc _ w _ => w

def Item.isDirective : Item → Bool
  | .label _ _ _ => false
  | _ => true

/-- The body of `for(stringid rawLabel : labelP->second)` for one label. -/
def labelText (t : Tables) (rawLabel : stringid) : String :=
  let label := encodeIdentifier t rawLabel
  (if rawLabel ∉ t.localLabels then "\t.globl " ++ label ++ "\n" else "")
    ++ label ++ ":\n"

/-- The labels written when the loop is at `offset`. -/
def labelItems (t : Tables) (m : Module) (offset : Nat) : List Item :=
  match m.labels.lookup offset with
  | some ids => ids.map fun raw => Item.label offset raw (labelText t raw)
  | none => []

/-- The loop `for(uint32_t offset = 0; offset < bytes.size();)` of `Module::write`,
started at `offset`.  Every round advances `offset`, so `bytes.size()` rounds are
enough; `fuel` counts them. -/
def walkFrom (t : Tables) (m : Module) : Nat → Nat → Except WriteError (List Item)
  | fuel, offset =>
    if offset < m.bytes.length then
      match fuel with
      | 0 => .error .outOfFuel
      | fuel + 1 =>
        match m.relocs.lookup offset with
        | some r =>
            match r.write t (m.bytes.drop offset) with
            | .ok (text, w) =>
                match walkFrom t m fuel (offset + w) with
                | .ok rest => .ok (labelItems t m offset ++ Item.reloc offset w text :: rest)
                | .error e => .error e
            | .error e => .error e
        | none =>
            match walkFrom t m fuel (offset + 1) with
            | .ok rest =>
                .ok (labelItems t m offset
                      ++ Item.byte offset
                          ("\t.byte " ++ toString ((m.bytes.getD offset 0).val) ++ "\n") :: rest)
            | .error e => .error e
    else .ok []

/-- The whole emission loop of a module. -/
def walk (t : Tables) (m : Module) : Except WriteError (List Item) :=
  walkFrom t m m.bytes.length 0

/-- Lookup `sectionMap[name]`: a missing key yields the default `stringid` 0. -/
def Tables.section (t : Tables) (name : stringid) : stringid :=
  (t.sectionMap.lookup name).getD 0

/-- The section directive written before the loop. -/
def sectionHeader (m : Module) (encodedName : String) : String :=
  if m.isData && !dataInText then
    (if dataSections then "\t.section .data." ++ encodedName ++ ",\"aw\"\n" else "\t.data\n")
      ++ (if m.bytes.length ≥ 2 then "\t.align 2,0\n" else "")
  else
    (if functionSections then "\t.section    .text." ++ encodedName ++ ",\"ax\",@progbits\n"
      else "\t.section    .text,\"ax\",@progbits\n")
      ++ "\t.align 2,0\n"

/-- The debug-name trailer written after the loop. -/
def macsbugTrailer (m : Module) (encodedName : String) : String :=
  if addMacsbugNames && !m.isData then
    (if functionSections then
        "\t.section    .text." ++ encodedName ++ ".macsbug,\"ax\",@progbits\n" else "")
      ++ (if encodedName.length < 32 then
            "\t.byte " ++ toString (encodedName.length ||| 0x80) ++ "\n"
          else "\t.byte 0x80\n" ++ "\t.byte " ++ toString encodedName.length ++ "\n")
      ++ "\t.ascii \"" ++ encodedName ++ "\"\n"
      ++ "\t.align 2,0\n\t.short 0\n"
  else ""

/-- The method `Module::write`: the text written for one module. -/
def Module.write (t : Tables) (m : Module) : Except WriteError String :=
  let encodedName := encodeIdentifier t (t.section m.name)
  match walk t m with
  | .ok items =>
      .ok (sectionHeader m encodedName ++ String.join (items.map Item.text)
            ++ macsbugTrailer m encodedName ++ "# ######\n\n")
  | .error e => .error e

/-! ## sortModules -/

/-- Insertion `unemitted.insert(x)` into a `std::set<stringid>`, kept in ascending
order without repetition. -/
def setInsert (x : stringid) : List stringid → List stringid
  | [] => [x]
  | y :: ys =>
      if x < y then x :: y :: ys
      else if x = y then y :: ys
      else y :: setInsert x ys

/-- The first loop of `sortModules`: the set of all module names. -/
def initialUnemitted (modules : List Module) : List stringid :=
  modules.foldl (fun s m => setInsert m.name s) []

/-- The innermost loops of the construction of `nameMap`, for the module with
index `i`: `nameMap[str] = m` for every label `str` of `m`. -/
def addLabels (nameMap : List (stringid × Nat)) (i : Nat) (m : Module) : List (stringid × Nat) :=
  m.labels.foldl (fun nm l => l.2.foldl (fun nm str => mapSet nm str i) nm) nameMap

/-- The second loop of `sortModules`: label id to owning module (as an index). -/
def buildNameMap (modules : List Module) : List (stringid × Nat) :=
  (modules.enum).foldl (fun nm im => addLabels nm im.1 im.2) []

/-- The call `a->nearrefs.push_back(b)`. -/
def pushRef (refs : List (List Nat)) (a b : Nat) : List (List Nat) :=
  refs.modify (fun l => l ++ [b]) a

/-- The body of `for(auto& r : m->relocs)` for the module with index `i`. -/
def addEdge (nameMap : List (stringid × Nat)) (i : Nat) (refs : List (List Nat)) (r : Reloc) :
    List (List Nat) :=
  if r.size ≠ 2 then refs
  else if r.name2 = -1 then
    match nameMap.lookup r.name1 with
    | some m1 => pushRef (pushRef refs m1 i) i m1
    | none => refs
  else
    match nameMap.lookup r.name1, nameMap.lookup r.name2 with
    | some m1, some m2 => pushRef (pushRef refs m1 m2) m2 m1
    | _, _ => refs

/-- The third loop of `sortModules`: the `nearrefs` of every module. -/
def buildNearrefs (modules : List Module) (nameMap : List (stringid × Nat)) : List (List Nat) :=
  (modules.enum).foldl
    (fun refs im => im.2.relocs.foldl (fun refs r => addEdge nameMap im.1 refs r.2) refs)
    (modules.map fun _ => [])

/-- The variables of the ordering loop: the vector `sorted` (module indices), the
iterator `p` (a position in `sorted`) and the set `unemitted`. -/
structure SortState where
  sorted : List Nat
  p : Nat
  unemitted : List stringid
deriving DecidableEq

/-- How `sortModules` can fail to return. -/
inductive SortError where
  /-- `nameMap[name]` created a null `shared_ptr` that was pushed to `sorted` -/
  | nullModule
  /-- the round budget of the model ran out -/
  | outOfFuel
deriving DecidableEq

/-- The body of `for(auto& m2weak : (*p)->nearrefs)`. -/
def visitRef (modules : List Module) (st : SortState) (m2 : Nat) : SortState :=
  match modules.get? m2 with
  | some m =>
      if m.name ∈ st.unemitted then
        { st with sorted := st.sorted ++ [m2], unemitted := st.unemitted.erase m.name }
      else st
  | none => st

/-- The loop `while(p != sorted.end())`. -/
def scanLoop (modules : List Module) (refs : List (List Nat)) :
    Nat → SortState → Except SortError SortState
  | fuel, st =>
    if st.p < st.sorted.length then
      match fuel with
      | 0 => .error .outOfFuel
      | fuel + 1 =>
          let cur := st.sorted.getD st.p 0
          let st1 := (refs.getD cur []).foldl (visitRef modules) st
          scanLoop modules refs fuel { st1 with p := st.p + 1 }
    else .ok st

/-- The loop `while(!unemitted.empty())`. -/
def sortLoop (modules : List Module) (nameMap : List (stringid × Nat)) (refs : List (List Nat)) :
    Nat → SortState → Except SortError SortState
  | fuel, st =>
    if st.unemitted.isEmpty then .ok st
    else
      match fuel with
      | 0 => .error .outOfFuel
      | fuel + 1 =>
        match scanLoop modules refs modules.length st with
        | .error e => .error e
        | .ok st1 =>
          match st1.unemitted with
          | [] => .ok st1
          | x :: rest =>
            match nameMap.lookup x with
            | some m => sortLoop modules nameMap refs fuel
                          { st1 with sorted := st1.sorted ++ [m], unemitted := rest }
            | none => .error .nullModule

/-- The order in which `sortModules` leaves the modules: the final contents of
`sorted`, each module given by its index in the input vector. -/
def sortOrder (modules : List Module) : Except SortError (List Nat) :=
  let nameMap := buildNameMap modules
  let refs := buildNearrefs modules nameMap
  match sortLoop modules nameMap refs modules.length
      { sorted := [], p := 0, unemitted := initialUnemitted modules } with
  | .ok st => .ok st.sorted
  | .error e => .error e

/-- The function `sortModules`: the vector left in `modules` by `sorted.swap(modules)`. -/
def sortModules (modules : List Module) : Except SortError (List Module) :=
  match sortOrder modules with
  | .ok order => .ok (order.filterMap fun i => modules.get? i)
  | .error e => .error e

/-! ## Primitive reader

`BinaryIO.h` is not part of the sources at hand; `byte`, `word` and `longword`
are its readers, `read` and `tellg` are those of `std::istream`. -/

/-- The input stream `in`: the bytes of the file, the read position, whether the
stream is in its failed state (a read found no byte), and `eof`, the value
`byte(in)` hands back when it could not read a byte. -/
structure IStream where
  data : List Byte
  pos : Nat := 0
  failed : Bool := false
  eof : Nat := 255

/-- The call `in.tellg()`: the position, or -1 once the stream has failed. -/
def IStream.tellg (s : IStream) : Int :=
  if s.failed then -1 else (s.pos : Int)

/-- Modelled from the spec: `byte(std::istream&)` of `BinaryIO.h`, the 1-byte case of
the Primitive Reader ("reads fixed-width big-endian integers (1/2/4 bytes) from a
byte-stream cursor").  Past the end of the stream no byte is consumed, the stream
fails (the source tests `!in` after `byte(in)`) and the value is `eof`. -/
def IStream.byte : IStream → Nat × IStream
  | ⟨data, pos, failed, eof⟩ =>
    if failed then (eof, ⟨data, pos, failed, eof⟩)
    else
      match data.get? pos with
      | some b => (b.val, ⟨data, pos + 1, false, eof⟩)
      | none => (eof, ⟨data, pos, true, eof⟩)

/-- Modelled from the spec: `word(std::istream&)` of `BinaryIO.h`, the big-endian
2-byte case of the Primitive Reader. -/
def IStream.word (s : IStream) : Nat × IStream :=
  let (a, s1) := s.byte
  let (b, s2) := s1.byte
  (a * 256 + b, s2)

/-- Modelled from the spec: `longword(std::istream&)` of `BinaryIO.h`, the big-endian
4-byte case of the Primitive Reader. -/
def IStream.longword (s : IStream) : Nat × IStream :=
  let (a, s1) := s.word
  let (b, s2) := s1.word
  (a * 65536 + b, s2)

/-- The call `in.read(buf, n)`: the bytes stored (fewer than `n` when the stream
ends first, and then the stream fails; none when it had failed before). -/
def IStream.read : IStream → Nat → List Byte × IStream
  | ⟨data, pos, failed, eof⟩, n =>
    if failed then ([], ⟨data, pos, failed, eof⟩)
    else
      let chunk := (data.drop pos).take n
      (chunk, ⟨data, pos + chunk.length, decide (chunk.length < n), eof⟩)

/-- Discarding `n` bytes, one `byte(in)` at a time. -/
def skipBytes : Nat → IStream → IStream
  | 0, s => s
  | n + 1, s => skipBytes n s.byte.2

/-- The loop `for(int i = 0; i < n; i++) s += (char) byte(in);`. -/
def readString : Nat → IStream → List Byte × IStream
  | 0, s => ([], s)
  | n + 1, s =>
      let (c, s1) := s.byte
      let (rest, s2) := readString n s1
      ((⟨c % 256, Nat.mod_lt c (by decide)⟩ : Byte) :: rest, s2)

/-! ## Record decoder -/

/-- The decoder variables of `main`: the stream, the global tables, and the
module vector.  The pointer `module` always shares the last element of
`modules`; here `module` is that element and `modules` holds the earlier ones. -/
structure Decoder where
  inp : IStream
  tables : Tables := {}
  modules : List Module := []
  module : Option Module := none

/-- The vector `modules` of the source. -/
def Decoder.allModules (d : Decoder) : List Module :=
  d.modules ++ d.module.toList

/-- The ways `main` ends with exit status 1. -/
inductive Failure where
  | notMPW
  | badVersion (version : Nat)
  | unexpectedEOF
  | unknownRecord (recordType : Nat) (position : Int)
  | unknownRelocFlags (flags : Nat)
  | unsupportedRelocFlags (flags : Nat)
deriving DecidableEq

/-- What processing one record leads to. -/
inductive Outcome where
  /-- the record is done and the loop goes on -/
  | next (d : Decoder)
  /-- `endOfObject` was set -/
  | last (d : Decoder)
  /-- `return 1` or `std::exit(1)`, with the decoder variables at that moment -/
  | exit1 (why : Failure) (d : Decoder)
  /-- an `assert` failed -/
  | abort (d : Decoder)
  /-- undefined behaviour: a write outside the byte buffer or a negative count -/
  | undefined
  /-- an inner `while(in.tellg() < end)` loop on a failed stream never ends -/
  | diverge
  /-- the round budget of the model ran out -/
  | outOfFuel

/-- The call `bytes.resize(n)`. -/
def resize (bytes : List Byte) (n : Nat) : List Byte :=
  bytes.take n ++ List.replicate (n - bytes.length) 0

/-- Overwriting `bytes` from `offset` on with `chunk` (which fits). -/
def writeAt (bytes : List Byte) (offset : Nat) (chunk : List Byte) : List Byte :=
  bytes.take offset ++ chunk ++ bytes.drop (offset + chunk.length)

/-- The loop `while(--repeat > 0)` of the Content record, with `count` rounds left:
each round copies `[offset, offset+sz)` to `[offset+sz, offset+2*sz)`. -/
def copyRepeat (sz : Nat) : Nat → Nat → List Byte → List Byte
  | 0, _, bytes => bytes
  | count + 1, offset, bytes =>
      copyRepeat sz count (offset + sz)
        (writeAt bytes (offset + sz) ((bytes.drop offset).take sz))

/-- The statement `module->labels[offset].push_back(name)`. -/
def pushLabel (labels : List (Nat × List stringid)) (offset : Nat) (name : stringid) :
    List (Nat × List stringid) :=
  mapSet labels offset ((labels.lookup offset).getD [] ++ [name])

/-- Case `kComment`. -/
def doComment (d : Decoder) : Outcome :=
  let (_, s1) := d.inp.byte
  let (size, s2) := s1.word
  .next { d with inp := skipBytes ((size : Int) - 4).toNat s2 }

/-- The loop `while(in.tellg() < end)` of case `kDictionary`. -/
def dictLoop (end_ : Int) : Nat → Decoder → stringid → Outcome
  | fuel, d, stringId =>
    if d.inp.tellg < end_ then
      if d.inp.failed then .diverge
      else
        match fuel with
        | 0 => .outOfFuel
        | fuel + 1 =>
            let (n, s1) := d.inp.byte
            let (str, s2) := readString n s1
            dictLoop end_ fuel
              { d with inp := s2,
                       tables := { d.tables with
                         stringDictionary := mapSet d.tables.stringDictionary stringId str } }
              (stringId + 1)
    else .next d

/-- Case `kDictionary`. -/
def doDictionary (d : Decoder) : Outcome :=
  let (_, s1) := d.inp.byte
  let (sz, s2) := s1.word
  let (stringId, s3) := s2.word
  let end_ : Int := s3.tellg - 6 + sz
  dictLoop end_ (s3.data.length + 1) { d with inp := s3 } stringId

/-- Case `kModule`. -/
def doModule (d : Decoder) : Outcome :=
  let (flags, s1) := d.inp.byte
  let (name, s2) := s1.word
  let (segment, s3) := s2.word
  let name : stringid := name
  .next
    { inp := s3,
      tables :=
        { d.tables with
          sectionMap := mapSet d.tables.sectionMap name name,
          localLabels :=
            if flags &&& 0x08 = 0 then setAdd d.tables.localLabels name
            else d.tables.localLabels },
      modules := d.allModules,
      module := some
        { name := name, segment := segment, isData := decide (flags &&& 0x01 ≠ 0),
          labels := [(0, [name])] } }

/-- The fields read at the start of case `kContent`: `offset`, `sz`, `repeat` and the
stream after them. -/
structure ContentHeader where
  offset : Nat
  sz : Int
  repeat_ : Nat
  inp : IStream

/-- Case `kContent`, up to the `assert`: flags, size word, optional offset
(`kContentOffset = 0x08`), optional repeat count (`kContentRepeat = 0x10`). -/
def readContentHeader (s : IStream) : ContentHeader :=
  let (flags, s1) := s.byte
  let (w, s2) := s1.word
  let sz0 : Int := (w : Int) - 4
  let h1 : ContentHeader :=
    if flags &&& 0x08 ≠ 0 then
      { offset := s2.longword.1 % 4294967296, sz := sz0 - 4, repeat_ := 1, inp := s2.longword.2 }
    else { offset := 0, sz := sz0, repeat_ := 1, inp := s2 }
  if flags &&& 0x10 ≠ 0 then
    { h1 with repeat_ := h1.inp.word.1, sz := h1.sz - 2, inp := h1.inp.word.2 }
  else h1

/-- Case `kContent`, after the `assert`: resize, `in.read`, and the copy loop.
The result is `none` when the behaviour is undefined: a negative `sz`, an `int`
overflow in `sz * repeat`, or a store outside the (resized) buffer. -/
def storeContent (m : Module) (h : ContentHeader) : Option (Module × IStream) :=
  if h.sz < 0 ∨ 2147483648 ≤ h.sz * (h.repeat_ : Int) then none
  else
    let sz := h.sz.toNat
    let total := (h.offset + sz * h.repeat_) % 4294967296
    let bytes1 := if m.bytes.length < total then resize m.bytes total else m.bytes
    if 0 < sz ∧ bytes1.length < h.offset + sz * max h.repeat_ 1 then none
    else
      let (chunk, s5) := h.inp.read sz
      let bytes2 := writeAt bytes1 h.offset chunk
      let bytes3 := copyRepeat sz (h.repeat_ - 1) h.offset bytes2
      some ({ m with bytes := bytes3 }, s5)

/-- Case `kContent`. -/
def doContent (d : Decoder) : Outcome :=
  let h := readContentHeader d.inp
  match d.module with
  | none => .abort { d with inp := h.inp }
  | some m =>
      match storeContent m h with
      | none => .undefined
      | some (m1, s) => .next { d with inp := s, module := some m1 }

/-- Case `kSize`. -/
def doSize (d : Decoder) : Outcome :=
  let (_, s1) := d.inp.byte
  let (size, s2) := s1.longword
  match d.module with
  | none => .abort { d with inp := s2 }
  | some m => .next { d with inp := s2, module := some { m with bytes := resize m.bytes size } }

/-- The loop `while(in.tellg() < end)` of cases `kReference` and `kComputedRef`:
`module->relocs[offset] = reloc` for every offset word. -/
def relocLoop (end_ : Int) (reloc : Reloc) : Nat → Decoder → Module → Outcome
  | fuel, d, m =>
    if d.inp.tellg < end_ then
      if d.inp.failed then .diverge
      else
        match fuel with
        | 0 => .outOfFuel
        | fuel + 1 =>
            let (offset, s1) := d.inp.word
            relocLoop end_ reloc fuel { d with inp := s1 }
              { m with relocs := mapSet m.relocs offset reloc }
    else .next { d with module := some m }

/-- Case `kReference`. -/
def doReference (d : Decoder) : Outcome :=
  let (flags, s1) := d.inp.byte
  let (sz, s2) := s1.word
  let end_ : Int := s2.tellg - 4 + sz
  let (name, s3) := s2.word
  let d3 : Decoder := { d with inp := s3 }
  if flags &&& 0x6E ≠ 0 then .exit1 (.unknownRelocFlags flags) d3
  else if flags &&& 0x80 ≠ 0 then .exit1 (.unsupportedRelocFlags flags) d3
  else
    let reloc : Reloc := { size := if flags &&& 0x10 ≠ 0 then 2 else 4, name1 := name }
    match d.module with
    | none => .abort d3
    | some m => relocLoop end_ reloc (s3.data.length + 1) d3 m

/-- Case `kEntryPoint`. -/
def doEntryPoint (d : Decoder) : Outcome :=
  let (flags, s1) := d.inp.byte
  let (name, s2) := s1.word
  let (offset, s3) := s2.longword
  let name : stringid := name
  let tables :=
    { d.tables with
      localLabels :=
        if flags &&& 0x08 = 0 then setAdd d.tables.localLabels name else d.tables.localLabels }
  match d.module with
  | none => .abort { d with inp := s3, tables := tables }
  | some m =>
      .next { d with inp := s3, tables := tables,
                     module := some { m with labels := pushLabel m.labels (offset % 4294967296) name } }

/-- Case `kComputedRef`. -/
def doComputedRef (d : Decoder) : Outcome :=
  let (flags, s1) := d.inp.byte
  let (sz, s2) := s1.word
  let end_ : Int := s2.tellg - 4 + sz
  let (name1, s3) := s2.word
  let (name2, s4) := s3.word
  let reloc : Reloc := { size := 2, name1 := name1, name2 := name2 }
  let d4 : Decoder := { d with inp := s4 }
  if flags ≠ 0x90 then .abort d4
  else
    match d.module with
    | none => .abort d4
    | some m =>
      let sectionMap :=
        match d.tables.sectionMap.lookup (name1 : stringid) with
        | some v => mapSet d.tables.sectionMap m.name v
        | none => d.tables.sectionMap
      relocLoop end_ reloc (s4.data.length + 1)
        { d4 with tables := { d.tables with sectionMap := sectionMap } } m

/-- Case `kFilename`. -/
def doFilename (d : Decoder) : Outcome :=
  let (_, s1) := d.inp.byte
  let (_, s2) := s1.word
  let (_, s3) := s2.longword
  .next { d with inp := s3 }

/-- Case `kLast`. -/
def doLast (d : Decoder) : Outcome :=
  .last { d with inp := d.inp.byte.2 }

/-- The `switch(recordType)` of the main loop. -/
def dispatch (recordType : Nat) (d : Decoder) : Outcome :=
  if recordType = 0 then .next d
  else if recordType = 3 then doComment d
  else if recordType = 4 then doDictionary d
  else if recordType = 5 then doModule d
  else if recordType = 8 then doContent d
  else if recordType = 7 then doSize d
  else if recordType = 9 then doReference d
  else if recordType = 6 then doEntryPoint d
  else if recordType = 10 then doComputedRef d
  else if recordType = 11 then doFilename d
  else if recordType = 2 then doLast d
  else .exit1 (.unknownRecord recordType d.inp.tellg) d

/-- One round of the main loop: read the record type, test `!in`, dispatch. -/
def step (d : Decoder) : Outcome :=
  let (recordType, s) := d.inp.byte
  if s.failed then .exit1 .unexpectedEOF { d with inp := s }
  else dispatch recordType { d with inp := s }

/-- The loop `for(bool endOfObject = false; !endOfObject;)`.  Every round that goes
on has read at least the record type, so `fuel` above the stream length is never
used up. -/
def recordLoop : Nat → Decoder → Outcome
  | 0, _ => .outOfFuel
  | fuel + 1, d =>
      match step d with
      | .next d1 => recordLoop fuel d1
      | other => other

/-- How a run of the program ends. -/
inductive Run where
  /-- `main` returned or `std::exit` was called: exit status and standard output -/
  | exit (status : Nat) (out : String)
  /-- an `assert` failed -/
  | abort
  /-- undefined behaviour was reached -/
  | undefined
  /-- the run never ends -/
  | diverge
  /-- the round budget of the model ran out -/
  | outOfFuel
deriving DecidableEq

/-- The loop `for(auto& m : modules) m->write(std::cout);`. -/
def writeAll (t : Tables) : List Module → Except WriteError String
  | [] => .ok ""
  | m :: rest =>
      match m.write t with
      | .ok text =>
          match writeAll t rest with
          | .ok more => .ok (text ++ more)
          | .error e => .error e
      | .error e => .error e

/-- The header block of `main`: first record marker, flags, version. -/
def readHeader (s : IStream) : Except Failure IStream :=
  let (firstRecord, s1) := s.byte
  let (_, s2) := s1.byte
  let (version, s3) := s2.word
  if firstRecord ≠ 1 then .error .notMPW
  else if version > 3 then .error (.badVersion version)
  else .ok s3

/-- What `main` does once the record loop has ended normally. -/
def emit (d : Decoder) (out : String) : Run :=
  match (if shouldSortModules then sortModules d.allModules else .ok d.allModules) with
  | .error _ => .undefined
  | .ok modules =>
      match writeAll d.tables modules with
      | .ok text => .exit 0 (out ++ text)
      | .error .assertFalse => .abort
      | .error .outOfBounds => .undefined
      | .error .outOfFuel => .outOfFuel

/-- The first lines of output, written once the header has been accepted. -/
def preamble : String := "\t.text\n\t.align 2\n"

/-- What `main` does with the way the record loop ended. -/
def finish : Outcome → Run
  | .last d => emit d preamble
  | .exit1 _ _ => .exit 1 preamble
  | .abort _ => .abort
  | .undefined => .undefined
  | .diverge => .diverge
  | .next _ => .outOfFuel
  | .outOfFuel => .outOfFuel

/-- The function `main` on an opened input file with contents `data`. -/
def main (data : List Byte) (eof : Nat := 255) : Run :=
  match readHeader { data := data, eof := eof } with
  | .error _ => .exit 1 ""
  | .ok s => finish (recordLoop (data.length + 1) { inp := s })

/-! ## Predicates used in the statements -/

/-- A header that the decoder accepts: at least four bytes, the first equal to 1 (the
First marker), and the big-endian 16-bit number in bytes 2 and 3 at most 3. -/
def ValidHeader (data : List Byte) : Prop :=
  ∃ b0 b1 b2 b3 rest, data = b0 :: b1 :: b2 :: b3 :: rest ∧ b0.val = 1 ∧ b2.val * 256 + b3.val ≤ 3

/-- The record types with a `case` in the `switch` of the main loop: Pad, Last,
Comment, Dictionary, Module, EntryPoint, Size, Content, Reference, ComputedRef,
Filename. -/
def knownRecordTypes : List Nat := [0, 2, 3, 4, 5, 6, 7, 8, 9, 10, 11]

/-- The outcome is the `default:` branch of the `switch`: "Unknown record", `return 1`. -/
def Outcome.isUnknownRecord : Outcome → Bool
  | .exit1 (.unknownRecord _ _) _ => true
  | _ => false

/-- The flags byte that case `kReference` reads from the decoder state `d` (the stream
stands right after the record type). -/
def referenceFlags (d : Decoder) : Nat := d.inp.byte.1

/-- The size word that case `kReference` reads: the length of the record, counted from its
type byte. -/
def referenceSize (d : Decoder) : Nat := d.inp.byte.2.word.1

/-- Flags that case `kReference` refuses: a bit of `kUnknownReferenceFlags = 0x6E`, or
`kA5Relative = 0x80`. -/
abbrev UnsupportedFlags (f : Nat) : Prop := f &&& 0x6E ≠ 0 ∨ f &&& 0x80 ≠ 0

/-- The stream holds the Reference record that starts at the state `d`: it has not
failed, and the five bytes after the type byte (flags, size, symbol) and every offset
word that the loop reads for the declared size are there. -/
abbrev ReferenceComplete (d : Decoder) : Prop :=
  d.inp.failed = false ∧ d.inp.pos + 5 + 2 * ((referenceSize d - 5) / 2) ≤ d.inp.data.length

/-- The directives among `items`, each as the pair of its offset and the number of
buffer bytes it consumes. -/
def spans (items : List Item) : List (Nat × Nat) :=
  (items.filter Item.isDirective).map fun i => (i.offset, i.width)

/-- Every relocation of `m` that starts inside the buffer has width 2 or 4 and lies
inside the buffer: `offset + width <= bytes.size()`. -/
def RelocsFit (m : Module) : Prop :=
  ∀ o r, m.relocs.lookup o = some r → o < m.bytes.length →
    (r.size = 2 ∨ r.size = 4) ∧ (o : Int) + r.size ≤ m.bytes.length

/-- The shape of the output of the emission loop started at offset `a`: nothing once
`a` has reached the end of the buffer; otherwise the labels registered at `a`, one
directive at `a` that stays inside the buffer, and the output of the loop started
right after that directive. -/
inductive Walked (t : Tables) (m : Module) : Nat → List Item → Prop
  | done (a : Nat) (h : ¬ a < m.bytes.length) : Walked t m a []
  | step (a : Nat) (d : Item) (rest : List Item) (hd : d.isDirective = true) (ho : d.offset = a)
      (hw : 0 < d.width) (hfit : a + d.width ≤ m.bytes.length)
      (hrest : Walked t m (a + d.width) rest) : Walked t m a (labelItems t m a ++ d :: rest)

/-- The span `s` holds the buffer offset `k`. -/
def covers (k : Nat) (s : Nat × Nat) : Bool := decide (s.1 ≤ k ∧ k < s.1 + s.2)

/-- A one-byte module with a 16-bit relocation at offset 0, as the decoder builds it
from Module, Size(1), Reference(flags 0x10, offset 0). -/
def overrunModule : Module :=
  { name := 0, segment := 0, isData := false, bytes := [0], labels := [(0, [0])],
    relocs := [(0, { size := 2, name1 := 0 })] }

/-- A six-byte module with a 32-bit relocation at offset 0, a 16-bit relocation at
offset 2 (inside the span of the first) and two labels at offset 4. -/
def nestedRelocModule : Module :=
  { name := 0, segment := 0, isData := false, bytes := [0, 0, 0, 1, 7, 9],
    labels := [(0, [0]), (4, [3, 4])],
    relocs := [(0, { size := 4, name1 := 1 }), (2, { size := 2, name1 := 2 })] }

/-- A module with an empty buffer, as the decoder builds it from a Module record with
name id 5 alone. -/
def emptyModule : Module :=
  { name := 5, segment := 0, isData := false, bytes := [], labels := [(0, [5])] }

/-- All label ids of a module, over all offsets. -/
def labelIds (m : Module) : List stringid := m.labels.flatMap Prod.snd

/-- The invariant of the ordering loop of `sortModules` on the module list `ms`: `sorted`
holds distinct valid indices, `unemitted` holds distinct names of modules, and a module
is in `sorted` exactly when its name has left `unemitted`. -/
structure SortInv (ms : List Module) (st : SortState) : Prop where
  nodup : st.sorted.Nodup
  bound : ∀ i ∈ st.sorted, i < ms.length
  unodup : st.unemitted.Nodup
  placed : ∀ i m, ms.get? i = some m → (i ∈ st.sorted ↔ m.name ∉ st.unemitted)
  known : ∀ x ∈ st.unemitted, ∃ i m, ms.get? i = some m ∧ m.name = x

/-- Two modules as the decoder builds them from Module(name 1), Module(name 2),
EntryPoint(name 1, offset 0): the second carries the name id of the first as a label. -/
def aliasFirst : Module := { name := 1, segment := 0, isData := false, labels := [(0, [1])] }
/-- See `aliasFirst`. -/
def aliasSecond : Module := { name := 2, segment := 0, isData := false, labels := [(0, [2, 1])] }

/-- Three modules with distinct label ids; the first and the third refer to each other
by 16-bit relocations. -/
def linkedA : Module :=
  { name := 1, segment := 0, isData := false, bytes := [0, 0], labels := [(0, [1])],
    relocs := [(0, { size := 2, name1 := 3 })] }
/-- See `linkedA`. -/
def linkedB : Module :=
  { name := 2, segment := 0, isData := false, bytes := [0], labels := [(0, [2])] }
/-- See `linkedA`. -/
def linkedC : Module :=
  { name := 3, segment := 0, isData := false, bytes := [0, 0], labels := [(0, [3]), (1, [4])],
    relocs := [(0, { size := 2, name1 := 1 })] }

/-- The decimal text written by `ss << (int) c`. -/
def numText (b : Byte) : List Char := (toString (charValue b)).data

/-- The character is copied unchanged by `encodeIdentifier`: `c == '_' || isalnum(c)`. -/
def isIdentChar (b : Byte) : Bool := decide (charValue b = 95) || isalnum (charValue b)

/-- Reading a decimal text back. -/
def parseNum : List Char → Int
  | '-' :: rest => - (rest.foldl (fun acc c => acc * 10 + ((c.toNat : Int) - 48)) 0 : Int)
  | cs => (cs.foldl (fun acc c => acc * 10 + ((c.toNat : Int) - 48)) 0 : Int)

/-- The text begins with the bytes of "__z". -/
def startsWithMarker : List Byte → Bool
  | a :: b :: c :: _ => decide (a.val = 95) && decide (b.val = 95) && decide (c.val = 122)
  | _ => false

/-- The text contains the bytes of "__z" somewhere. -/
def hasMarker : List Byte → Bool
  | [] => false
  | a :: rest => startsWithMarker (a :: rest) || hasMarker rest

/-- The text begins with a digit. -/
def startsWithDigit : List Byte → Bool
  | [] => false
  | c :: _ => isdigit (charValue c)

/-- A name without the escape marker "__z" that does not begin with a digit. -/
abbrev PlainName (s : List Byte) : Prop := hasMarker s = false ∧ startsWithDigit s = false

/-- The characters that the loop of `encodeIdentifier` appends for the whole text. -/
def encodeBody (s : List Byte) : List Char := s.flatMap fun b => (encodeChar b).data

/-- A String Table with the names "-", "__z45_", "", "__z", "1_" and the byte 01. -/
def collidingNames : Tables :=
  { stringDictionary :=
      [(0, [45]), (1, [95, 95, 122, 52, 53, 95]), (2, []), (3, [95, 95, 122]),
       (4, [49, 95]), (5, [1])] }

/-- A String Table with the names "-" and "_z45_". -/
def plainNames : Tables :=
  { stringDictionary := [(0, [45]), (1, [95, 122, 52, 53, 95])] }

/-- A code module without content, used with explicit section identifiers. -/
def longNameModule : Module := { name := 0, segment := 0, isData := false }

/-- The line ends with the current-position marker: its last characters are "-." and
the line break. -/
def endsWithMarker (text : String) : Bool :=
  text.data.reverse.take 3 == ['\n', '.', '-']

/-- A String Table with the names "foo" and "bar". -/
def fooBarNames : Tables :=
  { stringDictionary := [(0, [102, 111, 111]), (1, [98, 97, 114])] }

/-- A width-2 relocation to the name 0 alone. -/
def shortFoo : Reloc := { size := 2, name1 := 0 }

/-- A width-4 relocation to the name 0 alone. -/
def longFoo : Reloc := { size := 4, name1 := 0 }

/-- The `.byte` directive written for one buffer byte. -/
def byteLine (b : Byte) : String :=
  "\t.byte " ++ toString b.val ++ "\n"

/-- The label of the module's name at offset 0, then one `.byte` item per buffer byte
in offset order. -/
def plainItems (t : Tables) (m : Module) : List Item :=
  Item.label 0 m.name (labelText t m.name)
    :: m.bytes.enum.map fun ib => Item.byte ib.1 (byteLine ib.2)

/-- The stream First(version 3), Dictionary{0:"foo"}, Module(name 0, segment 0,
flags 0x08), Size(4), Content(offset 0, bytes [0,0,0,0]), Last. -/
def fooStream : List Byte :=
  [1, 0, 0, 3,
   4, 0, 0, 10, 0, 0, 3, 102, 111, 111,
   5, 8, 0, 0, 0, 0,
   7, 0, 0, 0, 0, 4,
   8, 8, 0, 12, 0, 0, 0, 0, 0, 0, 0, 0,
   2, 0]

/-- The tables after the records of `fooStream`. -/
def fooTables : Tables :=
  { sectionMap := [(0, 0)], stringDictionary := [(0, [102, 111, 111])] }

/-- The module decoded from `fooStream`. -/
def fooModule : Module :=
  { name := 0, segment := 0, isData := false, bytes := [0, 0, 0, 0], labels := [(0, [0])] }

/-- The stream First(version 3), Dictionary{0:"foo"}, Module(name 0, segment 0,
flags 0x08), Last: a module without content. -/
def fooEmptyStream : List Byte :=
  [1, 0, 0, 3,
   4, 0, 0, 10, 0, 0, 3, 102, 111, 111,
   5, 8, 0, 0, 0, 0,
   2, 0]

/-- A decoder at a Content record with flags 0x08, size word 9, offset 0xFFFFFFFF and
the one payload byte 0xAA, while a module with a buffer of four bytes is current. -/
def wrapContent : Decoder :=
  { inp := { data := [8, 8, 0, 9, 255, 255, 255, 255, 170] },
    module := some { name := 0, segment := 0, isData := false, bytes := [0, 0, 0, 0],
                     labels := [(0, [0])] } }

/-- A module with the two buffer bytes 5, 6. -/
def repeatModule : Module :=
  { name := 0, segment := 0, isData := false, bytes := [5, 6], labels := [(0, [0])] }

/-- A decoder inside a Content record (the record type has been read) with flags 0x18,
size word 12, offset 1, repeat count 3 and the payload bytes 7, 9, while
`repeatModule` is current. -/
def repeatContent : Decoder :=
  { inp := { data := [8, 0x18, 0, 12, 0, 0, 0, 1, 0, 3, 7, 9], pos := 1 },
    module := some repeatModule }

/-- The header fields of the record of `repeatContent`: offset 1, size 2, repeat 3,
payload from position 10. -/
def repeatHeader : ContentHeader :=
  { offset := 1, sz := 2, repeat_ := 3,
    inp := { data := [8, 0x18, 0, 12, 0, 0, 0, 1, 0, 3, 7, 9], pos := 10 } }

/-- The decoder variables that an outcome carries, if any. -/
def Outcome.state? : Outcome → Option Decoder
  | .next d => some d
  | .last d => some d
  | .exit1 _ d => some d
  | .abort d => some d
  | _ => none

/-- The name id that case `kModule` reads from the stream at `d`. -/
def moduleRecordName (d : Decoder) : stringid := d.inp.byte.2.word.1

/-- The flags byte that case `kComputedRef` reads from the stream at `d`. -/
def computedRefFlags (d : Decoder) : Nat := d.inp.byte.1

/-- The size word that case `kComputedRef` reads. -/
def computedRefSize (d : Decoder) : Nat := d.inp.byte.2.word.1

/-- The primary symbol id that case `kComputedRef` reads. -/
def computedRefPrimary (d : Decoder) : stringid := d.inp.byte.2.word.2.word.1

/-- The secondary symbol id that case `kComputedRef` reads. -/
def computedRefSecondary (d : Decoder) : stringid := d.inp.byte.2.word.2.word.2.word.1

/-- The stream holds the ComputedRef record that starts at the state `d`: it has not
failed, and the seven bytes after the type byte (flags, size, two symbols) and every
offset word that the loop reads for the declared size are there. -/
abbrev ComputedRefComplete (d : Decoder) : Prop :=
  d.inp.failed = false
    ∧ d.inp.pos + 7 + 2 * ((computedRefSize d - 7) / 2) ≤ d.inp.data.length

/-- The current module `mo1` is the current module `mo` up to its buffer, labels and
relocations, and every relocation of `mo1` was one of `mo` or has width 2 or 4. -/
def ModuleKept (mo mo1 : Option Module) : Prop :=
  mo1 = mo ∨ ∃ m m1, mo = some m ∧ mo1 = some m1 ∧ m1.name = m.name
    ∧ ∀ o r, m1.relocs.lookup o = some r → m.relocs.lookup o = some r ∨ r.size = 2 ∨ r.size = 4

/-- A decoder inside a ComputedRef record (the record type has been read) with flags
0x90, size word 10, primary symbol 1, secondary symbol 2 and the one offset 0, read
while the module named 2 is current and the module named 1 has been declared. -/
def computedRefExample : Decoder :=
  { inp := { data := [10, 0x90, 0, 10, 0, 1, 0, 2, 0, 0], pos := 1 },
    tables := { sectionMap := [(1, 1), (2, 2)] },
    modules := [{ name := 1, segment := 0, isData := false, bytes := [0, 0], labels := [(0, [1])] }],
    module := some { name := 2, segment := 0, isData := false, bytes := [0, 0],
                     labels := [(0, [2])] } }

/-- Every relocation of every module of the decoder has width 2 or 4. -/
def RelocWidths (d : Decoder) : Prop :=
  ∀ m ∈ d.allModules, ∀ o r, m.relocs.lookup o = some r → r.size = 2 ∨ r.size = 4

/-- The stream First(version 3), Module(name 1, flags 0x08), Size(4), Reference(flags
0x10, symbol 1, offset 0), Module(name 2, flags 0x08), Size(4), ComputedRef(flags 0x90,
symbols 1 and 2, offset 2), Last. -/
def linkStream : List Byte :=
  [1, 0, 0, 3,
   5, 8, 0, 1, 0, 0,
   7, 0, 0, 0, 0, 4,
   9, 0x10, 0, 8, 0, 1, 0, 0,
   5, 8, 0, 2, 0, 0,
   7, 0, 0, 0, 0, 4,
   10, 0x90, 0, 10, 0, 1, 0, 2, 0, 2,
   2, 0]

/-- The first module decoded from `linkStream`. -/
def linkFirst : Module :=
  { name := 1, segment := 0, isData := false, bytes := [0, 0, 0, 0], labels := [(0, [1])],
    relocs := [(0, { size := 2, name1 := 1 })] }

/-- The second module decoded from `linkStream`. -/
def linkSecond : Module :=
  { name := 2, segment := 0, isData := false, bytes := [0, 0, 0, 0], labels := [(0, [2])],
    relocs := [(2, { size := 2, name1 := 1, name2 := 2 })] }

/-- The decoder variables after the records of `linkStream`. -/
def linkDecoded : Decoder :=
  { inp := { data := linkStream, pos := 48 },
    tables := { sectionMap := [(1, 1), (2, 1)] },
    modules := [linkFirst], module := some linkSecond }

/-- The invariant of the section map: the name of every module is a key, and every
value is the name of a module. -/
def SectionInv (d : Decoder) : Prop :=
  (∀ m ∈ d.allModules, ∃ v, d.tables.sectionMap.lookup m.name = some v)
  ∧ (∀ k v, d.tables.sectionMap.lookup k = some v → ∃ m ∈ d.allModules, m.name = v)

/-- The byte of the stream at distance `i` from the read position of `d`. -/
def recordByte (d : Decoder) (i : Nat) : Nat := (d.inp.data.getD (d.inp.pos + i) 0).val

/-- The big-endian word of the stream at distance `i` from the read position of `d`. -/
def recordWord (d : Decoder) (i : Nat) : Nat := recordByte d i * 256 + recordByte d (i + 1)

/-- The big-endian words of `data` from position `pos` on, `k` of them. -/
def offsetWords (data : List Byte) : Nat → Nat → List Nat
  | _, 0 => []
  | pos, k + 1 =>
      ((data.getD pos 0).val * 256 + (data.getD (pos + 1) 0).val) :: offsetWords data (pos + 2) k

/-- The offsets listed in the Reference record that starts at the state `d` (the record
type has been read): the words after flags, size and symbol, up to the declared size. -/
def referenceOffsets (d : Decoder) : List Nat :=
  offsetWords d.inp.data (d.inp.pos + 5) ((referenceSize d - 5) / 2)

/-- The decoder `d2` is the decoder `d` over a stream that differs only in bit 0x01 of
the byte at the read position (the flags byte of the record). -/
abbrev FlagBitFlipped (d d2 : Decoder) : Prop :=
  d2.tables = d.tables ∧ d2.modules = d.modules ∧ d2.module = d.module
    ∧ d2.inp.pos = d.inp.pos ∧ d2.inp.eof = d.inp.eof ∧ d2.inp.failed = d.inp.failed
    ∧ d2.inp.data.length = d.inp.data.length
    ∧ (∀ i, i ≠ d.inp.pos → d2.inp.data.getD i 0 = d.inp.data.getD i 0)
    ∧ (d2.inp.data.getD d.inp.pos 0).val = (d.inp.data.getD d.inp.pos 0).val ^^^ 1

/-- A module with six buffer bytes and 32-bit relocations at offsets 0 and 2. -/
def refModule : Module :=
  { name := 1, segment := 0, isData := false, bytes := [0, 0, 0, 0, 0, 0], labels := [(0, [1])],
    relocs := [(0, { size := 4, name1 := 3 }), (2, { size := 4, name1 := 3 })] }

/-- A decoder inside a Reference record (the record type has been read) with flags
0x11, size word 10, symbol 7 and the offsets 0 and 4, while `refModule` is current. -/
def refExample : Decoder :=
  { inp := { data := [9, 0x11, 0, 10, 0, 7, 0, 0, 0, 4], pos := 1 }, module := some refModule }

/-- The decoder `refExample` over the stream with flags 0x10 instead of 0x11. -/
def refFlipped : Decoder :=
  { inp := { data := [9, 0x10, 0, 10, 0, 7, 0, 0, 0, 4], pos := 1 }, module := some refModule }

/-- One round of the loop `while(!unemitted.empty())` of `sortModules`: the inner loop
`while(p != sorted.end())`, then the step `if(!unemitted.empty())` that appends
`nameMap[*unemitted.begin()]` and erases that name. -/
def sortPass (modules : List Module) (nameMap : List (stringid × Nat)) (refs : List (List Nat))
    (st : SortState) : Except SortError SortState :=
  match scanLoop modules refs modules.length st with
  | .error e => .error e
  | .ok st1 =>
    match st1.unemitted with
    | [] => .ok st1
    | x :: rest =>
      match nameMap.lookup x with
      | some m => .ok { st1 with sorted := st1.sorted ++ [m], unemitted := rest }
      | none => .error .nullModule

/-- The counting invariant of the ordering loop on the module list `ms`: the scan
position lies within `sorted`, `unemitted` holds names of the initial set in their
order, and every name has either been erased, with one module appended for it, or is
still in `unemitted`. -/
def SortBound (ms : List Module) (st : SortState) : Prop :=
  st.p ≤ st.sorted.length
    ∧ st.sorted.length + st.unemitted.length = (initialUnemitted ms).length
    ∧ st.unemitted.Sublist (initialUnemitted ms)

/-- A near-reference edge of the graph that `sortModules` builds: module `b` (an index
into the module list) is in the `nearrefs` of module `a`. -/
def NearRef (ms : List Module) (a b : Nat) : Prop :=
  b ∈ (buildNearrefs ms (buildNameMap ms)).getD a []

/-- Two modules are in the same connected component of the near-reference graph. -/
def Connected (ms : List Module) : Nat → Nat → Prop :=
  Relation.ReflTransGen (NearRef ms)

/-- The edge lists have one entry per module, hold indices of modules only, and are
symmetric. -/
def RefsOk (n : Nat) (refs : List (List Nat)) : Prop :=
  refs.length = n ∧ ∀ a b, b ∈ refs.getD a [] → a ∈ refs.getD b [] ∧ b < n

/-- The invariant of the ordering loop that gives the clustering.  The entries of
`sorted` before position `s` form complete connected components, laid out in
contiguous blocks; the entries from `s` on belong to one component; and all neighbours
of the entries before the scan position `p` have been appended. -/
structure BfsInv (ms : List Module) (s : Nat) (st : SortState) : Prop where
  base : SortInv ms st
  s_le : s ≤ st.p
  p_le : st.p ≤ st.sorted.length
  scanned : ∀ (i a : Nat), i < st.p → st.sorted[i]? = some a → ∀ b, NearRef ms a b → b ∈ st.sorted
  contig : ∀ (i j k a b c : Nat), i < j → j < k → st.sorted[i]? = some a → st.sorted[j]? = some b →
    st.sorted[k]? = some c → Connected ms a c → Connected ms a b
  closed : ∀ (i a : Nat), i < s → st.sorted[i]? = some a → ∀ b, Connected ms a b →
    ∃ k, k < s ∧ st.sorted[k]? = some b
  block : ∀ (i j a b : Nat), s ≤ i → s ≤ j → st.sorted[i]? = some a → st.sorted[j]? = some b →
    Connected ms a b

/-- Every module of the decoder carries its own name id among its labels. -/
def OwnNames (d : Decoder) : Prop :=
  ∀ m ∈ d.allModules, m.name ∈ labelIds m

/-- What the emission loop writes for a module without relocations: at every offset of
the buffer, in order, the labels registered there and then the `.byte` directive of
the byte. -/
def plainWalk (t : Tables) (m : Module) : List Item :=
  m.bytes.enum.flatMap fun ib => labelItems t m ib.1 ++ [Item.byte ib.1 (byteLine ib.2)]

/-- Every module of the decoder has its own name id as the first label at offset 0. -/
def NameFirst (d : Decoder) : Prop :=
  ∀ m ∈ d.allModules, ∃ more, m.labels.lookup 0 = some (m.name :: more)

/-- The stream First(version 3), Dictionary{0:"foo", 1:"bar"}, Module(name 0, segment 0,
flags 0x08), Size(4), Content(offset 0, bytes [1,2,3,4]), EntryPoint(flags 0x08,
name 1, offset 2), Last. -/
def fooEntryStream : List Byte :=
  [1, 0, 0, 3,
   4, 0, 0, 14, 0, 0, 3, 102, 111, 111, 3, 98, 97, 114,
   5, 8, 0, 0, 0, 0,
   7, 0, 0, 0, 0, 4,
   8, 8, 0, 12, 0, 0, 0, 0, 1, 2, 3, 4,
   6, 8, 0, 1, 0, 0, 0, 2,
   2, 0]

/-- The tables after the records of `fooEntryStream`. -/
def fooEntryTables : Tables :=
  { sectionMap := [(0, 0)],
    stringDictionary := [(0, [102, 111, 111]), (1, [98, 97, 114])] }

/-- The module decoded from `fooEntryStream`: the name at offset 0 and the entry point
"bar" at offset 2. -/
def fooEntryModule : Module :=
  { name := 0, segment := 0, isData := false, bytes := [1, 2, 3, 4],
    labels := [(0, [0]), (2, [1])] }

/-- The decoder variables after the records of `fooStream`. -/
def fooDecoded : Decoder :=
  { inp := { data := fooStream, pos := 40 }, tables := fooTables, module := some fooModule }

/-- The decoder variables after the records of `fooEntryStream`. -/
def fooEntryDecoded : Decoder :=
  { inp := { data := fooEntryStream, pos := 52 }, tables := fooEntryTables,
    module := some fooEntryModule }

/-! # Properties -/

/-! ## Addend of a 16-bit relocation -/

/-- C10: `Reloc::write` on a width-2 relocation over the bytes FF FE (the 16-bit
two's-complement value -2) writes the addend as the unsigned value " + 65534",
not as " - 2". -/
theorem reloc_write_short_addend_unsigned :
    Reloc.write { stringDictionary := [(0, [102, 111, 111])] } { size := 2, name1 := 0 }
        [0xFF, 0xFE]
      = .ok ("\t.short foo + 65534-.\n", 2) := by
  decide

/-! ## Bytes from 0x80 in identifiers -/

/-- C4: for the stored name consisting of the single byte 0xC3, `encodeIdentifier`
returns "__z-61_", which contains a minus sign and so is not made of letters, digits and
underscores only. -/
theorem encodeIdentifier_high_byte :
    encodeIdentifier { stringDictionary := [(0, [0xC3])] } 0 = "__z-61_"
      ∧ '-' ∈ (encodeIdentifier { stringDictionary := [(0, [0xC3])] } 0).data := by
  decide

/-! ## Truncated input -/

/-- C8: on the 5-byte stream 01 00 00 03 02, in which the trailing byte of the Last
record is missing, `main` ends with exit status 0 and has written the preamble; and on
a stream that ends inside a Reference record (declared size 10, 6 bytes present) the
offset loop never ends, so `main` does not terminate with a failure either.  Both hold
whatever value the reader hands back at the end of the stream. -/
theorem main_truncated_input (eof : Nat) :
    main [1, 0, 0, 3, 2] eof = .exit 0 "\t.text\n\t.align 2\n"
      ∧ main [1, 0, 0, 3, 5, 8, 0, 0, 0, 0, 9, 0x10, 0, 10, 0, 0] eof = .diverge :=
  ⟨rfl, rfl⟩

/-! ## Header validation -/

theorem readHeader_ok_of_valid (data : List Byte) (eof : Nat) (hv : ValidHeader data) :
    readHeader { data := data, eof := eof }
      = .ok { data := data, pos := 4, failed := false, eof := eof } := by
  obtain ⟨b0, b1, b2, b3, rest, rfl, h0, h23⟩ := hv
  have hv : ¬ (b2.val * 256 + b3.val > 3) := by omega
  simp [readHeader, IStream.byte, IStream.word, h0, hv]

theorem valid_of_readHeader_ok (data : List Byte) (eof : Nat) (h : 4 ≤ data.length ∨ 3 < eof)
    (s : IStream) (hok : readHeader { data := data, eof := eof } = .ok s) : ValidHeader data := by
  rcases data with _ | ⟨b0, _ | ⟨b1, _ | ⟨b2, _ | ⟨b3, rest⟩⟩⟩⟩
  · have h3 : 3 < eof := by simpa using h
    simp only [readHeader, IStream.byte, IStream.word] at hok
    simp at hok
    split at hok
    · split at hok
      · simp at hok
      · omega
    · simp at hok
  · have h3 : 3 < eof := by simpa using h
    simp [readHeader, IStream.byte, IStream.word] at hok
    split at hok
    · split at hok
      · simp at hok
      · omega
    · simp at hok
  · have h3 : 3 < eof := by simpa using h
    simp [readHeader, IStream.byte, IStream.word] at hok
    split at hok
    · split at hok
      · simp at hok
      · omega
    · simp at hok
  · have h3 : 3 < eof := by simpa using h
    simp [readHeader, IStream.byte, IStream.word] at hok
    split at hok
    · split at hok
      · simp at hok
      · omega
    · simp at hok
  · simp [readHeader, IStream.byte, IStream.word] at hok
    split at hok
    · split at hok
      · simp at hok
      · exact ⟨b0, b1, b2, b3, rest, rfl, by assumption, by omega⟩
    · simp at hok

theorem validHeader_set_flags (data : List Byte) (f : Byte) :
    ValidHeader (data.set 1 f) ↔ ValidHeader data := by
  constructor
  · rintro ⟨b0, b1, b2, b3, rest, hd, h0, h23⟩
    match data, hd with
    | c0 :: c1 :: c2 :: c3 :: crest, hd =>
      simp [List.set] at hd
      obtain ⟨rfl, -, rfl, rfl, rfl⟩ := hd
      exact ⟨_, _, _, _, _, rfl, h0, h23⟩
    | [], hd => simp at hd
    | [_], hd => simp [List.set] at hd
    | [_, _], hd => simp [List.set] at hd
    | [_, _, _], hd => simp [List.set] at hd
  · rintro ⟨b0, b1, b2, b3, rest, rfl, h0, h23⟩
    exact ⟨b0, f, b2, b3, rest, by simp [List.set], h0, h23⟩

/-- C7: the decoder goes past the header exactly for a valid header (first byte 1,
version at most 3): then `readHeader` leaves the stream at position 4 and `main`
continues with the record loop; otherwise `main` ends with status 1 and empty output,
before the preamble and before any record.  The byte at index 1 does not matter.
For a stream shorter than four bytes this needs the reader's end-of-stream value to
exceed 3 (it is 255). -/
theorem header_validation (data : List Byte) (eof : Nat) (h : 4 ≤ data.length ∨ 3 < eof) :
    (ValidHeader data →
        readHeader { data := data, eof := eof }
            = .ok { data := data, pos := 4, failed := false, eof := eof }
          ∧ main data eof
            = finish (recordLoop (data.length + 1)
                { inp := { data := data, pos := 4, failed := false, eof := eof } }))
    ∧ (¬ ValidHeader data →
        (∃ e, readHeader { data := data, eof := eof } = .error e) ∧ main data eof = .exit 1 "")
    ∧ (∀ f : Byte, ValidHeader (data.set 1 f) ↔ ValidHeader data) := by
  refine ⟨?_, ?_, validHeader_set_flags data⟩
  · intro hv
    have hr := readHeader_ok_of_valid data eof hv
    exact ⟨hr, by simp [main, hr]⟩
  · intro hbad
    cases hr : readHeader { data := data, eof := eof } with
    | error e => exact ⟨⟨e, rfl⟩, by simp [main, hr]⟩
    | ok s => exact absurd (valid_of_readHeader_ok data eof h s hr) hbad

/-- Witness for `header_validation`: a six-byte stream with a valid header. -/
theorem header_validation_witness :
    (4 ≤ ([1, 0, 0, 3, 2, 0] : List Byte).length ∨ 3 < 255) ∧
    main [1, 0, 0, 3, 2, 0] 255 = finish (recordLoop 7 { inp := { data := [1, 0, 0, 3, 2, 0], pos := 4, failed := false, eof := 255 } }) :=
  ⟨by decide, ((header_validation [1, 0, 0, 3, 2, 0] 255 (by decide)).1 ⟨1, 0, 0, 3, [2, 0], rfl, by decide, by decide⟩).2⟩

/-! ## Unknown record types -/

theorem dictLoop_not_unknown (end_ : Int) (fuel : Nat) (d : Decoder) (id : stringid) :
    (dictLoop end_ fuel d id).isUnknownRecord = false := by
  induction fuel generalizing d id with
  | zero => unfold dictLoop; split <;> [split; skip] <;> simp [Outcome.isUnknownRecord]
  | succ n ih =>
    unfold dictLoop
    split
    · split
      · rfl
      · exact ih _ _
    · rfl

theorem relocLoop_not_unknown (end_ : Int) (reloc : Reloc) (fuel : Nat) (d : Decoder) (m : Module) :
    (relocLoop end_ reloc fuel d m).isUnknownRecord = false := by
  induction fuel generalizing d m with
  | zero => unfold relocLoop; split <;> [split; skip] <;> simp [Outcome.isUnknownRecord]
  | succ n ih =>
    unfold relocLoop
    split
    · split
      · rfl
      · exact ih _ _
    · rfl

theorem doContent_not_unknown (d : Decoder) : (doContent d).isUnknownRecord = false := by
  unfold doContent
  simp only
  split
  · rfl
  · split <;> rfl

theorem doReference_not_unknown (d : Decoder) : (doReference d).isUnknownRecord = false := by
  unfold doReference
  simp only
  split
  · rfl
  · split
    · rfl
    · split
      · rfl
      · exact relocLoop_not_unknown _ _ _ _ _

theorem doComputedRef_not_unknown (d : Decoder) : (doComputedRef d).isUnknownRecord = false := by
  unfold doComputedRef
  simp only
  split
  · rfl
  · split
    · rfl
    · exact relocLoop_not_unknown _ _ _ _ _

theorem doSize_not_unknown (d : Decoder) : (doSize d).isUnknownRecord = false := by
  unfold doSize
  simp only
  split <;> rfl

theorem doEntryPoint_not_unknown (d : Decoder) : (doEntryPoint d).isUnknownRecord = false := by
  unfold doEntryPoint
  simp only
  split <;> rfl

theorem IStream.byte_of_get (s : IStream) (b : Byte) (hf : s.failed = false)
    (hb : s.data.get? s.pos = some b) : s.byte = (b.val, { s with pos := s.pos + 1 }) := by
  simp only [IStream.byte, hf, hb]
  rfl

theorem dispatch_known (t : Nat) (d : Decoder) (h : t ∈ knownRecordTypes) :
    (dispatch t d).isUnknownRecord = false := by
  simp only [knownRecordTypes, List.mem_cons, List.mem_singleton, List.not_mem_nil, or_false] at h
  rcases h with h | h | h | h | h | h | h | h | h | h | h <;> subst h
  · rfl
  · exact (by simp [dispatch, doLast, Outcome.isUnknownRecord])
  · exact (by simp [dispatch, doComment, Outcome.isUnknownRecord])
  · exact (by simp [dispatch, doDictionary, dictLoop_not_unknown])
  · exact (by simp [dispatch, doModule, Outcome.isUnknownRecord])
  · exact (by simp [dispatch, doEntryPoint_not_unknown])
  · exact (by simp [dispatch, doSize_not_unknown])
  · exact (by simp [dispatch, doContent_not_unknown])
  · exact (by simp [dispatch, doReference_not_unknown])
  · exact (by simp [dispatch, doComputedRef_not_unknown])
  · exact (by simp [dispatch, doFilename, Outcome.isUnknownRecord])

theorem dispatch_unknown (t : Nat) (d : Decoder) (h : t ∉ knownRecordTypes) :
    dispatch t d = .exit1 (.unknownRecord t d.inp.tellg) d := by
  simp only [knownRecordTypes, List.mem_cons, List.mem_singleton, not_or, List.not_mem_nil,
    or_false] at h
  simp [dispatch, h]

/-- C9: when the main loop reads the record-type byte `t` (the stream has not failed
and holds `t` at the read position), the round ends in the unknown-record failure
exactly when `t` is none of 0, 2, 3, ..., 11; so every `t` from 12 to 255 and `t = 1`
are rejected.  In that case the loop stops at once, and `main` ends with status 1
having written the preamble only: no module is emitted. -/
theorem unknown_record_fatal (d : Decoder) (t : Byte)
    (hgood : d.inp.failed = false) (hbyte : d.inp.data.get? d.inp.pos = some t) :
    ((step d).isUnknownRecord = true ↔ t.val ∉ knownRecordTypes)
    ∧ (t.val ∉ knownRecordTypes →
        step d = .exit1 (.unknownRecord t.val (d.inp.pos + 1))
                   { d with inp := { d.inp with pos := d.inp.pos + 1 } }
        ∧ ∀ fuel, recordLoop (fuel + 1) d = step d
            ∧ finish (recordLoop (fuel + 1) d) = .exit 1 preamble) := by
  have hstep : step d = dispatch t.val { d with inp := { d.inp with pos := d.inp.pos + 1 } } := by
    simp [step, IStream.byte_of_get d.inp t hgood hbyte, hgood]
  have hex : t.val ∉ knownRecordTypes →
      step d = .exit1 (.unknownRecord t.val (d.inp.pos + 1))
                   { d with inp := { d.inp with pos := d.inp.pos + 1 } } := by
    intro hnot
    rw [hstep, dispatch_unknown _ _ hnot]
    simp [IStream.tellg, hgood]
  refine ⟨?_, fun hnot => ⟨hex hnot, fun fuel => ?_⟩⟩
  · constructor
    · intro hu hk
      rw [hstep, dispatch_known _ _ hk] at hu
      exact Bool.false_ne_true hu
    · intro hnot
      rw [hex hnot]
      rfl
  · simp [recordLoop, hex hnot, finish]

/-- Witness for `unknown_record_fatal`: a second First marker right after the header. -/
theorem unknown_record_fatal_witness :
    (({ inp := { data := [1, 0, 0, 3, 1], pos := 4 } } : Decoder).inp.failed = false
      ∧ ([1, 0, 0, 3, 1] : List Byte).get? 4 = some 1)
    ∧ (step { inp := { data := [1, 0, 0, 3, 1], pos := 4 } }).isUnknownRecord = true
    ∧ finish (recordLoop 2 { inp := { data := [1, 0, 0, 3, 1], pos := 4 } }) = .exit 1 preamble :=
  ⟨⟨rfl, rfl⟩,
   (unknown_record_fatal { inp := { data := [1, 0, 0, 3, 1], pos := 4 } } 1 rfl rfl).1.2
      (by decide),
   (((unknown_record_fatal { inp := { data := [1, 0, 0, 3, 1], pos := 4 } } 1 rfl rfl).2
      (by decide)).2 1).2⟩

/-! ## Unsupported flags of a Reference record -/

theorem IStream.byte_mk (data : List Byte) (pos eof : Nat) (hlt : pos < data.length) :
    (IStream.mk data pos false eof).byte = ((data.get ⟨pos, hlt⟩).val, IStream.mk data (pos + 1) false eof) := by
  simp [IStream.byte, List.get?_eq_getElem?, hlt]

theorem IStream.word_mk (data : List Byte) (pos eof : Nat) (hle : pos + 2 ≤ data.length) :
    (IStream.mk data pos false eof).word
      = ((data.get ⟨pos, by omega⟩).val * 256 + (data.get ⟨pos + 1, by omega⟩).val,
          IStream.mk data (pos + 2) false eof) := by
  simp only [IStream.word, IStream.byte_mk data pos eof (by omega),
    IStream.byte_mk data (pos + 1) eof (by omega)]

theorem IStream.tellg_mk (data : List Byte) (pos eof : Nat) :
    (IStream.mk data pos false eof).tellg = (pos : Int) := rfl

theorem relocLoop_next (end_ : Int) (reloc : Reloc) (data : List Byte) (eof : Nat) (t : Tables)
    (ms : List Module) (fuel : Nat) :
    ∀ (k pos : Nat) (mo : Option Module) (m : Module), k < fuel →
      end_ ≤ (pos : Int) + 2 * k → pos + 2 * k ≤ data.length →
      ∃ s m1, relocLoop end_ reloc fuel ⟨IStream.mk data pos false eof, t, ms, mo⟩ m
        = .next ⟨s, t, ms, some m1⟩ := by
  induction fuel with
  | zero => intro k pos mo m hk; omega
  | succ n ih =>
    intro k pos mo m hk hend hlen
    unfold relocLoop
    simp only [IStream.tellg_mk]
    by_cases hlt : (pos : Int) < end_
    · have hk1 : 1 ≤ k := by omega
      rw [if_pos hlt, if_neg (by simp)]
      simp only [IStream.word_mk data pos eof (by omega)]
      exact ih (k - 1) (pos + 2) mo _ (by omega) (by push_cast; omega) (by omega)
    · rw [if_neg hlt]
      exact ⟨_, _, rfl⟩

theorem doReference_unsupported (d : Decoder) (h : UnsupportedFlags (referenceFlags d)) :
    ∃ why s, doReference d = .exit1 why { d with inp := s } := by
  unfold doReference
  simp only
  by_cases h1 : d.inp.byte.1 &&& 0x6E ≠ 0
  · exact ⟨_, _, by rw [if_pos h1]⟩
  · have h2 : d.inp.byte.1 &&& 0x80 ≠ 0 := by
      rcases h with h | h
      · exact absurd h h1
      · exact h
    exact ⟨_, _, by rw [if_neg h1, if_pos h2]⟩

theorem relocLoop_not_exit1 (end_ : Int) (reloc : Reloc) (fuel : Nat) (d : Decoder) (m : Module)
    (why : Failure) (d1 : Decoder) : relocLoop end_ reloc fuel d m ≠ .exit1 why d1 := by
  induction fuel generalizing d m with
  | zero => unfold relocLoop; split <;> [split; skip] <;> simp
  | succ n ih =>
    unfold relocLoop
    split
    · split
      · simp
      · exact ih _ _
    · simp

theorem doReference_supported_not_exit (d : Decoder) (h : ¬ UnsupportedFlags (referenceFlags d)) :
    ∀ why d1, doReference d ≠ .exit1 why d1 := by
  intro why d1
  have h1 : ¬ (d.inp.byte.1 &&& 0x6E ≠ 0) := fun hc => h (Or.inl hc)
  have h2 : ¬ (d.inp.byte.1 &&& 0x80 ≠ 0) := fun hc => h (Or.inr hc)
  unfold doReference
  simp only
  rw [if_neg h1, if_neg h2]
  split
  · simp
  · exact relocLoop_not_exit1 _ _ _ _ _ _ _

theorem doReference_supported_next (d : Decoder) (m : Module) (hm : d.module = some m)
    (hc : ReferenceComplete d) (h : ¬ UnsupportedFlags (referenceFlags d)) :
    ∃ s m1, doReference d = .next { d with inp := s, module := some m1 } := by
  obtain ⟨inp, t, ms, mo⟩ := d
  obtain ⟨data, pos, failed, eof⟩ := inp
  obtain ⟨hf, hlen⟩ := hc
  simp only at hf hm hlen
  subst hf hm
  have h1 : ¬ ((IStream.mk data pos false eof).byte.1 &&& 0x6E ≠ 0) := fun hc => h (Or.inl hc)
  have h2 : ¬ ((IStream.mk data pos false eof).byte.1 &&& 0x80 ≠ 0) := fun hc => h (Or.inr hc)
  unfold doReference
  simp only
  rw [if_neg h1, if_neg h2]
  simp only [referenceSize, IStream.byte_mk data pos eof (by omega),
    IStream.word_mk data (pos + 1) eof (by omega)] at hlen
  simp only [IStream.byte_mk data pos eof (by omega),
    IStream.word_mk data (pos + 1) eof (by omega), IStream.word_mk data (pos + 3) eof (by omega),
    IStream.tellg_mk]
  exact relocLoop_next _ _ data eof t ms _ (((data.get ⟨pos + 1, by omega⟩).val * 256
    + (data.get ⟨pos + 1 + 1, by omega⟩).val - 5) / 2) (pos + 5) _ _ (by omega)
    (by push_cast; omega) (by omega)

/-- C6: for a Reference record that lies in the stream, read while a module is current,
decoding ends in `exit(1)` exactly when the flags have a bit of 0x6E or the bit 0x80;
at that exit the module list, the current module (so its relocations) and the tables are
what they were before the record; for any other flags the record is decoded and the
loop goes on, with only the stream and the current module changed. -/
theorem reference_flags_fatal (d : Decoder) (m : Module) (hm : d.module = some m)
    (hc : ReferenceComplete d) :
    ((∃ why d1, doReference d = .exit1 why d1) ↔ UnsupportedFlags (referenceFlags d))
    ∧ (∀ why d1, doReference d = .exit1 why d1 →
        d1.module = d.module ∧ d1.modules = d.modules ∧ d1.tables = d.tables)
    ∧ (¬ UnsupportedFlags (referenceFlags d) →
        ∃ s m1, doReference d = .next { d with inp := s, module := some m1 }) := by
  refine ⟨⟨?_, ?_⟩, ?_, doReference_supported_next d m hm hc⟩
  · rintro ⟨why, d1, he⟩
    by_contra hn
    exact doReference_supported_not_exit d hn why d1 he
  · intro hu
    obtain ⟨why, s, he⟩ := doReference_unsupported d hu
    exact ⟨why, _, he⟩
  · intro why d1 he
    by_cases hu : UnsupportedFlags (referenceFlags d)
    · obtain ⟨why2, s, he2⟩ := doReference_unsupported d hu
      rw [he2] at he
      injection he with _ hd
      subst hd
      exact ⟨rfl, rfl, rfl⟩
    · exact absurd he (doReference_supported_not_exit d hu why d1)

/-- Witness for `reference_flags_fatal`: a 16-bit Reference record with one offset,
read after a Module record. -/
theorem reference_flags_fatal_witness :
    (({ inp := { data := [1, 0, 0, 3, 5, 8, 0, 0, 0, 0, 9, 0x10, 0, 8, 0, 0, 0, 2, 2, 0],
                 pos := 11 },
        module := some { name := 0, segment := 0, isData := false } } : Decoder).module
        = some { name := 0, segment := 0, isData := false }
      ∧ ReferenceComplete
          { inp := { data := [1, 0, 0, 3, 5, 8, 0, 0, 0, 0, 9, 0x10, 0, 8, 0, 0, 0, 2, 2, 0],
                     pos := 11 },
            module := some { name := 0, segment := 0, isData := false } })
    ∧ ∃ s m1,
        doReference
            { inp := { data := [1, 0, 0, 3, 5, 8, 0, 0, 0, 0, 9, 0x10, 0, 8, 0, 0, 0, 2, 2, 0],
                       pos := 11 },
              module := some { name := 0, segment := 0, isData := false } }
          = .next
            { inp := s, tables := {}, modules := [], module := some m1 } :=
  ⟨⟨rfl, by decide⟩,
   (reference_flags_fatal
      { inp := { data := [1, 0, 0, 3, 5, 8, 0, 0, 0, 0, 9, 0x10, 0, 8, 0, 0, 0, 2, 2, 0],
                 pos := 11 },
        module := some { name := 0, segment := 0, isData := false } }
      { name := 0, segment := 0, isData := false } rfl (by decide)).2.2 (by decide)⟩

/-! ## The emission loop -/

theorem Reloc.write_ok (t : Tables) (r : Reloc) (p : List Byte)
    (hs : r.size = 2 ∨ r.size = 4) (hp : r.size ≤ (p.length : Int)) :
    ∃ text, r.write t p = .ok (text, r.size.toNat) := by
  rcases hs with hs | hs
  · match p, hp with
    | p0 :: p1 :: _, _ => exact ⟨_, by simp [Reloc.write, hs]; rfl⟩
    | [], hp => simp [hs] at hp
    | [_], hp => simp [hs] at hp
  · match p, hp with
    | p0 :: p1 :: p2 :: p3 :: _, _ => exact ⟨_, by simp [Reloc.write, hs]; rfl⟩
    | [], hp => simp [hs] at hp
    | [_], hp => simp [hs] at hp
    | [_, _], hp => simp [hs] at hp
    | [_, _, _], hp => simp [hs] at hp

theorem walkFrom_walked (t : Tables) (m : Module) (hfit : RelocsFit m) (fuel : Nat) :
    ∀ a, m.bytes.length ≤ fuel + a →
      ∃ items, walkFrom t m fuel a = .ok items ∧ Walked t m a items := by
  induction fuel with
  | zero =>
    intro a ha
    have : ¬ a < m.bytes.length := by omega
    exact ⟨[], by unfold walkFrom; simp [this], Walked.done a this⟩
  | succ n ih =>
    intro a ha
    by_cases hlt : a < m.bytes.length
    · unfold walkFrom
      simp only [hlt, if_true]
      cases hr : m.relocs.lookup a with
      | some r =>
        obtain ⟨hs, hb⟩ := hfit a r hr hlt
        obtain ⟨text, hw⟩ := Reloc.write_ok t r (m.bytes.drop a) hs (by simp; omega)
        have hwpos : 0 < r.size.toNat := by rcases hs with hs | hs <;> simp [hs]
        obtain ⟨rest, hrest, hwalked⟩ := ih (a + r.size.toNat) (by omega)
        refine ⟨labelItems t m a ++ Item.reloc a r.size.toNat text :: rest, ?_, ?_⟩
        · simp [hw, hrest]
        · exact Walked.step a (Item.reloc a r.size.toNat text) rest rfl rfl hwpos
            (by simp only [Item.width]; omega) hwalked
      | none =>
        obtain ⟨rest, hrest, hwalked⟩ := ih (a + 1) (by omega)
        refine ⟨_, by simp [hrest]; rfl, ?_⟩
        exact Walked.step a (Item.byte a _) rest rfl rfl (by simp [Item.width])
            (by simp only [Item.width]; omega) hwalked
    · exact ⟨[], by unfold walkFrom; simp [hlt], Walked.done a hlt⟩

theorem labelItems_offset (t : Tables) (m : Module) (a : Nat) :
    ∀ i ∈ labelItems t m a, i.offset = a ∧ i.isDirective = false := by
  intro i hi
  unfold labelItems at hi
  split at hi
  · simp only [List.mem_map] at hi
    obtain ⟨raw, _, rfl⟩ := hi
    exact ⟨rfl, rfl⟩
  · simp at hi

theorem spans_step (t : Tables) (m : Module) (a : Nat) (d : Item) (rest : List Item)
    (hd : d.isDirective = true) :
    spans (labelItems t m a ++ d :: rest) = (d.offset, d.width) :: spans rest := by
  have h0 : (labelItems t m a).filter Item.isDirective = [] := by
    rw [List.filter_eq_nil_iff]
    intro i hi
    simp [(labelItems_offset t m a i hi).2]
  simp [spans, List.filter_append, h0, List.filter_cons, hd]

theorem Walked.sum_widths {t : Tables} {m : Module} {a : Nat} {items : List Item}
    (h : Walked t m a items) (ha : a ≤ m.bytes.length) :
    ((spans items).map Prod.snd).sum + a = m.bytes.length := by
  induction h with
  | done a h => simp [spans]; omega
  | step a d rest hd ho hw hfit _ ih =>
    rw [spans_step t m a d rest hd]
    have := ih hfit
    simp only [List.map_cons, List.sum_cons]
    omega

theorem Walked.span_bounds {t : Tables} {m : Module} {a : Nat} {items : List Item}
    (h : Walked t m a items) :
    ∀ s ∈ spans items, a ≤ s.1 ∧ s.1 + s.2 ≤ m.bytes.length := by
  induction h with
  | done a h => simp [spans]
  | step a d rest hd ho hw hfit _ ih =>
    rw [spans_step t m a d rest hd]
    intro s hs
    rcases List.mem_cons.1 hs with rfl | hs
    · simp only [ho]
      omega
    · have := ih s hs
      omega

theorem Walked.cover {t : Tables} {m : Module} {a : Nat} {items : List Item}
    (h : Walked t m a items) (ha : a ≤ m.bytes.length) (k : Nat) :
    ((spans items).filter (covers k)).length = if a ≤ k ∧ k < m.bytes.length then 1 else 0 := by
  induction h with
  | done a h =>
    have : ¬ (a ≤ k ∧ k < m.bytes.length) := by omega
    simp [spans, this]
  | step a d rest hd ho hw hfit _ ih =>
    rw [spans_step t m a d rest hd]
    have ih := ih hfit
    rw [List.filter_cons]
    by_cases hk : a ≤ k ∧ k < a + d.width
    · have hc : covers k (d.offset, d.width) = true := by simp [covers, ho, hk]
      have h1 : ¬ (a + d.width ≤ k ∧ k < m.bytes.length) := by omega
      have h2 : a ≤ k ∧ k < m.bytes.length := by omega
      rw [hc, if_pos rfl, List.length_cons, ih, if_neg h1, if_pos h2]
    · have hc : covers k (d.offset, d.width) = false := by
        simp only [covers, ho, decide_eq_false_iff_not]
        exact hk
      have h3 : (a + d.width ≤ k ∧ k < m.bytes.length) ↔ (a ≤ k ∧ k < m.bytes.length) := by omega
      rw [hc, if_neg (by simp), ih]
      simp only [h3]

theorem Walked.offset_ge {t : Tables} {m : Module} {a : Nat} {items : List Item}
    (h : Walked t m a items) : ∀ i ∈ items, a ≤ i.offset := by
  induction h with
  | done a h => simp
  | step a d rest hd ho hw hfit _ ih =>
    intro i hi
    rcases List.mem_append.1 hi with hi | hi
    · rw [(labelItems_offset t m a i hi).1]
    · rcases List.mem_cons.1 hi with rfl | hi
      · omega
      · have := ih i hi
        omega

theorem Walked.labels_before {t : Tables} {m : Module} {a : Nat} {items : List Item}
    (h : Walked t m a items) :
    ∀ o ∈ (spans items).map Prod.fst,
      ∃ pre d post, items = pre ++ labelItems t m o ++ d :: post
        ∧ d.isDirective = true ∧ d.offset = o
        ∧ (∀ i ∈ pre, i.offset < o) ∧ (∀ i ∈ post, o < i.offset) := by
  induction h with
  | done a h => simp [spans]
  | step a d rest hd ho hw hfit hrest ih =>
    rw [spans_step t m a d rest hd]
    intro o hmem
    simp only [List.map_cons, List.mem_cons] at hmem
    rcases hmem with rfl | hmem
    · refine ⟨[], d, rest, by simp [ho], hd, rfl, by simp, ?_⟩
      intro i hi
      have := hrest.offset_ge i hi
      omega
    · obtain ⟨pre, d2, post, hsplit, hd2, ho2, hpre, hpost⟩ := ih o hmem
      have hge : a + d.width ≤ o := by
        obtain ⟨s, hs, rfl⟩ := List.mem_map.1 hmem
        exact (hrest.span_bounds s hs).1
      refine ⟨labelItems t m a ++ d :: pre, d2, post, by simp [hsplit], hd2, ho2, ?_, hpost⟩
      intro i hi
      rcases List.mem_append.1 hi with hi | hi
      · rw [(labelItems_offset t m a i hi).1]
        omega
      · rcases List.mem_cons.1 hi with rfl | hi
        · omega
        · exact hpre i hi

theorem relocsFit_of_all (m : Module)
    (h : ∀ p ∈ m.relocs, (p.2.size = 2 ∨ p.2.size = 4) ∧ (p.1 : Int) + p.2.size ≤ m.bytes.length) :
    RelocsFit m := by
  intro o r hl _
  have hmem : (o, r) ∈ m.relocs := by
    generalize m.relocs = l at hl
    induction l with
    | nil => simp at hl
    | cons p l ih =>
      obtain ⟨k, v⟩ := p
      rw [List.lookup_cons] at hl
      by_cases hk : o = k
      · subst hk
        simp at hl
        subst hl
        exact List.mem_cons_self _ _
      · have : (o == k) = false := by simpa using hk
        rw [this] at hl
        exact List.mem_cons_of_mem _ (ih hl)
  exact h (o, r) hmem

/-- C2 (as stated, refuted): for the one-byte module with a 16-bit relocation at offset
0 the relocation directive reads `p[1]` beyond the buffer, so there is no exact
consumption; `main` on the stream that declares this module has undefined behaviour. -/
theorem walk_overrun_counterexample :
    walk {} overrunModule = .error .outOfBounds
      ∧ (¬ ∃ items, walk {} overrunModule = .ok items
            ∧ ((spans items).map Prod.snd).sum = overrunModule.bytes.length)
      ∧ main [1, 0, 0, 3, 5, 8, 0, 0, 0, 0, 7, 0, 0, 0, 0, 1, 9, 0x10, 0, 8, 0, 0, 0, 0, 2, 0]
          = .undefined := by
  have h : walk {} overrunModule = .error .outOfBounds := by decide
  refine ⟨h, ?_, ?_⟩
  · rintro ⟨items, hok, -⟩
    rw [h] at hok
    cases hok
  · have h1 :
        main [1, 0, 0, 3, 5, 8, 0, 0, 0, 0, 7, 0, 0, 0, 0, 1, 9, 0x10, 0, 8, 0, 0, 0, 0, 2, 0]
          = finish (recordLoop 27
              { inp := { data := [1, 0, 0, 3, 5, 8, 0, 0, 0, 0, 7, 0, 0, 0, 0, 1, 9, 0x10, 0, 8,
                                  0, 0, 0, 0, 2, 0], pos := 4 } }) := rfl
    have h2 :
        recordLoop 27
            { inp := { data := [1, 0, 0, 3, 5, 8, 0, 0, 0, 0, 7, 0, 0, 0, 0, 1, 9, 0x10, 0, 8,
                                0, 0, 0, 0, 2, 0], pos := 4 } }
          = .last
              { inp := { data := [1, 0, 0, 3, 5, 8, 0, 0, 0, 0, 7, 0, 0, 0, 0, 1, 9, 0x10, 0, 8,
                                  0, 0, 0, 0, 2, 0], pos := 26 },
                tables := { sectionMap := [(0, 0)] },
                module := some overrunModule } := rfl
    have h3 :
        emit
            { inp := { data := [1, 0, 0, 3, 5, 8, 0, 0, 0, 0, 7, 0, 0, 0, 0, 1, 9, 0x10, 0, 8,
                                0, 0, 0, 0, 2, 0], pos := 26 },
              tables := { sectionMap := [(0, 0)] },
              module := some overrunModule } preamble
          = .undefined := rfl
    rw [h1, h2]
    exact h3

/-- C2 (amended): when every relocation of the module lies inside the buffer, the
emission loop completes, the widths of its directives (1 per `.byte`, the width per
relocation) sum to `bytes.size()`, every offset below `bytes.size()` lies in the span of
exactly one directive, and no span reaches beyond the buffer.  A relocation that starts
inside the span of an earlier one is skipped. -/
theorem walk_consumes_buffer (t : Tables) (m : Module) (hfit : RelocsFit m) :
    ∃ items, walk t m = .ok items
      ∧ ((spans items).map Prod.snd).sum = m.bytes.length
      ∧ (∀ k, k < m.bytes.length → ((spans items).filter (covers k)).length = 1)
      ∧ (∀ s ∈ spans items, s.1 + s.2 ≤ m.bytes.length) := by
  obtain ⟨items, hok, hw⟩ := walkFrom_walked t m hfit m.bytes.length 0 (by omega)
  refine ⟨items, hok, by simpa using hw.sum_widths (Nat.zero_le _), ?_, ?_⟩
  · intro k hk
    rw [hw.cover (Nat.zero_le _) k]
    simp [hk]
  · intro s hs
    exact (hw.span_bounds s hs).2

/-- Witness for `walk_consumes_buffer`: a module with a relocation inside the span of
another. -/
theorem walk_consumes_buffer_witness :
    RelocsFit nestedRelocModule
      ∧ ∃ items, walk {} nestedRelocModule = .ok items
          ∧ ((spans items).map Prod.snd).sum = nestedRelocModule.bytes.length
          ∧ (∀ k, k < nestedRelocModule.bytes.length →
              ((spans items).filter (covers k)).length = 1)
          ∧ (∀ s ∈ spans items, s.1 + s.2 ≤ nestedRelocModule.bytes.length) :=
  ⟨relocsFit_of_all nestedRelocModule (by decide),
   walk_consumes_buffer {} nestedRelocModule (relocsFit_of_all nestedRelocModule (by decide))⟩

/-- C3 (as stated, refuted): the module built from a Module record alone has its own
name registered at offset 0 and an empty buffer; the emission loop writes nothing, so
the label is never emitted. -/
theorem walk_empty_buffer_drops_label :
    emptyModule.labels.lookup 0 = some [5]
      ∧ walk {} emptyModule = .ok []
      ∧ (¬ ∃ items text, walk {} emptyModule = .ok items ∧ Item.label 0 5 text ∈ items)
      ∧ recordLoop 9 { inp := { data := [1, 0, 0, 3, 5, 8, 0, 5, 0, 0, 2, 0], pos := 4 } }
          = .last { inp := { data := [1, 0, 0, 3, 5, 8, 0, 5, 0, 0, 2, 0], pos := 12 },
                    tables := { sectionMap := [(5, 5)] },
                    module := some emptyModule } := by
  have h : walk {} emptyModule = .ok [] := by decide
  refine ⟨by decide, h, ?_, by rfl⟩
  rintro ⟨items, text, hok, hmem⟩
  rw [h] at hok
  cases hok
  simp at hmem

/-- C3 (amended): when every relocation of the module lies inside the buffer, then
for every offset `o` at which the loop writes a directive, the output splits into the
items of smaller offsets, then one label item per id registered at `o` in
registration order, then the directive of `o`, then the items of larger offsets.  So
each registration at a visited offset is emitted exactly once, at that offset and
just before its directive. -/
theorem walk_labels_at_visited (t : Tables) (m : Module) (hfit : RelocsFit m) :
    ∃ items, walk t m = .ok items
      ∧ ∀ o ∈ (spans items).map Prod.fst,
          ∃ pre d post,
            items = pre
                ++ ((m.labels.lookup o).getD []).map (fun raw => Item.label o raw (labelText t raw))
                ++ d :: post
            ∧ d.isDirective = true ∧ d.offset = o
            ∧ (∀ i ∈ pre, i.offset < o) ∧ (∀ i ∈ post, o < i.offset) := by
  obtain ⟨items, hok, hw⟩ := walkFrom_walked t m hfit m.bytes.length 0 (by omega)
  refine ⟨items, hok, fun o ho => ?_⟩
  obtain ⟨pre, d, post, h1, h2⟩ := hw.labels_before o ho
  refine ⟨pre, d, post, ?_, h2⟩
  rw [h1]
  congr 2
  unfold labelItems
  cases m.labels.lookup o <;> rfl

/-- Witness for `walk_labels_at_visited`: a module with labels at offsets 0 and 4. -/
theorem walk_labels_at_visited_witness :
    RelocsFit nestedRelocModule
      ∧ ∃ items, walk {} nestedRelocModule = .ok items
      ∧ ∀ o ∈ (spans items).map Prod.fst,
          ∃ pre d post,
            items = pre
                ++ ((nestedRelocModule.labels.lookup o).getD []).map
                      (fun raw => Item.label o raw (labelText {} raw))
                ++ d :: post
            ∧ d.isDirective = true ∧ d.offset = o
            ∧ (∀ i ∈ pre, i.offset < o) ∧ (∀ i ∈ post, o < i.offset) :=
  ⟨relocsFit_of_all nestedRelocModule (by decide),
   walk_labels_at_visited {} nestedRelocModule (relocsFit_of_all nestedRelocModule (by decide))⟩

/-! ## sortModules yields a permutation -/

theorem mem_setInsert (x a : stringid) (s : List stringid) :
    a ∈ setInsert x s ↔ a = x ∨ a ∈ s := by
  induction s with
  | nil => simp [setInsert]
  | cons y ys ih =>
    unfold setInsert
    split
    · simp
    · split
      · rename_i h; subst h; simp
      · simp [ih]; tauto

theorem setInsert_sorted (x : stringid) (s : List stringid) (h : s.Pairwise (· < ·)) :
    (setInsert x s).Pairwise (· < ·) := by
  induction s with
  | nil => simp [setInsert]
  | cons y ys ih =>
    unfold setInsert
    have hy := List.pairwise_cons.1 h
    split
    · rename_i hxy
      refine List.pairwise_cons.2 ⟨?_, h⟩
      intro a ha
      rcases List.mem_cons.1 ha with rfl | ha
      · exact hxy
      · exact lt_trans hxy (hy.1 a ha)
    · split
      · exact h
      · rename_i h1 h2
        refine List.pairwise_cons.2 ⟨?_, ih hy.2⟩
        intro a ha
        rcases (mem_setInsert x a ys).1 ha with rfl | ha
        · exact lt_of_le_of_ne (le_of_not_lt h1) (fun h => h2 h.symm)
        · exact hy.1 a ha

theorem setInsert_length (x : stringid) (s : List stringid) :
    (setInsert x s).length ≤ s.length + 1 := by
  induction s with
  | nil => simp [setInsert]
  | cons y ys ih =>
    unfold setInsert
    split
    · simp
    · split
      · simp
      · simp; omega

theorem foldl_setInsert (ms : List Module) (acc : List stringid) (h : acc.Pairwise (· < ·)) :
    (ms.foldl (fun s m => setInsert m.name s) acc).Pairwise (· < ·)
    ∧ (∀ a, a ∈ ms.foldl (fun s m => setInsert m.name s) acc ↔ a ∈ acc ∨ ∃ m ∈ ms, m.name = a)
    ∧ (ms.foldl (fun s m => setInsert m.name s) acc).length ≤ acc.length + ms.length := by
  induction ms generalizing acc with
  | nil => simp [h]
  | cons m ms ih =>
    simp only [List.foldl_cons]
    obtain ⟨h1, h2, h3⟩ := ih (setInsert m.name acc) (setInsert_sorted _ _ h)
    refine ⟨h1, ?_, ?_⟩
    · intro a
      rw [h2, mem_setInsert]
      simp only [List.mem_cons, exists_eq_or_imp]
      constructor
      · rintro ((rfl | h) | h)
        · exact Or.inr (Or.inl rfl)
        · exact Or.inl h
        · exact Or.inr (Or.inr h)
      · rintro (h | h | h)
        · exact Or.inl (Or.inr h)
        · exact Or.inl (Or.inl h.symm)
        · exact Or.inr h
    · have := setInsert_length m.name acc
      simp only [List.length_cons]
      omega

theorem initialUnemitted_spec (ms : List Module) :
    (initialUnemitted ms).Nodup
    ∧ (∀ a, a ∈ initialUnemitted ms ↔ ∃ m ∈ ms, m.name = a)
    ∧ (initialUnemitted ms).length ≤ ms.length := by
  obtain ⟨h1, h2, h3⟩ := foldl_setInsert ms [] List.Pairwise.nil
  refine ⟨h1.imp (fun h => ne_of_lt h), ?_, by simpa using h3⟩
  intro a
  rw [initialUnemitted, h2]
  simp

theorem lookup_cons_eq {α : Type} (l : List (stringid × α)) (k k2 : stringid) (v : α) :
    ((k, v) :: l).lookup k2 = if k2 = k then some v else l.lookup k2 := by
  by_cases h : k2 = k
  · subst h
    simp [List.lookup]
  · have hb : (k2 == k) = false := by simpa using h
    simp [List.lookup, hb, h]

theorem lookup_mapSet {α : Type} (l : List (stringid × α)) (k k2 : stringid) (v : α) :
    (mapSet l k v).lookup k2 = if k2 = k then some v else l.lookup k2 := by
  induction l with
  | nil =>
    rw [mapSet, lookup_cons_eq]
  | cons p l ih =>
    obtain ⟨k0, v0⟩ := p
    unfold mapSet
    by_cases h0 : k0 = k
    · subst h0
      rw [if_pos rfl, lookup_cons_eq, lookup_cons_eq]
      by_cases h2 : k2 = k0
      · simp only [if_pos h2]
      · simp only [if_neg h2]
    · rw [if_neg h0, lookup_cons_eq, lookup_cons_eq, ih]
      by_cases h2 : k2 = k0
      · have : ¬ k2 = k := fun hc => h0 (h2.symm.trans hc)
        simp only [if_pos h2, if_neg this]
      · simp only [if_neg h2]

theorem lookup_foldl_mapSet (ids : List stringid) (nm : List (stringid × Nat)) (i : Nat)
    (x : stringid) :
    (ids.foldl (fun nm str => mapSet nm str i) nm).lookup x
      = if x ∈ ids then some i else nm.lookup x := by
  induction ids generalizing nm with
  | nil => simp
  | cons a ids ih =>
    simp only [List.foldl_cons, ih, lookup_mapSet, List.mem_cons]
    by_cases h1 : x ∈ ids
    · simp [h1]
    · by_cases h2 : x = a
      · simp [h2]
      · simp [h1, h2]

theorem lookup_addLabels (nm : List (stringid × Nat)) (i : Nat) (m : Module) (x : stringid) :
    (addLabels nm i m).lookup x = if x ∈ labelIds m then some i else nm.lookup x := by
  unfold addLabels labelIds
  generalize m.labels = ls
  induction ls generalizing nm with
  | nil => simp
  | cons l ls ih =>
    simp only [List.foldl_cons, ih, lookup_foldl_mapSet, List.flatMap_cons, List.mem_append]
    by_cases h1 : x ∈ ls.flatMap Prod.snd
    · simp [h1]
    · by_cases h2 : x ∈ l.2
      · simp [h2]
      · simp [h1, h2]

theorem buildNameMap_append (l : List Module) (a : Module) :
    buildNameMap (l ++ [a]) = addLabels (buildNameMap l) l.length a := by
  simp [buildNameMap, List.enum_append, List.foldl_append, List.enumFrom]

theorem names_resolve (ms : List Module)
    (hown : ∀ m ∈ ms, m.name ∈ labelIds m)
    (hlater : ms.Pairwise fun a b => a.name ∉ labelIds b) :
    ∀ i m, ms.get? i = some m → (buildNameMap ms).lookup m.name = some i := by
  induction ms using List.reverseRecOn with
  | nil => intro i m h; simp at h
  | append_singleton l a ih =>
    intro i m hget
    rw [buildNameMap_append, lookup_addLabels]
    rw [List.pairwise_append] at hlater
    obtain ⟨hl, -, hla⟩ := hlater
    by_cases hi : i < l.length
    · have hget2 : l.get? i = some m := by
        rw [List.get?_eq_getElem?] at hget ⊢
        rwa [List.getElem?_append_left hi] at hget
      have hm : m ∈ l := List.get?_mem hget2
      have hnot : m.name ∉ labelIds a := hla m hm a (List.mem_singleton_self a)
      rw [if_neg hnot]
      exact ih (fun m hm => hown m (List.mem_append_left _ hm)) hl i m hget2
    · have hlen : i < (l ++ [a]).length := by
        rw [List.get?_eq_getElem?] at hget
        exact (List.getElem?_eq_some_iff.1 hget).1
      have hi2 : i = l.length := by
        simp at hlen
        omega
      subst hi2
      have hma : m = a := by
        rw [List.get?_eq_getElem?] at hget
        simpa using hget.symm
      subst hma
      rw [if_pos (hown m (by simp))]

theorem name_inj (ms : List Module)
    (hres : ∀ i m, ms.get? i = some m → (buildNameMap ms).lookup m.name = some i)
    (i j : Nat) (mi mj : Module) (hi : ms.get? i = some mi) (hj : ms.get? j = some mj)
    (h : mi.name = mj.name) : i = j := by
  have h1 := hres i mi hi
  have h2 := hres j mj hj
  rw [h, h2] at h1
  exact (Option.some.inj h1).symm

theorem visitRef_inv (ms : List Module)
    (hres : ∀ i m, ms.get? i = some m → (buildNameMap ms).lookup m.name = some i)
    (st : SortState) (m2 : Nat) (hinv : SortInv ms st) :
    SortInv ms (visitRef ms st m2)
      ∧ (visitRef ms st m2).unemitted.length ≤ st.unemitted.length
      ∧ (visitRef ms st m2).p = st.p
      ∧ st.sorted.length ≤ (visitRef ms st m2).sorted.length := by
  unfold visitRef
  cases hget : ms.get? m2 with
  | none => exact ⟨hinv, le_refl _, rfl, le_refl _⟩
  | some m =>
    simp only
    by_cases hmem : m.name ∈ st.unemitted
    · rw [if_pos hmem]
      have hnot : m2 ∉ st.sorted := fun hc => ((hinv.placed m2 m hget).1 hc) hmem
      have hlt : m2 < ms.length := by
        rw [List.get?_eq_getElem?] at hget
        exact (List.getElem?_eq_some_iff.1 hget).1
      refine ⟨⟨?_, ?_, ?_, ?_, ?_⟩, ?_, rfl, by simp⟩
      · exact List.Nodup.append hinv.nodup (List.nodup_singleton _)
          (by simpa using hnot)
      · intro i hi
        rcases List.mem_append.1 hi with hi | hi
        · exact hinv.bound i hi
        · rw [List.mem_singleton.1 hi]; exact hlt
      · exact hinv.unodup.erase _
      · intro i mi hi
        simp only [List.mem_append, List.mem_singleton, hinv.unodup.mem_erase_iff, not_and_or,
          not_not]
        rw [hinv.placed i mi hi]
        constructor
        · rintro (h | h)
          · exact Or.inr h
          · subst h
            rw [hget] at hi
            cases hi
            exact Or.inl rfl
        · rintro (h | h)
          · exact Or.inr (name_inj ms hres i m2 mi m hi hget h)
          · exact Or.inl h
      · intro x hx
        exact hinv.known x (List.mem_of_mem_erase hx)
      · simp only
        rw [List.length_erase_of_mem hmem]
        omega
    · rw [if_neg hmem]
      exact ⟨hinv, le_refl _, rfl, le_refl _⟩

theorem foldl_visitRef_inv (ms : List Module)
    (hres : ∀ i m, ms.get? i = some m → (buildNameMap ms).lookup m.name = some i)
    (refs : List Nat) (st : SortState) (hinv : SortInv ms st) :
    SortInv ms (refs.foldl (visitRef ms) st)
      ∧ (refs.foldl (visitRef ms) st).unemitted.length ≤ st.unemitted.length
      ∧ (refs.foldl (visitRef ms) st).p = st.p := by
  induction refs generalizing st with
  | nil => exact ⟨hinv, le_refl _, rfl⟩
  | cons r refs ih =>
    simp only [List.foldl_cons]
    obtain ⟨h1, h2, h3, -⟩ := visitRef_inv ms hres st r hinv
    obtain ⟨g1, g2, g3⟩ := ih (visitRef ms st r) h1
    exact ⟨g1, le_trans g2 h2, g3.trans h3⟩

theorem SortInv.length_le {ms : List Module} {st : SortState} (h : SortInv ms st) :
    st.sorted.length ≤ ms.length := by
  have hsub : st.sorted ⊆ List.range ms.length := by
    intro i hi
    exact List.mem_range.2 (h.bound i hi)
  simpa using (h.nodup.subperm hsub).length_le

theorem scanLoop_inv (ms : List Module)
    (hres : ∀ i m, ms.get? i = some m → (buildNameMap ms).lookup m.name = some i)
    (refs : List (List Nat)) (fuel : Nat) :
    ∀ st, SortInv ms st → ms.length ≤ fuel + st.p →
      ∃ st1, scanLoop ms refs fuel st = .ok st1 ∧ SortInv ms st1
        ∧ st1.unemitted.length ≤ st.unemitted.length := by
  induction fuel with
  | zero =>
    intro st hinv hf
    have : ¬ st.p < st.sorted.length := by
      have := hinv.length_le
      omega
    exact ⟨st, by unfold scanLoop; rw [if_neg this], hinv, le_refl _⟩
  | succ n ih =>
    intro st hinv hf
    unfold scanLoop
    by_cases hp : st.p < st.sorted.length
    · rw [if_pos hp]
      simp only
      obtain ⟨h1, h2, h3⟩ := foldl_visitRef_inv ms hres
        (refs.getD (st.sorted.getD st.p 0) []) st hinv
      have hinv2 : SortInv ms
          { (List.foldl (visitRef ms) st (refs.getD (st.sorted.getD st.p 0) [])) with
            p := st.p + 1 } :=
        ⟨h1.nodup, h1.bound, h1.unodup, h1.placed, h1.known⟩
      obtain ⟨st1, g1, g2, g3⟩ := ih _ hinv2 (by simp only; omega)
      exact ⟨st1, g1, g2, le_trans g3 h2⟩
    · rw [if_neg hp]
      exact ⟨st, rfl, hinv, le_refl _⟩

theorem sortLoop_inv (ms : List Module)
    (hres : ∀ i m, ms.get? i = some m → (buildNameMap ms).lookup m.name = some i)
    (refs : List (List Nat)) (fuel : Nat) :
    ∀ st, SortInv ms st → st.unemitted.length ≤ fuel →
      ∃ st1, sortLoop ms (buildNameMap ms) refs fuel st = .ok st1 ∧ SortInv ms st1
        ∧ st1.unemitted = [] := by
  induction fuel with
  | zero =>
    intro st hinv hf
    have hnil : st.unemitted = [] := List.length_eq_zero.1 (by omega)
    exact ⟨st, by unfold sortLoop; rw [hnil]; rfl, hinv, hnil⟩
  | succ n ih =>
    intro st hinv hf
    unfold sortLoop
    cases hu : st.unemitted with
    | nil => exact ⟨st, rfl, hinv, hu⟩
    | cons y ys =>
      rw [if_neg (by simp)]
      simp only
      obtain ⟨st1, hs, hinv1, hlen1⟩ := scanLoop_inv ms hres refs ms.length st hinv (by omega)
      rw [hs]
      simp only
      have hlen : st1.unemitted.length ≤ n + 1 := le_trans hlen1 hf
      cases hu1 : st1.unemitted with
      | nil => exact ⟨st1, rfl, hinv1, hu1⟩
      | cons x rest =>
        simp only
        obtain ⟨i, m, hget, hname⟩ := hinv1.known x (by rw [hu1]; simp)
        have hlook := hres i m hget
        rw [hname] at hlook
        rw [hlook]
        simp only
        have hnd : (x :: rest).Nodup := hu1 ▸ hinv1.unodup
        have hxr : x ∉ rest := (List.nodup_cons.1 hnd).1
        have hnot : i ∉ st1.sorted := by
          intro hc
          exact ((hinv1.placed i m hget).1 hc) (by rw [hu1, hname]; simp)
        have hlt : i < ms.length := by
          rw [List.get?_eq_getElem?] at hget
          exact (List.getElem?_eq_some_iff.1 hget).1
        apply ih
        · refine ⟨?_, ?_, ?_, ?_, ?_⟩
          · exact List.Nodup.append hinv1.nodup (List.nodup_singleton _) (by simpa using hnot)
          · intro j hj
            rcases List.mem_append.1 hj with hj | hj
            · exact hinv1.bound j hj
            · rw [List.mem_singleton.1 hj]; exact hlt
          · exact (List.nodup_cons.1 hnd).2
          · intro j mj hj
            simp only [List.mem_append, List.mem_singleton]
            rw [hinv1.placed j mj hj, hu1]
            simp only [List.mem_cons, not_or]
            constructor
            · rintro (h | h)
              · exact h.2
              · subst h
                rw [hget] at hj
                cases hj
                rw [hname]
                exact hxr
            · intro h
              by_cases hx : mj.name = x
              · exact Or.inr (name_inj ms hres j i mj m hj hget (hx.trans hname.symm))
              · exact Or.inl ⟨hx, h⟩
          · intro z hz
            exact hinv1.known z (by rw [hu1]; exact List.mem_cons_of_mem _ hz)
        · simp only
          rw [hu1] at hlen
          simp at hlen
          omega

theorem filterMap_get_range (l : List Module) :
    (List.range l.length).filterMap (fun i => l.get? i) = l := by
  induction l using List.reverseRecOn with
  | nil => rfl
  | append_singleton l a ih =>
    rw [List.length_append, List.length_singleton, List.range_succ, List.filterMap_append]
    have h1 : (List.range l.length).filterMap (fun i => (l ++ [a]).get? i)
        = (List.range l.length).filterMap (fun i => l.get? i) := by
      apply List.filterMap_congr
      intro i hi
      have hi2 : i < l.length := List.mem_range.1 hi
      simp [List.get?_eq_getElem?, List.getElem?_append_left hi2]
    rw [h1, ih]
    simp [List.get?_eq_getElem?]

theorem sortOrder_perm (ms : List Module)
    (hres : ∀ i m, ms.get? i = some m → (buildNameMap ms).lookup m.name = some i) :
    ∃ order, sortOrder ms = .ok order ∧ order.Perm (List.range ms.length) := by
  obtain ⟨hnd, hmem, hlen⟩ := initialUnemitted_spec ms
  have hinit : SortInv ms { sorted := [], p := 0, unemitted := initialUnemitted ms } := by
    refine ⟨List.nodup_nil, by simp, hnd, ?_, ?_⟩
    · intro i m hget
      simp only [List.not_mem_nil, false_iff, not_not]
      exact (hmem m.name).2 ⟨m, List.get?_mem hget, rfl⟩
    · intro x hx
      obtain ⟨m, hm, hname⟩ := (hmem x).1 hx
      obtain ⟨i, hi⟩ := List.get?_of_mem hm
      exact ⟨i, m, hi, hname⟩
  obtain ⟨st, hs, hinv, hnil⟩ := sortLoop_inv ms hres (buildNearrefs ms (buildNameMap ms))
    ms.length _ hinit hlen
  refine ⟨st.sorted, by simp only [sortOrder, hs], ?_⟩
  rw [List.perm_ext_iff_of_nodup hinv.nodup (List.nodup_range _)]
  intro i
  rw [List.mem_range]
  constructor
  · exact hinv.bound i
  · intro hi
    have hget : ms.get? i = some (ms.get ⟨i, hi⟩) := List.get?_eq_get hi
    exact (hinv.placed i _ hget).2 (by rw [hnil]; simp)

/-- C1 (amended): when every module carries its own name id among its labels and no
module's name id is a label of a later module (so no two modules share a name id),
`sortModules` returns, the order it leaves is a permutation of the indices of the input
vector, and the vector it leaves is a permutation of the input: every module occurs
exactly once. -/
theorem sortModules_permutation (ms : List Module)
    (hown : ∀ m ∈ ms, m.name ∈ labelIds m)
    (hlater : ms.Pairwise fun a b => a.name ∉ labelIds b) :
    ∃ order out, sortOrder ms = .ok order ∧ order.Perm (List.range ms.length)
      ∧ sortModules ms = .ok out ∧ out.Perm ms := by
  obtain ⟨order, ho, hp⟩ := sortOrder_perm ms (names_resolve ms hown hlater)
  refine ⟨order, order.filterMap (fun i => ms.get? i), ho, hp, by simp only [sortModules, ho], ?_⟩
  have := hp.filterMap (fun i => ms.get? i)
  rwa [filterMap_get_range] at this

/-- C1 (as stated, refuted): for the two modules decoded from Module(name 1),
Module(name 2), EntryPoint(name 1), where the second module carries the first one's
name id as a label, `sortModules` leaves the second module twice and drops the first. -/
theorem sortModules_alias_counterexample :
    sortModules [aliasFirst, aliasSecond] = .ok [aliasSecond, aliasSecond]
      ∧ ¬ [aliasSecond, aliasSecond].Perm [aliasFirst, aliasSecond]
      ∧ recordLoop 23
          { inp := { data := [1, 0, 0, 3, 5, 8, 0, 1, 0, 0, 5, 8, 0, 2, 0, 0,
                              6, 8, 0, 1, 0, 0, 0, 0, 2, 0], pos := 4 } }
        = .last
          { inp := { data := [1, 0, 0, 3, 5, 8, 0, 1, 0, 0, 5, 8, 0, 2, 0, 0,
                              6, 8, 0, 1, 0, 0, 0, 0, 2, 0], pos := 26 },
            tables := { sectionMap := [(1, 1), (2, 2)] },
            modules := [aliasFirst], module := some aliasSecond } := by
  refine ⟨by decide, by decide, by rfl⟩

/-- Witness for `sortModules_permutation`: three modules, two of them linked by 16-bit
relocations. -/
theorem sortModules_permutation_witness :
    ((∀ m ∈ [linkedA, linkedB, linkedC], m.name ∈ labelIds m)
      ∧ [linkedA, linkedB, linkedC].Pairwise fun a b => a.name ∉ labelIds b)
    ∧ ∃ order out, sortOrder [linkedA, linkedB, linkedC] = .ok order
        ∧ order.Perm (List.range [linkedA, linkedB, linkedC].length)
        ∧ sortModules [linkedA, linkedB, linkedC] = .ok out
        ∧ out.Perm [linkedA, linkedB, linkedC] :=
  ⟨⟨by decide, by decide⟩,
   sortModules_permutation [linkedA, linkedB, linkedC] (by decide) (by decide)⟩

/-! ## Collisions of encoded identifiers -/

set_option maxRecDepth 100000 in
theorem char_toNat_ofNat : ∀ b : Byte, (Char.ofNat b.val).toNat = b.val := by decide

set_option maxRecDepth 100000 in
theorem numText_no_underscore : ∀ b : Byte, '_' ∉ numText b := by decide

set_option maxRecDepth 100000 in
theorem parseNum_numText : ∀ b : Byte, parseNum (numText b) = charValue b := by decide

theorem charValue_injective (a b : Byte) (h : charValue a = charValue b) : a = b := by
  unfold charValue at h
  apply Fin.ext
  have ha := a.isLt
  have hb := b.isLt
  split at h <;> split at h <;> omega

theorem numText_injective (a b : Byte) (h : numText a = numText b) : a = b := by
  apply charValue_injective
  rw [← parseNum_numText a, ← parseNum_numText b, h]

theorem encodeChar_ident (b : Byte) (h : isIdentChar b = true) :
    (encodeChar b).data = [Char.ofNat b.val] := by
  have h2 : charValue b = 95 ∨ isalnum (charValue b) = true := by
    simpa [isIdentChar] using h
  simp [encodeChar, h2, String.singleton]

theorem encodeChar_escape (b : Byte) (h : isIdentChar b = false) :
    (encodeChar b).data = '_' :: '_' :: 'z' :: (numText b ++ ['_']) := by
  have h2 : ¬ (charValue b = 95 ∨ isalnum (charValue b) = true) := by
    simpa [isIdentChar] using h
  simp [encodeChar, h2, numText]

theorem ofNat_eq_underscore (b : Byte) (h : Char.ofNat b.val = '_') : b.val = 95 := by
  have := congrArg Char.toNat h
  rw [char_toNat_ofNat] at this
  exact this

theorem ofNat_eq_z (b : Byte) (h : Char.ofNat b.val = 'z') : b.val = 122 := by
  have := congrArg Char.toNat h
  rw [char_toNat_ofNat] at this
  exact this

theorem ofNat_injective (a b : Byte) (h : Char.ofNat a.val = Char.ofNat b.val) : a = b := by
  have := congrArg Char.toNat h
  rw [char_toNat_ofNat, char_toNat_ofNat] at this
  exact Fin.ext this

theorem encodeBody_cons (b : Byte) (r : List Byte) :
    encodeBody (b :: r) = (encodeChar b).data ++ encodeBody r := by
  simp [encodeBody]

theorem split_at_underscore (xs ys u v : List Char) (hx : '_' ∉ xs) (hy : '_' ∉ ys)
    (h : xs ++ '_' :: u = ys ++ '_' :: v) : xs = ys ∧ u = v := by
  induction xs generalizing ys with
  | nil =>
    cases ys with
    | nil => simpa using h
    | cons y ys =>
      simp only [List.nil_append, List.cons_append, List.cons.injEq] at h
      exact absurd (h.1 ▸ List.mem_cons_self _ _) hy
  | cons x xs ih =>
    cases ys with
    | nil =>
      simp only [List.nil_append, List.cons_append, List.cons.injEq] at h
      exact absurd (h.1 ▸ List.mem_cons_self _ _) hx
    | cons y ys =>
      simp only [List.cons_append, List.cons.injEq] at h
      obtain ⟨hxy, hrest⟩ := h
      obtain ⟨h1, h2⟩ := ih ys (fun hc => hx (List.mem_cons_of_mem _ hc))
        (fun hc => hy (List.mem_cons_of_mem _ hc)) hrest
      exact ⟨by rw [hxy, h1], h2⟩

theorem encodeBody_ident (b : Byte) (r : List Byte) (h : isIdentChar b = true) :
    encodeBody (b :: r) = Char.ofNat b.val :: encodeBody r := by
  rw [encodeBody_cons, encodeChar_ident b h]
  rfl

theorem encodeBody_escape (b : Byte) (r : List Byte) (h : isIdentChar b = false) :
    encodeBody (b :: r) = '_' :: '_' :: 'z' :: (numText b ++ '_' :: encodeBody r) := by
  rw [encodeBody_cons, encodeChar_escape b h]
  simp

theorem encodeBody_eq_nil (s : List Byte) (h : encodeBody s = []) : s = [] := by
  cases s with
  | nil => rfl
  | cons b r =>
    cases hb : isIdentChar b with
    | true => rw [encodeBody_ident b r hb] at h; cases h
    | false => rw [encodeBody_escape b r hb] at h; cases h

theorem marker_head (s : List Byte) (X : List Char) (hs : startsWithMarker s = false)
    (h : encodeBody s = '_' :: '_' :: 'z' :: X) :
    ∃ b r, s = b :: r ∧ isIdentChar b = false ∧ X = numText b ++ '_' :: encodeBody r := by
  cases s with
  | nil => cases h
  | cons b r =>
    cases hb : isIdentChar b with
    | false =>
      rw [encodeBody_escape b r hb] at h
      simp only [List.cons.injEq, true_and] at h
      exact ⟨b, r, rfl, hb, h.symm⟩
    | true =>
      exfalso
      rw [encodeBody_ident b r hb] at h
      simp only [List.cons.injEq] at h
      obtain ⟨h0, h1⟩ := h
      have hb95 := ofNat_eq_underscore b h0
      cases r with
      | nil => cases h1
      | cons b2 r2 =>
        cases hb2 : isIdentChar b2 with
        | false =>
          rw [encodeBody_escape b2 r2 hb2] at h1
          simp only [List.cons.injEq] at h1
          exact absurd h1.2.1 (by decide)
        | true =>
          rw [encodeBody_ident b2 r2 hb2] at h1
          simp only [List.cons.injEq] at h1
          obtain ⟨h2, h3⟩ := h1
          have hb295 := ofNat_eq_underscore b2 h2
          cases r2 with
          | nil => cases h3
          | cons b3 r3 =>
            cases hb3 : isIdentChar b3 with
            | false =>
              rw [encodeBody_escape b3 r3 hb3] at h3
              simp only [List.cons.injEq] at h3
              exact absurd h3.1 (by decide)
            | true =>
              rw [encodeBody_ident b3 r3 hb3] at h3
              simp only [List.cons.injEq] at h3
              have hb3z := ofNat_eq_z b3 h3.1
              simp [startsWithMarker, hb95, hb295, hb3z] at hs

theorem hasMarker_cons (b : Byte) (r : List Byte) (h : hasMarker (b :: r) = false) :
    startsWithMarker (b :: r) = false ∧ hasMarker r = false := by
  simpa [hasMarker] using h

theorem encodeBody_injective (s : List Byte) :
    ∀ s2, hasMarker s = false → hasMarker s2 = false → encodeBody s = encodeBody s2 → s = s2 := by
  induction s with
  | nil =>
    intro s2 _ _ h
    exact (encodeBody_eq_nil s2 h.symm).symm
  | cons b r ih =>
    intro s2 hm hm2 h
    cases s2 with
    | nil => exact encodeBody_eq_nil _ h
    | cons b2 r2 =>
      obtain ⟨hs, hr⟩ := hasMarker_cons b r hm
      obtain ⟨hs2, hr2⟩ := hasMarker_cons b2 r2 hm2
      cases hb : isIdentChar b with
      | true =>
        cases hb2 : isIdentChar b2 with
        | true =>
          rw [encodeBody_ident b r hb, encodeBody_ident b2 r2 hb2] at h
          simp only [List.cons.injEq] at h
          rw [ofNat_injective b b2 h.1, ih r2 hr hr2 h.2]
        | false =>
          exfalso
          rw [encodeBody_escape b2 r2 hb2] at h
          obtain ⟨b0, r0, he, hb0, -⟩ := marker_head (b :: r) _ hs h
          simp only [List.cons.injEq] at he
          rw [← he.1, hb] at hb0
          cases hb0
      | false =>
        cases hb2 : isIdentChar b2 with
        | true =>
          exfalso
          rw [encodeBody_escape b r hb] at h
          obtain ⟨b0, r0, he, hb0, -⟩ := marker_head (b2 :: r2) _ hs2 h.symm
          simp only [List.cons.injEq] at he
          rw [← he.1, hb2] at hb0
          cases hb0
        | false =>
          rw [encodeBody_escape b r hb, encodeBody_escape b2 r2 hb2] at h
          simp only [List.cons.injEq, true_and] at h
          obtain ⟨h1, h2⟩ := split_at_underscore _ _ _ _ (numText_no_underscore b)
            (numText_no_underscore b2) h
          rw [numText_injective b b2 h1, ih r2 hr hr2 h2]

theorem join_data (l : List String) : (String.join l).data = l.flatMap String.data := by
  have h : ∀ (acc : String), (l.foldl (fun r s => r ++ s) acc).data
      = acc.data ++ l.flatMap String.data := by
    induction l with
    | nil => intro acc; simp
    | cons a l ih => intro acc; simp [ih, String.data_append]
  simpa [String.join] using h ""

theorem encodeIdentifier_data (t : Tables) (id : stringid) (h : id ∉ t.localLabels) :
    (encodeIdentifier t id).data
      = (if needsEscapeMarker (t.text id) then ['_', '_', 'z'] else []) ++ encodeBody (t.text id) := by
  unfold encodeIdentifier
  simp only [if_neg h, String.data_append, join_data, encodeBody, List.flatMap_map]
  split <;> rfl

theorem needsEscapeMarker_plain (s : List Byte) (h : startsWithDigit s = false) :
    needsEscapeMarker s = true ↔ s = [] := by
  cases s with
  | nil => simp [needsEscapeMarker]
  | cons c r => simpa [needsEscapeMarker, startsWithDigit] using h

/-- C5 (amended): two string ids, neither in LocalLabels, whose texts differ, contain
no occurrence of the escape marker "__z" and do not begin with a digit, have different
encoded identifiers. -/
theorem encodeIdentifier_injective_plain (t : Tables) (i j : stringid)
    (hi : i ∉ t.localLabels) (hj : j ∉ t.localLabels)
    (hpi : PlainName (t.text i)) (hpj : PlainName (t.text j))
    (hne : t.text i ≠ t.text j) :
    encodeIdentifier t i ≠ encodeIdentifier t j := by
  intro heq
  apply hne
  have hd := congrArg String.data heq
  rw [encodeIdentifier_data t i hi, encodeIdentifier_data t j hj] at hd
  generalize t.text i = s at hd hpi ⊢
  generalize t.text j = s2 at hd hpj ⊢
  obtain ⟨hm, hdg⟩ := hpi
  obtain ⟨hm2, hdg2⟩ := hpj
  have key : ∀ (u v : List Byte), hasMarker v = false → v ≠ [] →
      ['_', '_', 'z'] ++ encodeBody u = encodeBody v → u = [] → False := by
    intro u v hv hvne he hu
    subst hu
    cases v with
    | nil => exact hvne rfl
    | cons b r =>
      obtain ⟨b0, r0, -, -, hX⟩ := marker_head (b :: r) [] (hasMarker_cons b r hv).1 he.symm
      cases hnt : numText b0 <;> simp [hnt] at hX
  by_cases hs : s = []
  · by_cases hs2 : s2 = []
    · rw [hs, hs2]
    · exfalso
      have h1 : needsEscapeMarker s = true := (needsEscapeMarker_plain s hdg).2 hs
      have h2 : ¬ needsEscapeMarker s2 = true := fun hc => hs2 ((needsEscapeMarker_plain s2 hdg2).1 hc)
      rw [if_pos h1, if_neg h2] at hd
      exact key s s2 hm2 hs2 hd hs
  · have h1 : ¬ needsEscapeMarker s = true := fun hc => hs ((needsEscapeMarker_plain s hdg).1 hc)
    by_cases hs2 : s2 = []
    · exfalso
      have h2 : needsEscapeMarker s2 = true := (needsEscapeMarker_plain s2 hdg2).2 hs2
      rw [if_neg h1, if_pos h2] at hd
      exact key s2 s hm hs hd.symm hs2
    · have h2 : ¬ needsEscapeMarker s2 = true := fun hc => hs2 ((needsEscapeMarker_plain s2 hdg2).1 hc)
      rw [if_neg h1, if_neg h2] at hd
      exact encodeBody_injective s s2 hm hm2 (by simpa using hd)

/-- C5 (as stated, refuted): the texts "-" and "__z45_" both encode to "__z45_", the
texts "" and "__z" both encode to "__z", and the text "1_" and the single byte 01 both
encode to "__z1_". -/
theorem encodeIdentifier_collisions :
    (collidingNames.text 0 ≠ collidingNames.text 1
      ∧ encodeIdentifier collidingNames 0 = encodeIdentifier collidingNames 1)
    ∧ (collidingNames.text 2 ≠ collidingNames.text 3
      ∧ encodeIdentifier collidingNames 2 = encodeIdentifier collidingNames 3)
    ∧ (collidingNames.text 4 ≠ collidingNames.text 5
      ∧ encodeIdentifier collidingNames 4 = encodeIdentifier collidingNames 5)
    ∧ encodeIdentifier collidingNames 0 = "__z45_"
    ∧ encodeIdentifier collidingNames 2 = "__z"
    ∧ encodeIdentifier collidingNames 4 = "__z1_" := by
  decide

/-- Witness for `encodeIdentifier_injective_plain`: the names "-" and "_z45_". -/
theorem encodeIdentifier_injective_plain_witness :
    ((0 : stringid) ∉ plainNames.localLabels ∧ (1 : stringid) ∉ plainNames.localLabels
      ∧ PlainName (plainNames.text 0) ∧ PlainName (plainNames.text 1)
      ∧ plainNames.text 0 ≠ plainNames.text 1)
    ∧ encodeIdentifier plainNames 0 ≠ encodeIdentifier plainNames 1 :=
  ⟨by decide,
   encodeIdentifier_injective_plain plainNames 0 1 (by decide) (by decide) (by decide)
     (by decide) (by decide)⟩

/-! ## Length bytes of the debug-name trailer -/

theorem lor_128 : ∀ l, l < 32 → l ||| 0x80 = l + 128 := by decide

/-- C15 (amended): in the debug-name trailer of a non-data module, an encoded section
identifier of length below 32 gets one length byte `len | 0x80`, which equals
`len + 128` and is below 256; a longer one gets the two-byte escape, `0x80` followed
by the length. -/
theorem macsbug_length_bytes (m : Module) (e : String) (h : m.isData = false) :
    (e.length < 32 →
        macsbugTrailer m e
            = "\t.section    .text." ++ e ++ ".macsbug,\"ax\",@progbits\n"
              ++ ("\t.byte " ++ toString (e.length + 128) ++ "\n")
              ++ "\t.ascii \"" ++ e ++ "\"\n" ++ "\t.align 2,0\n\t.short 0\n"
          ∧ e.length ||| 0x80 = e.length + 128 ∧ e.length + 128 < 256)
    ∧ (32 ≤ e.length →
        macsbugTrailer m e
            = "\t.section    .text." ++ e ++ ".macsbug,\"ax\",@progbits\n"
              ++ ("\t.byte 0x80\n" ++ "\t.byte " ++ toString e.length ++ "\n")
              ++ "\t.ascii \"" ++ e ++ "\"\n" ++ "\t.align 2,0\n\t.short 0\n") := by
  have h1 : (addMacsbugNames && !m.isData) = true := by simp [addMacsbugNames, h]
  have h2 : functionSections = true := rfl
  constructor
  · intro hl
    refine ⟨?_, lor_128 _ hl, by omega⟩
    unfold macsbugTrailer
    rw [if_pos h1, if_pos h2, if_pos hl, lor_128 _ hl]
  · intro hl
    have hn : ¬ e.length < 32 := by omega
    unfold macsbugTrailer
    rw [if_pos h1, if_pos h2, if_neg hn]

set_option maxRecDepth 100000 in
/-- C15 (as stated, refuted): for an identifier of 40 characters, which fits in 7 bits,
the trailer has the two-byte escape `0x80`, `40` and not the single byte 168. -/
theorem macsbug_threshold_counterexample :
    ("aaaaaaaaaaaaaaaaaaaaaaaaaaaaaaaaaaaaaaaa" : String).length = 40
    ∧ macsbugTrailer longNameModule "aaaaaaaaaaaaaaaaaaaaaaaaaaaaaaaaaaaaaaaa"
      = "\t.section    .text.aaaaaaaaaaaaaaaaaaaaaaaaaaaaaaaaaaaaaaaa.macsbug,\"ax\",@progbits\n"
        ++ "\t.byte 0x80\n\t.byte 40\n"
        ++ "\t.ascii \"aaaaaaaaaaaaaaaaaaaaaaaaaaaaaaaaaaaaaaaa\"\n\t.align 2,0\n\t.short 0\n" := by
  decide

/-- Witness for `macsbug_length_bytes`: the identifier "foo". -/
theorem macsbug_length_bytes_witness :
    (longNameModule.isData = false ∧ ("foo" : String).length < 32)
    ∧ macsbugTrailer longNameModule "foo"
        = "\t.section    .text." ++ "foo" ++ ".macsbug,\"ax\",@progbits\n"
              ++ ("\t.byte " ++ toString (("foo" : String).length + 128) ++ "\n")
              ++ "\t.ascii \"" ++ "foo" ++ "\"\n" ++ "\t.align 2,0\n\t.short 0\n" :=
  ⟨⟨rfl, by decide⟩, ((macsbug_length_bytes longNameModule "foo" rfl).1 (by decide)).1⟩

/-! ## Current-position marker of a relocation -/

theorem toDigitsCore_last (fuel : Nat) :
    ∀ n ds, ∃ pre, Nat.toDigitsCore 10 (fuel + 1) n ds = pre ++ Nat.digitChar (n % 10) :: ds := by
  induction fuel with
  | zero =>
    intro n ds
    refine ⟨[], ?_⟩
    rw [Nat.toDigitsCore]
    split
    · rfl
    · rw [Nat.toDigitsCore]
      rfl
  | succ k ih =>
    intro n ds
    rw [Nat.toDigitsCore]
    split
    · exact ⟨[], rfl⟩
    · obtain ⟨pre, hp⟩ := ih (n / 10) (Nat.digitChar (n % 10) :: ds)
      exact ⟨pre ++ [Nat.digitChar (n / 10 % 10)], by rw [hp]; simp⟩

theorem digitChar_ne_dot : ∀ d, d < 10 → Nat.digitChar d ≠ '.' := by decide

theorem nat_repr_last (n : Nat) : ∃ pre c, (Nat.repr n).data = pre ++ [c] ∧ c ≠ '.' := by
  obtain ⟨pre, hp⟩ := toDigitsCore_last n n []
  exact ⟨pre, Nat.digitChar (n % 10), by simp [Nat.repr, Nat.toDigits, hp, List.asString],
    digitChar_ne_dot _ (Nat.mod_lt _ (by decide))⟩

theorem int_toString_last (i : Int) : ∃ pre c, (toString i).data = pre ++ [c] ∧ c ≠ '.' := by
  cases i with
  | ofNat n =>
    obtain ⟨pre, c, h1, h2⟩ := nat_repr_last n
    exact ⟨pre, c, h1, h2⟩
  | negSucc n =>
    obtain ⟨pre, c, h1, h2⟩ := nat_repr_last (n + 1)
    refine ⟨'-' :: pre, c, ?_, h2⟩
    show ("-" ++ Nat.repr (n + 1)).data = _
    rw [String.data_append, h1]
    rfl

set_option maxRecDepth 100000 in
theorem identChar_ne_dot : ∀ b : Byte, isIdentChar b = true → Char.ofNat b.val ≠ '.' := by
  decide

theorem encodeBody_append (s1 s2 : List Byte) :
    encodeBody (s1 ++ s2) = encodeBody s1 ++ encodeBody s2 := by
  simp [encodeBody]

theorem encodeChar_last (b : Byte) :
    ∃ pre c, (encodeChar b).data = pre ++ [c] ∧ c ≠ '.' := by
  cases hb : isIdentChar b with
  | true =>
    exact ⟨[], Char.ofNat b.val, by rw [encodeChar_ident b hb]; rfl, identChar_ne_dot b hb⟩
  | false =>
    refine ⟨'_' :: '_' :: 'z' :: numText b, '_', ?_, by decide⟩
    rw [encodeChar_escape b hb]
    rfl

theorem encodeIdentifier_last (t : Tables) (id : stringid) :
    ∃ pre c, (encodeIdentifier t id).data = pre ++ [c] ∧ c ≠ '.' := by
  unfold encodeIdentifier
  simp only [String.data_append, join_data, List.flatMap_map]
  rcases List.eq_nil_or_concat (t.text id) with hs | ⟨init, b, hs⟩
  · rw [hs]
    refine ⟨(if id ∈ t.localLabels then "L" ++ toString id ++ "." else "").data ++ ['_', '_'],
      'z', ?_, by decide⟩
    simp [needsEscapeMarker]
  · rw [hs]
    obtain ⟨pre, c, h1, h2⟩ := encodeChar_last b
    refine ⟨(if id ∈ t.localLabels then "L" ++ toString id ++ "." else "").data ++
      (if needsEscapeMarker (init ++ [b]) = true then "__z" else "").data ++
      List.flatMap init (fun a => (encodeChar a).data) ++ pre, c, ?_, h2⟩
    simp [h1]

theorem addendText_zero : addendText 0 = "" := by decide

theorem addendText_last (val : Int) (h : val ≠ 0) :
    ∃ pre c, (addendText val).data = pre ++ [c] ∧ c ≠ '.' := by
  unfold addendText
  by_cases hp : val > 0
  · rw [if_pos hp]
    obtain ⟨pre, c, h1, h2⟩ := int_toString_last val
    exact ⟨" + ".data ++ pre, c, by rw [String.data_append, h1]; simp, h2⟩
  · have hn : val < 0 := by omega
    rw [if_neg hp, if_pos hn]
    obtain ⟨pre, c, h1, h2⟩ := int_toString_last (toInt32 (-val))
    exact ⟨" - ".data ++ pre, c, by rw [String.data_append, h1]; simp, h2⟩

theorem symbolText_last (t : Tables) (r : Reloc) :
    ∃ pre c, (symbolText t r).data = pre ++ [c] ∧ c ≠ '.' := by
  unfold symbolText
  by_cases h : r.name2 ≠ -1
  · rw [if_pos h]
    obtain ⟨pre, c, h1, h2⟩ := encodeIdentifier_last t r.name2
    exact ⟨(encodeIdentifier t r.name1).data ++ " - ".data ++ pre, c,
      by simp [String.data_append, h1], h2⟩
  · rw [if_neg h]
    obtain ⟨pre, c, h1, h2⟩ := encodeIdentifier_last t r.name1
    exact ⟨pre, c, by simp [String.data_append, h1], h2⟩

theorem symbol_addend_last (t : Tables) (r : Reloc) (val : Int) :
    ∃ pre c, (symbolText t r ++ addendText val).data = pre ++ [c] ∧ c ≠ '.' := by
  by_cases h : val = 0
  · obtain ⟨pre, c, h1, h2⟩ := symbolText_last t r
    exact ⟨pre, c, by rw [h, addendText_zero, String.data_append, h1]; simp, h2⟩
  · obtain ⟨pre, c, h1, h2⟩ := addendText_last val h
    exact ⟨(symbolText t r).data ++ pre, c, by rw [String.data_append, h1]; simp, h2⟩

theorem endsWithMarker_marker (x : String) : endsWithMarker (x ++ "-." ++ "\n") = true := by
  simp [endsWithMarker, String.data_append]

theorem endsWithMarker_plain (x : String) (pre : List Char) (c : Char)
    (h : x.data = pre ++ [c]) (hc : c ≠ '.') : endsWithMarker (x ++ "\n") = false := by
  simp [endsWithMarker, String.data_append, h, hc]

theorem Reloc.write_short (t : Tables) (r : Reloc) (p0 p1 : Byte) (rest : List Byte)
    (h : r.size = 2) :
    Reloc.write t r (p0 :: p1 :: rest)
      = .ok ("\t.short " ++ symbolText t r ++ addendText ((p0.val : Int) * 256 + p1.val)
              ++ (if r.name2 = -1 then "-." else "") ++ "\n", 2) := by
  unfold Reloc.write
  rw [if_pos h]

theorem Reloc.write_long (t : Tables) (r : Reloc) (p0 p1 p2 p3 : Byte) (rest : List Byte)
    (h : r.size = 4) :
    Reloc.write t r (p0 :: p1 :: p2 :: p3 :: rest)
      = .ok ("\t.long " ++ symbolText t r ++ addendText (toInt32 ((p0.val : Int) * 16777216
          + (p1.val : Int) * 65536 + (p2.val : Int) * 256 + p3.val)) ++ "\n", 4) := by
  have hne : r.size ≠ 2 := by omega
  unfold Reloc.write
  rw [if_neg hne, if_pos h]

theorem directive_line_plain (dir : String) (t : Tables) (r : Reloc) (val : Int) :
    endsWithMarker (dir ++ symbolText t r ++ addendText val ++ "\n") = false := by
  obtain ⟨pre, c, h1, hc⟩ := symbol_addend_last t r val
  refine endsWithMarker_plain _ (dir.data ++ pre) c ?_ hc
  rw [String.append_assoc, String.data_append, h1, List.append_assoc]

theorem symbolText_secondary (t : Tables) (r : Reloc) (h : r.name2 ≠ -1) :
    symbolText t r = encodeIdentifier t r.name1 ++ " - " ++ encodeIdentifier t r.name2 := by
  unfold symbolText
  rw [if_pos h, String.append_assoc]

theorem marker_short (t : Tables) (r : Reloc) (p0 p1 : Byte) (rest : List Byte)
    (h : r.size = 2) :
    ∃ text, Reloc.write t r (p0 :: p1 :: rest) = .ok (text, 2) ∧
      (endsWithMarker text = true ↔ r.name2 = -1) ∧
      (r.name2 ≠ -1 →
        text = "\t.short "
          ++ (encodeIdentifier t r.name1 ++ " - " ++ encodeIdentifier t r.name2)
          ++ addendText ((p0.val : Int) * 256 + p1.val) ++ "\n") := by
  have hw := Reloc.write_short t r p0 p1 rest h
  by_cases h2 : r.name2 = -1
  · rw [if_pos h2] at hw
    refine ⟨_, hw, ?_, fun hne => absurd h2 hne⟩
    rw [endsWithMarker_marker]
    exact ⟨fun _ => h2, fun _ => rfl⟩
  · rw [if_neg h2, String.append_empty] at hw
    refine ⟨_, hw, ?_, fun _ => ?_⟩
    · rw [directive_line_plain]
      exact ⟨fun hf => Bool.noConfusion hf, fun hf => absurd hf h2⟩
    · rw [symbolText_secondary t r h2]

theorem marker_long (t : Tables) (r : Reloc) (p0 p1 p2 p3 : Byte) (rest : List Byte)
    (h : r.size = 4) :
    ∃ text, Reloc.write t r (p0 :: p1 :: p2 :: p3 :: rest) = .ok (text, 4) ∧
      endsWithMarker text = false ∧
      (r.name2 ≠ -1 →
        text = "\t.long "
          ++ (encodeIdentifier t r.name1 ++ " - " ++ encodeIdentifier t r.name2)
          ++ addendText (toInt32 ((p0.val : Int) * 16777216 + (p1.val : Int) * 65536
                    + (p2.val : Int) * 256 + p3.val)) ++ "\n") := by
  have hw := Reloc.write_long t r p0 p1 p2 p3 rest h
  refine ⟨_, hw, directive_line_plain _ t r _, fun h2 => ?_⟩
  rw [symbolText_secondary t r h2]

theorem Reloc.write_short_fail (t : Tables) (r : Reloc) (p : List Byte) (h : r.size = 2)
    (hp : p.length < 2) : Reloc.write t r p = .error .outOfBounds := by
  unfold Reloc.write
  rw [if_pos h]
  match p, hp with
  | [], _ => rfl
  | [_], _ => rfl
  | _ :: _ :: _, hp => simp only [List.length_cons] at hp; omega

theorem Reloc.write_long_fail (t : Tables) (r : Reloc) (p : List Byte) (h : r.size = 4)
    (hp : p.length < 4) : Reloc.write t r p = .error .outOfBounds := by
  have hne : r.size ≠ 2 := by omega
  unfold Reloc.write
  rw [if_neg hne, if_pos h]
  match p, hp with
  | [], _ => rfl
  | [_], _ => rfl
  | [_, _], _ => rfl
  | [_, _, _], _ => rfl
  | _ :: _ :: _ :: _ :: _, hp => simp only [List.length_cons] at hp; omega

/-- C11 (amended): for every relocation and every buffer, the method Reloc::write
returns a line exactly when the width is 2 or 4 and the buffer holds that many bytes
at the relocation's offset; it then returns the width, and the line it has written
ends with the current-position marker "-." exactly when the width is 2 and there is no
secondary symbol (a width-4 line never carries the marker); with a secondary symbol
the line is the directive, "primary - secondary", the addend and the line break. -/
theorem reloc_write_marker (t : Tables) (r : Reloc) (p : List Byte) :
    ((r.size = 2 ∨ r.size = 4) → r.size ≤ (p.length : Int) →
      ∃ text, Reloc.write t r p = .ok (text, r.size.toNat))
    ∧ ∀ text w, Reloc.write t r p = .ok (text, w) →
        (r.size = 2 ∨ r.size = 4) ∧ r.size ≤ (p.length : Int) ∧ (w : Int) = r.size
        ∧ (endsWithMarker text = true ↔ (r.size = 2 ∧ r.name2 = -1))
        ∧ (r.name2 ≠ -1 →
            text = (if r.size = 2 then "\t.short " else "\t.long ")
              ++ (encodeIdentifier t r.name1 ++ " - " ++ encodeIdentifier t r.name2)
              ++ addendText
                  (if r.size = 2 then ((p.getD 0 0).val : Int) * 256 + (p.getD 1 0).val
                   else toInt32 (((p.getD 0 0).val : Int) * 16777216
                      + ((p.getD 1 0).val : Int) * 65536
                      + ((p.getD 2 0).val : Int) * 256 + (p.getD 3 0).val))
              ++ "\n") := by
  refine ⟨fun hs hp => Reloc.write_ok t r p hs hp, ?_⟩
  intro text w hok
  by_cases h2 : r.size = 2
  · by_cases hlen : p.length < 2
    · rw [Reloc.write_short_fail t r p h2 hlen] at hok
      cases hok
    · rcases p with _ | ⟨p0, _ | ⟨p1, rest⟩⟩
      · simp at hlen
      · simp at hlen
      · obtain ⟨text2, e1, e2, e3⟩ := marker_short t r p0 p1 rest h2
        rw [e1] at hok
        simp only [Except.ok.injEq, Prod.mk.injEq] at hok
        obtain ⟨ht, hw⟩ := hok
        subst ht hw
        refine ⟨Or.inl h2, by rw [h2]; simp only [List.length_cons]; omega, by rw [h2]; rfl, ?_, ?_⟩
        · rw [e2]
          exact ⟨fun hn => ⟨h2, hn⟩, fun hn => hn.2⟩
        · intro hn
          rw [if_pos h2, if_pos h2]
          exact e3 hn
  · by_cases h4 : r.size = 4
    · by_cases hlen : p.length < 4
      · rw [Reloc.write_long_fail t r p h4 hlen] at hok
        cases hok
      · rcases p with _ | ⟨p0, _ | ⟨p1, _ | ⟨p2, _ | ⟨p3, rest⟩⟩⟩⟩
        · simp at hlen
        · simp at hlen
        · simp at hlen
        · simp at hlen
        · obtain ⟨text2, e1, e2, e3⟩ := marker_long t r p0 p1 p2 p3 rest h4
          rw [e1] at hok
          simp only [Except.ok.injEq, Prod.mk.injEq] at hok
          obtain ⟨ht, hw⟩ := hok
          subst ht hw
          refine ⟨Or.inr h4, by rw [h4]; simp only [List.length_cons]; omega, by rw [h4]; rfl, ?_, ?_⟩
          · rw [e2]
            exact ⟨fun hf => Bool.noConfusion hf, fun hn => absurd hn.1 h2⟩
          · intro hn
            rw [if_neg h2, if_neg h2]
            exact e3 hn
    · unfold Reloc.write at hok
      rw [if_neg h2, if_neg h4] at hok
      cases hok

/-- A width-4 relocation without a secondary symbol: the line written for the buffer
[0,0,0,5] is "\t.long foo + 5" and does not end with the current-position marker. -/
theorem reloc_write_long_no_marker :
    Reloc.write fooBarNames longFoo [0, 0, 0, 5] = .ok ("\t.long foo + 5\n", 4) ∧
      longFoo.size = 4 ∧ longFoo.name2 = -1 ∧
      endsWithMarker "\t.long foo + 5\n" = false := by
  decide

/-- The amended statement at the width-2 relocation to "foo" at offset 2 of the buffer
[0,0,0,5], where two bytes are left: the line is "\t.short foo + 5-." and ends with
the marker. -/
theorem reloc_write_marker_witness :
    ((shortFoo.size = 2 ∨ shortFoo.size = 4)
      ∧ shortFoo.size ≤ ((([0, 0, 0, 5] : List Byte).drop 2).length : Int))
    ∧ (∃ text, Reloc.write fooBarNames shortFoo (([0, 0, 0, 5] : List Byte).drop 2)
        = .ok (text, shortFoo.size.toNat))
    ∧ Reloc.write fooBarNames shortFoo (([0, 0, 0, 5] : List Byte).drop 2)
        = .ok ("\t.short foo + 5-.\n", 2)
    ∧ (endsWithMarker "\t.short foo + 5-.\n" = true
        ↔ (shortFoo.size = 2 ∧ shortFoo.name2 = -1)) :=
  ⟨⟨Or.inl rfl, by decide⟩,
   (reloc_write_marker fooBarNames shortFoo (([0, 0, 0, 5] : List Byte).drop 2)).1
     (Or.inl rfl) (by decide),
   by decide,
   ((reloc_write_marker fooBarNames shortFoo (([0, 0, 0, 5] : List Byte).drop 2)).2
     "\t.short foo + 5-.\n" 2 (by decide)).2.2.2.1⟩

/-! ## Modules without relocations -/

theorem walkFrom_bytes (t : Tables) (m : Module) (hrel : m.relocs = [])
    (hl : ∀ o, 0 < o → m.labels.lookup o = none) :
    ∀ (l : List Byte) (fuel offset : Nat), 0 < offset → m.bytes.drop offset = l →
      l.length ≤ fuel →
      walkFrom t m fuel offset
        = .ok ((l.enumFrom offset).map fun ib => Item.byte ib.1 (byteLine ib.2)) := by
  intro l
  induction l with
  | nil =>
    intro fuel offset _ hd _
    have hlen : ¬ offset < m.bytes.length := by
      rw [List.drop_eq_nil_iff] at hd
      omega
    unfold walkFrom
    rw [if_neg hlen]
    rfl
  | cons b l ih =>
    intro fuel offset hpos hd hf
    have hlen : offset < m.bytes.length := by
      by_contra hc
      rw [List.drop_eq_nil_of_le (by omega)] at hd
      cases hd
    cases fuel with
    | zero => simp at hf
    | succ fuel =>
      have hb : m.bytes.getD offset 0 = b := by
        have h1 := List.drop_eq_getElem_cons hlen
        rw [hd] at h1
        rw [List.getD_eq_getElem _ _ hlen]
        exact (List.cons.inj h1).1.symm
      have hd1 : m.bytes.drop (offset + 1) = l := by
        have h1 := List.drop_eq_getElem_cons hlen
        rw [hd] at h1
        exact (List.cons.inj h1).2.symm
      have hrec := ih fuel (offset + 1) (by omega) hd1 (by simpa using hf)
      unfold walkFrom
      rw [if_pos hlen]
      simp only [hrel, List.lookup, hrec, labelItems, hl offset hpos, hb]
      rfl

theorem walk_plain (t : Tables) (m : Module) (hrel : m.relocs = [])
    (hl0 : m.labels.lookup 0 = some [m.name]) (hl : ∀ o, 0 < o → m.labels.lookup o = none)
    (hn : 0 < m.bytes.length) : walk t m = .ok (plainItems t m) := by
  unfold walk plainItems
  rcases hm : m.bytes with _ | ⟨b, l⟩
  · rw [hm] at hn
    simp at hn
  · have hb : m.bytes.getD 0 0 = b := by rw [hm]; rfl
    have hrec := walkFrom_bytes t m hrel hl l l.length 1 (by decide) (by rw [hm]; rfl) (le_refl _)
    have hlen : 0 < m.bytes.length := hn
    rw [← hm]
    unfold walkFrom
    rw [if_pos hlen]
    rw [hm]
    simp only [List.length_cons]
    simp only [hrel, List.lookup, labelItems, hl0]
    rw [Nat.zero_add, hrec]
    rfl

theorem recordLoop_next (fuel : Nat) (d d1 : Decoder) (h : step d = .next d1) :
    recordLoop (fuel + 1) d = recordLoop fuel d1 := by
  rw [recordLoop, h]

theorem recordLoop_last (fuel : Nat) (d d1 : Decoder) (h : step d = .last d1) :
    recordLoop (fuel + 1) d = .last d1 := by
  rw [recordLoop, h]

theorem fooStream_decoded :
    recordLoop 41 { inp := { data := fooStream, pos := 4 } }
      = .last { inp := { data := fooStream, pos := 40 }, tables := fooTables,
                module := some fooModule } := by
  have h1 : step { inp := { data := fooStream, pos := 4 } }
      = .next { inp := { data := fooStream, pos := 14 },
                tables := { stringDictionary := [(0, [102, 111, 111])] } } := rfl
  have h2 : step { inp := { data := fooStream, pos := 14 },
                   tables := { stringDictionary := [(0, [102, 111, 111])] } }
      = .next { inp := { data := fooStream, pos := 20 }, tables := fooTables,
                module := some { fooModule with bytes := [] } } := rfl
  have h3 : step { inp := { data := fooStream, pos := 20 }, tables := fooTables,
                   module := some { fooModule with bytes := [] } }
      = .next { inp := { data := fooStream, pos := 26 }, tables := fooTables,
                module := some fooModule } := rfl
  have h4 : step { inp := { data := fooStream, pos := 26 }, tables := fooTables,
                   module := some fooModule }
      = .next { inp := { data := fooStream, pos := 38 }, tables := fooTables,
                module := some fooModule } := rfl
  have h5 : step { inp := { data := fooStream, pos := 38 }, tables := fooTables,
                   module := some fooModule }
      = .last { inp := { data := fooStream, pos := 40 }, tables := fooTables,
                module := some fooModule } := rfl
  rw [recordLoop_next _ _ _ h1, recordLoop_next _ _ _ h2, recordLoop_next _ _ _ h3,
    recordLoop_next _ _ _ h4, recordLoop_last _ _ _ h5]

theorem plainItems_text (t : Tables) (m : Module) :
    String.join ((plainItems t m).map Item.text)
      = labelText t m.name ++ String.join (m.bytes.map byteLine) := by
  have h : ∀ (l : List Byte) (k : Nat),
      List.map (Item.text ∘ fun (ib : Nat × Byte) => Item.byte ib.1 (byteLine ib.2)) (l.enumFrom k)
        = l.map byteLine := by
    intro l
    induction l with
    | nil => intro k; rfl
    | cons b l ih =>
      intro k
      rw [List.enumFrom_cons, List.map_cons, List.map_cons, ih]
      rfl
  apply String.ext
  rw [String.data_append, join_data, join_data]
  simp only [plainItems, List.map_cons, List.flatMap_cons, Item.text, List.map_map, List.enum]
  rw [h]

theorem module_write_single_label (t : Tables) (m : Module)
    (hcode : m.isData = false) (hrel : m.relocs = [])
    (hl0 : m.labels.lookup 0 = some [m.name]) (hl : ∀ o, 0 < o → m.labels.lookup o = none)
    (hglobal : m.name ∉ t.localLabels) (hn : 0 < m.bytes.length) :
    walk t m = .ok (plainItems t m)
    ∧ labelText t m.name
        = "\t.globl " ++ encodeIdentifier t m.name ++ "\n" ++ encodeIdentifier t m.name ++ ":\n"
    ∧ Module.write t m
        = .ok ("\t.section    .text." ++ encodeIdentifier t (t.section m.name)
                  ++ ",\"ax\",@progbits\n" ++ "\t.align 2,0\n"
                ++ (labelText t m.name ++ String.join (m.bytes.map byteLine))
                ++ macsbugTrailer m (encodeIdentifier t (t.section m.name))
                ++ "# ######\n\n") := by
  have hw := walk_plain t m hrel hl0 hl hn
  refine ⟨hw, ?_, ?_⟩
  · unfold labelText
    simp only [if_pos hglobal]
  · unfold Module.write
    simp only [hw]
    rw [plainItems_text]
    have hs : sectionHeader m (encodeIdentifier t (t.section m.name))
        = "\t.section    .text." ++ encodeIdentifier t (t.section m.name)
            ++ ",\"ax\",@progbits\n" ++ "\t.align 2,0\n" := by
      unfold sectionHeader
      rw [hcode]
      rfl
    rw [hs]

set_option maxRecDepth 100000 in
/-- A code module without content: on the stream First, Dictionary{0:"foo"},
Module(name 0, flags 0x08), Last the program writes the code-section directive and the
debug-name trailer of the module, and neither the global label "foo" nor any `.byte`
line of the buffer, since the emission loop of the empty buffer writes nothing. -/
theorem main_empty_module_no_label :
    main fooEmptyStream
      = .exit 0 ("\t.text\n\t.align 2\n"
          ++ "\t.section    .text.foo,\"ax\",@progbits\n\t.align 2,0\n"
          ++ "\t.section    .text.foo.macsbug,\"ax\",@progbits\n\t.byte 131\n"
          ++ "\t.ascii \"foo\"\n\t.align 2,0\n\t.short 0\n"
          ++ "# ######\n\n")
    ∧ walk fooTables { fooModule with bytes := [] } = .ok []
    ∧ labelText fooTables 0 = "\t.globl foo\nfoo:\n" := by
  have h0 : main fooEmptyStream
      = finish (recordLoop 23 { inp := { data := fooEmptyStream, pos := 4 } }) := rfl
  have h1 : step { inp := { data := fooEmptyStream, pos := 4 } }
      = .next { inp := { data := fooEmptyStream, pos := 14 },
                tables := { stringDictionary := [(0, [102, 111, 111])] } } := rfl
  have h2 : step { inp := { data := fooEmptyStream, pos := 14 },
                   tables := { stringDictionary := [(0, [102, 111, 111])] } }
      = .next { inp := { data := fooEmptyStream, pos := 20 }, tables := fooTables,
                module := some { fooModule with bytes := [] } } := rfl
  have h3 : step { inp := { data := fooEmptyStream, pos := 20 }, tables := fooTables,
                   module := some { fooModule with bytes := [] } }
      = .last { inp := { data := fooEmptyStream, pos := 22 }, tables := fooTables,
                module := some { fooModule with bytes := [] } } := rfl
  have h4 : finish (.last { inp := { data := fooEmptyStream, pos := 22 }, tables := fooTables,
                              module := some { fooModule with bytes := [] } })
      = .exit 0 ("\t.text\n\t.align 2\n"
          ++ "\t.section    .text.foo,\"ax\",@progbits\n\t.align 2,0\n"
          ++ "\t.section    .text.foo.macsbug,\"ax\",@progbits\n\t.byte 131\n"
          ++ "\t.ascii \"foo\"\n\t.align 2,0\n\t.short 0\n"
          ++ "# ######\n\n") := by decide
  refine ⟨?_, by decide, by decide⟩
  rw [h0, recordLoop_next _ _ _ h1, recordLoop_next _ _ _ h2, recordLoop_last _ _ _ h3, h4]

/-! ## Content records -/

theorem resize_length (b : List Byte) (n : Nat) : (resize b n).length = n := by
  simp [resize]
  omega

theorem resize_get (b : List Byte) (n j : Nat) (hj : j < n) :
    (resize b n)[j]? = if j < b.length then b[j]? else some 0 := by
  unfold resize
  by_cases h : j < b.length
  · rw [if_pos h, List.getElem?_append_left (by simp; omega), List.getElem?_take_of_lt hj]
  · rw [if_neg h, List.getElem?_append_right (by simp; omega)]
    rw [List.getElem?_replicate, if_pos]
    simp
    omega

theorem writeAt_length (b : List Byte) (o : Nat) (chunk : List Byte) (h : o + chunk.length ≤ b.length) :
    (writeAt b o chunk).length = b.length := by
  simp [writeAt]
  omega

theorem writeAt_get (b : List Byte) (o : Nat) (chunk : List Byte) (h : o + chunk.length ≤ b.length)
    (j : Nat) :
    (writeAt b o chunk)[j]? = if o ≤ j ∧ j < o + chunk.length then chunk[j - o]? else b[j]? := by
  unfold writeAt
  have ht : (b.take o).length = o := by simp; omega
  by_cases h1 : j < o
  · rw [if_neg (by omega), List.append_assoc, List.getElem?_append_left (by omega),
      List.getElem?_take_of_lt h1]
  · by_cases h2 : j < o + chunk.length
    · rw [if_pos ⟨by omega, h2⟩, List.getElem?_append_left (by simp; omega),
        List.getElem?_append_right (by omega), ht]
    · rw [if_neg (by omega), List.getElem?_append_right (by simp; omega), List.getElem?_drop]
      congr 1
      simp
      omega

theorem copyRepeat_spec (sz : Nat) :
    ∀ (count o : Nat) (b : List Byte), o + sz * (count + 1) ≤ b.length →
      (copyRepeat sz count o b).length = b.length
      ∧ (∀ k i, k ≤ count → i < sz → (copyRepeat sz count o b)[o + k * sz + i]? = b[o + i]?)
      ∧ (∀ j, j < o + sz ∨ o + sz * (count + 1) ≤ j → (copyRepeat sz count o b)[j]? = b[j]?) := by
  intro count
  induction count with
  | zero =>
    intro o b _
    refine ⟨rfl, ?_, fun j _ => rfl⟩
    intro k i hk _
    have : k = 0 := by omega
    subst this
    simp [copyRepeat]
  | succ count ih =>
    intro o b hb
    have hmul : sz * (count + 1 + 1) = sz * (count + 1) + sz := Nat.mul_succ sz (count + 1)
    have hmul1 : sz * (count + 1) = sz * count + sz := Nat.mul_succ sz count
    have hc : ((b.drop o).take sz).length = sz := by
      simp
      omega
    have hfit : o + sz + ((b.drop o).take sz).length ≤ b.length := by omega
    have hlen := writeAt_length b (o + sz) ((b.drop o).take sz) hfit
    have hget := writeAt_get b (o + sz) ((b.drop o).take sz) hfit
    obtain ⟨ih1, ih2, ih3⟩ := ih (o + sz) (writeAt b (o + sz) ((b.drop o).take sz))
      (by rw [hlen]; omega)
    rw [copyRepeat]
    refine ⟨by rw [ih1, hlen], ?_, ?_⟩
    · intro k i hk hi
      cases k with
      | zero =>
        rw [Nat.zero_mul, Nat.add_zero, ih3 (o + i) (Or.inl (by omega)), hget,
          if_neg (by omega)]
      | succ k =>
        have hidx : o + (k + 1) * sz + i = o + sz + k * sz + i := by
          rw [Nat.succ_mul]
          omega
        rw [hidx, ih2 k i (by omega) hi, hget, if_pos ⟨by omega, by omega⟩,
          List.getElem?_take_of_lt (by omega), List.getElem?_drop]
        congr 1
        omega
    · intro j hj
      rw [ih3 j (by omega), hget, if_neg (by omega)]

theorem IStream.read_ok (s : IStream) (n : Nat) (hok : s.failed = false)
    (hpay : s.pos + n ≤ s.data.length) :
    s.read n = ((s.data.drop s.pos).take n, ⟨s.data, s.pos + n, false, s.eof⟩) := by
  obtain ⟨data, pos, failed, eof⟩ := s
  simp only at hok hpay
  subst hok
  have hc : ((data.drop pos).take n).length = n := by
    simp
    omega
  simp only [IStream.read, hc]
  simp

theorem storeContent_eq (m : Module) (h : ContentHeader)
    (hsz : 0 ≤ h.sz) (hrep : 1 ≤ h.repeat_)
    (hint : h.sz * (h.repeat_ : Int) < 2147483648)
    (hu32 : h.offset + h.sz.toNat * h.repeat_ < 4294967296)
    (hok : h.inp.failed = false) (hpay : h.inp.pos + h.sz.toNat ≤ h.inp.data.length) :
    storeContent m h
      = some ({ m with
                bytes :=
                  copyRepeat h.sz.toNat (h.repeat_ - 1) h.offset
                    (writeAt (if m.bytes.length < h.offset + h.sz.toNat * h.repeat_
                        then resize m.bytes (h.offset + h.sz.toNat * h.repeat_) else m.bytes)
                      h.offset ((h.inp.data.drop h.inp.pos).take h.sz.toNat)) },
              ⟨h.inp.data, h.inp.pos + h.sz.toNat, false, h.inp.eof⟩) := by
  have hmod : (h.offset + h.sz.toNat * h.repeat_) % 4294967296
      = h.offset + h.sz.toNat * h.repeat_ := Nat.mod_eq_of_lt hu32
  have hmax : max h.repeat_ 1 = h.repeat_ := max_eq_left hrep
  have hc : ((h.inp.data.drop h.inp.pos).take h.sz.toNat).length = h.sz.toNat := by
    simp
    omega
  have hle : h.sz.toNat ≤ h.sz.toNat * h.repeat_ := Nat.le_mul_of_pos_right _ hrep
  unfold storeContent
  rw [if_neg (by omega)]
  simp only [hmod, hmax]
  rw [if_neg]
  · rw [IStream.read_ok h.inp h.sz.toNat hok hpay]
  · rintro ⟨_, h2⟩
    split at h2
    · rw [resize_length] at h2
      omega
    · omega

theorem grow_spec (b : List Byte) (total : Nat) :
    (if b.length < total then resize b total else b).length = max b.length total
    ∧ ∀ j, (if b.length < total then resize b total else b)[j]?
        = if j < b.length then b[j]? else if j < total then some 0 else none := by
  by_cases h : b.length < total
  · rw [if_pos h, resize_length]
    refine ⟨by omega, fun j => ?_⟩
    by_cases hj : j < total
    · rw [resize_get b total j hj]
      by_cases h1 : j < b.length
      · rw [if_pos h1, if_pos h1]
      · rw [if_neg h1, if_neg h1, if_pos hj]
    · rw [if_neg (by omega), if_neg hj]
      exact List.getElem?_eq_none (by rw [resize_length]; omega)
  · rw [if_neg h]
    refine ⟨by omega, fun j => ?_⟩
    by_cases h1 : j < b.length
    · rw [if_pos h1]
    · rw [if_neg h1, if_neg (by omega)]
      exact List.getElem?_eq_none (by omega)

theorem readContentHeader_plain (s : IStream) :
    (s.byte.1 &&& 0x08 = 0 → (readContentHeader s).offset = 0)
    ∧ (s.byte.1 &&& 0x10 = 0 → (readContentHeader s).repeat_ = 1) := by
  constructor
  · intro h
    have h8 : ¬ (s.byte.1 &&& 0x08 ≠ 0) := fun hc => hc h
    simp only [readContentHeader, if_neg h8]
    split <;> rfl
  · intro h
    have h16 : ¬ (s.byte.1 &&& 0x10 ≠ 0) := fun hc => hc h
    simp only [readContentHeader, if_neg h16]
    split <;> rfl

/-- C13 (amended): for a Content record read while a module is current, with payload
of length size >= 0 present in the stream, offset o (0 when flag bit 0x08 is clear),
repeat count r >= 1 (1 when flag bit 0x10 is clear), size*r below 2^31 and
o + size*r below 2^32, the record is processed and the loop goes on; afterwards the
buffer has length max(old length, o + size*r), byte o + k*size + i is payload byte i
for every k < r and i < size, and a position outside [o, o + size*r) holds its old
byte if it existed before and zero if it is new. -/
theorem content_record_stores (d : Decoder) (m : Module) (h : ContentHeader)
    (hh : readContentHeader d.inp = h) (hmod : d.module = some m)
    (hsz : 0 ≤ h.sz) (hrep : 1 ≤ h.repeat_)
    (hint : h.sz * (h.repeat_ : Int) < 2147483648)
    (hu32 : h.offset + h.sz.toNat * h.repeat_ < 4294967296)
    (hok : h.inp.failed = false) (hpay : h.inp.pos + h.sz.toNat ≤ h.inp.data.length) :
    (d.inp.byte.1 &&& 0x08 = 0 → h.offset = 0)
    ∧ (d.inp.byte.1 &&& 0x10 = 0 → h.repeat_ = 1)
    ∧ ∃ bytes,
      doContent d
        = .next { d with inp := ⟨h.inp.data, h.inp.pos + h.sz.toNat, false, h.inp.eof⟩,
                         module := some { m with bytes := bytes } }
      ∧ bytes.length = max m.bytes.length (h.offset + h.sz.toNat * h.repeat_)
      ∧ (∀ k i, k < h.repeat_ → i < h.sz.toNat →
          bytes[h.offset + k * h.sz.toNat + i]? = h.inp.data[h.inp.pos + i]?)
      ∧ (∀ j, j < h.offset ∨ h.offset + h.sz.toNat * h.repeat_ ≤ j →
          bytes[j]? = if j < m.bytes.length then m.bytes[j]?
                      else if j < h.offset then some 0 else none) := by
  have hplain := readContentHeader_plain d.inp
  rw [hh] at hplain
  refine ⟨hplain.1, hplain.2,
    copyRepeat h.sz.toNat (h.repeat_ - 1) h.offset
      (writeAt (if m.bytes.length < h.offset + h.sz.toNat * h.repeat_
            then resize m.bytes (h.offset + h.sz.toNat * h.repeat_) else m.bytes)
          h.offset ((h.inp.data.drop h.inp.pos).take h.sz.toNat)), ?_, ?_⟩
  · unfold doContent
    simp only [hh, hmod, storeContent_eq m h hsz hrep hint hu32 hok hpay]
  · have hle : h.sz.toNat ≤ h.sz.toNat * h.repeat_ := Nat.le_mul_of_pos_right _ hrep
    have hc : ((h.inp.data.drop h.inp.pos).take h.sz.toNat).length = h.sz.toNat := by
      simp
      omega
    obtain ⟨g1, g2⟩ := grow_spec m.bytes (h.offset + h.sz.toNat * h.repeat_)
    have hfit : h.offset + ((h.inp.data.drop h.inp.pos).take h.sz.toNat).length
        ≤ (if m.bytes.length < h.offset + h.sz.toNat * h.repeat_
            then resize m.bytes (h.offset + h.sz.toNat * h.repeat_) else m.bytes).length := by
      rw [g1, hc]
      omega
    have w1 := writeAt_length _ _ _ hfit
    have w2 := writeAt_get _ _ _ hfit
    have hr : h.repeat_ - 1 + 1 = h.repeat_ := by omega
    obtain ⟨c1, c2, c3⟩ := copyRepeat_spec h.sz.toNat (h.repeat_ - 1) h.offset
      (writeAt (if m.bytes.length < h.offset + h.sz.toNat * h.repeat_
            then resize m.bytes (h.offset + h.sz.toNat * h.repeat_) else m.bytes)
          h.offset ((h.inp.data.drop h.inp.pos).take h.sz.toNat))
      (by rw [w1, g1, hr]; omega)
    rw [hr] at c3
    refine ⟨by rw [c1, w1, g1], ?_, ?_⟩
    · intro k i hk hi
      rw [c2 k i (by omega) hi, w2, if_pos ⟨by omega, by omega⟩,
        List.getElem?_take_of_lt (by omega), List.getElem?_drop]
      congr 1
      omega
    · intro j hj
      rw [c3 j (by omega), w2, if_neg (by omega), g2]
      by_cases h1 : j < m.bytes.length
      · rw [if_pos h1, if_pos h1]
      · rw [if_neg h1, if_neg h1]
        by_cases h2 : j < h.offset
        · rw [if_pos h2, if_pos (by omega)]
        · rw [if_neg h2, if_neg (by omega)]

/-- A Content record whose offset plus size leaves the 32-bit range: with offset
0xFFFFFFFF and one payload byte the sum `offset + sz * repeat` wraps to 0, the buffer
of four bytes is not resized, and the payload is stored outside the buffer. -/
theorem content_offset_wraps :
    (readContentHeader wrapContent.inp.byte.2).offset = 4294967295
    ∧ (readContentHeader wrapContent.inp.byte.2).sz = 1
    ∧ (readContentHeader wrapContent.inp.byte.2).repeat_ = 1
    ∧ (4294967295 + 1 * 1) % 4294967296 = 0
    ∧ step wrapContent = .undefined :=
  ⟨by decide, by decide, by decide, by decide, rfl⟩

/-- The amended statement at a record with offset 1, size 2, repeat count 3 and
payload 7, 9 over the buffer 5, 6: the buffer becomes 5, 7, 9, 7, 9, 7, 9. -/
theorem content_record_stores_witness :
    (readContentHeader repeatContent.inp = repeatHeader
      ∧ repeatContent.module = some repeatModule
      ∧ 0 ≤ repeatHeader.sz ∧ 1 ≤ repeatHeader.repeat_
      ∧ repeatHeader.sz * (repeatHeader.repeat_ : Int) < 2147483648
      ∧ repeatHeader.offset + repeatHeader.sz.toNat * repeatHeader.repeat_ < 4294967296
      ∧ repeatHeader.inp.failed = false
      ∧ repeatHeader.inp.pos + repeatHeader.sz.toNat ≤ repeatHeader.inp.data.length)
    ∧ ((repeatContent.inp.byte.1 &&& 0x08 = 0 → repeatHeader.offset = 0)
      ∧ (repeatContent.inp.byte.1 &&& 0x10 = 0 → repeatHeader.repeat_ = 1)
      ∧ ∃ bytes,
        doContent repeatContent
          = .next { repeatContent with
                      inp := ⟨repeatHeader.inp.data, repeatHeader.inp.pos + repeatHeader.sz.toNat,
                              false, repeatHeader.inp.eof⟩,
                      module := some { repeatModule with bytes := bytes } }
        ∧ bytes.length
            = max repeatModule.bytes.length
                (repeatHeader.offset + repeatHeader.sz.toNat * repeatHeader.repeat_)
        ∧ (∀ k i, k < repeatHeader.repeat_ → i < repeatHeader.sz.toNat →
            bytes[repeatHeader.offset + k * repeatHeader.sz.toNat + i]?
              = repeatHeader.inp.data[repeatHeader.inp.pos + i]?)
        ∧ (∀ j, j < repeatHeader.offset
              ∨ repeatHeader.offset + repeatHeader.sz.toNat * repeatHeader.repeat_ ≤ j →
            bytes[j]? = if j < repeatModule.bytes.length then repeatModule.bytes[j]?
                        else if j < repeatHeader.offset then some 0 else none))
    ∧ doContent repeatContent
        = .next { repeatContent with
                    inp := { repeatContent.inp with pos := 12 },
                    module := some { repeatModule with bytes := [5, 7, 9, 7, 9, 7, 9] } } :=
  ⟨⟨rfl, rfl, by decide, by decide, by decide, by decide, rfl, by decide⟩,
   content_record_stores repeatContent repeatModule repeatHeader rfl rfl (by decide) (by decide)
     (by decide) (by decide) rfl (by decide),
   rfl⟩

/-! ## Changes of the section map -/

theorem lookup_mapSet_key {κ α : Type} [DecidableEq κ] (l : List (κ × α)) (k k2 : κ) (v : α) :
    (mapSet l k v).lookup k2 = if k2 = k then some v else l.lookup k2 := by
  induction l with
  | nil =>
    by_cases h : k2 = k
    · subst h
      simp [mapSet, List.lookup]
    · have hb : (k2 == k) = false := by simpa using h
      simp [mapSet, List.lookup, hb, h]
  | cons p l ih =>
    obtain ⟨k0, v0⟩ := p
    unfold mapSet
    by_cases h0 : k0 = k
    · subst h0
      rw [if_pos rfl]
      by_cases h2 : k2 = k0
      · subst h2
        simp [List.lookup]
      · have hb : (k2 == k0) = false := by simpa using h2
        simp [List.lookup, hb, h2]
    · rw [if_neg h0]
      by_cases h2 : k2 = k0
      · subst h2
        have : ¬ k2 = k := h0
        simp [List.lookup, this]
      · have hb : (k2 == k0) = false := by simpa using h2
        simp only [List.lookup, hb, ih]

theorem relocLoop_state (end_ : Int) (reloc : Reloc) :
    ∀ (fuel : Nat) (d : Decoder) (m : Module) (d1 : Decoder),
      (relocLoop end_ reloc fuel d m).state? = some d1 →
      relocLoop end_ reloc fuel d m = .next d1
      ∧ d1.tables = d.tables ∧ d1.modules = d.modules
      ∧ ∃ m1, d1.module = some m1 ∧ m1.name = m.name ∧ m1.segment = m.segment
          ∧ m1.isData = m.isData ∧ m1.bytes = m.bytes ∧ m1.labels = m.labels
          ∧ ∀ o r, m1.relocs.lookup o = some r → r = reloc ∨ m.relocs.lookup o = some r := by
  intro fuel
  induction fuel with
  | zero =>
    intro d m d1 h
    unfold relocLoop at h ⊢
    by_cases h1 : d.inp.tellg < end_
    · rw [if_pos h1] at h
      by_cases h2 : d.inp.failed = true
      · rw [if_pos h2] at h
        cases h
      · rw [if_neg h2] at h
        cases h
    · rw [if_neg h1] at h ⊢
      simp only [Outcome.state?, Option.some.injEq] at h
      subst h
      exact ⟨rfl, rfl, rfl, m, rfl, rfl, rfl, rfl, rfl, rfl, fun o r hr => Or.inr hr⟩
  | succ n ih =>
    intro d m d1 h
    unfold relocLoop at h ⊢
    by_cases h1 : d.inp.tellg < end_
    · rw [if_pos h1] at h ⊢
      by_cases h2 : d.inp.failed = true
      · rw [if_pos h2] at h
        cases h
      · rw [if_neg h2] at h ⊢
        simp only at h ⊢
        obtain ⟨e1, e2, e3, m1, f1, f2, f3, f4, f5, f6, f7⟩ := ih _ _ d1 h
        refine ⟨e1, e2, e3, m1, f1, f2, f3, f4, f5, f6, ?_⟩
        intro o r hr
        rcases f7 o r hr with hq | hq
        · exact Or.inl hq
        · rw [lookup_mapSet_key] at hq
          by_cases ho : o = d.inp.word.1
          · rw [if_pos ho] at hq
            exact Or.inl (Option.some.inj hq).symm
          · rw [if_neg ho] at hq
            exact Or.inr hq
    · rw [if_neg h1] at h ⊢
      simp only [Outcome.state?, Option.some.injEq] at h
      subst h
      exact ⟨rfl, rfl, rfl, m, rfl, rfl, rfl, rfl, rfl, rfl, fun o r hr => Or.inr hr⟩

theorem dictLoop_state (end_ : Int) :
    ∀ (fuel : Nat) (d : Decoder) (id : stringid) (d1 : Decoder),
      (dictLoop end_ fuel d id).state? = some d1 →
      d1.tables.sectionMap = d.tables.sectionMap ∧ d1.tables.localLabels = d.tables.localLabels
      ∧ d1.modules = d.modules ∧ d1.module = d.module := by
  intro fuel
  induction fuel with
  | zero =>
    intro d id d1 h
    unfold dictLoop at h
    by_cases h1 : d.inp.tellg < end_
    · rw [if_pos h1] at h
      by_cases h2 : d.inp.failed = true
      · rw [if_pos h2] at h
        cases h
      · rw [if_neg h2] at h
        cases h
    · rw [if_neg h1] at h
      simp only [Outcome.state?, Option.some.injEq] at h
      subst h
      exact ⟨rfl, rfl, rfl, rfl⟩
  | succ n ih =>
    intro d id d1 h
    unfold dictLoop at h
    by_cases h1 : d.inp.tellg < end_
    · rw [if_pos h1] at h
      by_cases h2 : d.inp.failed = true
      · rw [if_pos h2] at h
        cases h
      · rw [if_neg h2] at h
        simp only at h
        have hrec := ih _ _ d1 h
        exact hrec
    · rw [if_neg h1] at h
      simp only [Outcome.state?, Option.some.injEq] at h
      subst h
      exact ⟨rfl, rfl, rfl, rfl⟩

theorem state_next (d d1 : Decoder) (h : (Outcome.next d).state? = some d1) : d1 = d :=
  (Option.some.inj h).symm

theorem state_abort (d d1 : Decoder) (h : (Outcome.abort d).state? = some d1) : d1 = d :=
  (Option.some.inj h).symm

theorem state_exit1 (why : Failure) (d d1 : Decoder)
    (h : (Outcome.exit1 why d).state? = some d1) : d1 = d :=
  (Option.some.inj h).symm

theorem state_last (d d1 : Decoder) (h : (Outcome.last d).state? = some d1) : d1 = d :=
  (Option.some.inj h).symm

theorem doComment_state (d d1 : Decoder) (h : (doComment d).state? = some d1) :
    d1.tables = d.tables ∧ d1.modules = d.modules ∧ d1.module = d.module := by
  have := state_next _ _ h
  subst this
  exact ⟨rfl, rfl, rfl⟩

theorem doDictionary_state (d d1 : Decoder) (h : (doDictionary d).state? = some d1) :
    d1.tables.sectionMap = d.tables.sectionMap ∧ d1.tables.localLabels = d.tables.localLabels
      ∧ d1.modules = d.modules ∧ d1.module = d.module := by
  unfold doDictionary at h
  simp only at h
  have hrec := dictLoop_state _ _ _ _ d1 h
  exact hrec

theorem storeContent_kept (m m1 : Module) (hd : ContentHeader) (s : IStream)
    (h : storeContent m hd = some (m1, s)) :
    m1.name = m.name ∧ m1.segment = m.segment ∧ m1.isData = m.isData
      ∧ m1.labels = m.labels ∧ m1.relocs = m.relocs := by
  unfold storeContent at h
  by_cases h1 : hd.sz < 0 ∨ 2147483648 ≤ hd.sz * (hd.repeat_ : Int)
  · rw [if_pos h1] at h
    cases h
  · rw [if_neg h1] at h
    simp only at h
    by_cases h2 : 0 < hd.sz.toNat ∧
        (if m.bytes.length < (hd.offset + hd.sz.toNat * hd.repeat_) % 4294967296
          then resize m.bytes ((hd.offset + hd.sz.toNat * hd.repeat_) % 4294967296)
          else m.bytes).length < hd.offset + hd.sz.toNat * max hd.repeat_ 1
    · rw [if_pos h2] at h
      cases h
    · rw [if_neg h2] at h
      simp only [Option.some.injEq, Prod.mk.injEq] at h
      obtain ⟨h3, _⟩ := h
      subst h3
      exact ⟨rfl, rfl, rfl, rfl, rfl⟩

theorem doContent_state (d d1 : Decoder) (h : (doContent d).state? = some d1) :
    d1.tables = d.tables ∧ d1.modules = d.modules
      ∧ (d1.module = d.module ∨ ∃ m m1, d.module = some m ∧ d1.module = some m1
          ∧ m1.name = m.name ∧ m1.relocs = m.relocs) := by
  unfold doContent at h
  simp only at h
  cases hm : d.module with
  | none =>
    rw [hm] at h
    have := state_abort _ _ h
    subst this
    exact ⟨rfl, rfl, Or.inl rfl⟩
  | some m =>
    rw [hm] at h
    simp only at h
    cases hs : storeContent m (readContentHeader d.inp) with
    | none =>
      rw [hs] at h
      cases h
    | some p =>
      obtain ⟨m1, s⟩ := p
      rw [hs] at h
      have := state_next _ _ h
      subst this
      obtain ⟨k1, _, _, _, k5⟩ := storeContent_kept m m1 _ s hs
      exact ⟨rfl, rfl, Or.inr ⟨m, m1, rfl, rfl, k1, k5⟩⟩

theorem doSize_state (d d1 : Decoder) (h : (doSize d).state? = some d1) :
    d1.tables = d.tables ∧ d1.modules = d.modules
      ∧ (d1.module = d.module ∨ ∃ m m1, d.module = some m ∧ d1.module = some m1
          ∧ m1.name = m.name ∧ m1.relocs = m.relocs) := by
  unfold doSize at h
  simp only at h
  cases hm : d.module with
  | none =>
    rw [hm] at h
    have := state_abort _ _ h
    subst this
    exact ⟨rfl, rfl, Or.inl rfl⟩
  | some m =>
    rw [hm] at h
    have := state_next _ _ h
    subst this
    exact ⟨rfl, rfl, Or.inr ⟨m, _, rfl, rfl, rfl, rfl⟩⟩

theorem doEntryPoint_state (d d1 : Decoder) (h : (doEntryPoint d).state? = some d1) :
    d1.tables.sectionMap = d.tables.sectionMap ∧ d1.modules = d.modules
      ∧ (d1.module = d.module ∨ ∃ m m1, d.module = some m ∧ d1.module = some m1
          ∧ m1.name = m.name ∧ m1.relocs = m.relocs) := by
  unfold doEntryPoint at h
  simp only at h
  cases hm : d.module with
  | none =>
    rw [hm] at h
    have := state_abort _ _ h
    subst this
    exact ⟨rfl, rfl, Or.inl rfl⟩
  | some m =>
    rw [hm] at h
    have := state_next _ _ h
    subst this
    exact ⟨rfl, rfl, Or.inr ⟨m, _, rfl, rfl, rfl, rfl⟩⟩

theorem doFilename_state (d d1 : Decoder) (h : (doFilename d).state? = some d1) :
    d1.tables = d.tables ∧ d1.modules = d.modules ∧ d1.module = d.module := by
  have := state_next _ _ h
  subst this
  exact ⟨rfl, rfl, rfl⟩

theorem doLast_state (d d1 : Decoder) (h : (doLast d).state? = some d1) :
    d1.tables = d.tables ∧ d1.modules = d.modules ∧ d1.module = d.module := by
  have := state_last _ _ h
  subst this
  exact ⟨rfl, rfl, rfl⟩

theorem doReference_state (d d1 : Decoder) (h : (doReference d).state? = some d1) :
    d1.tables = d.tables ∧ d1.modules = d.modules
      ∧ (d1.module = d.module ∨ ∃ m m1, d.module = some m ∧ d1.module = some m1
          ∧ m1.name = m.name ∧ m1.segment = m.segment ∧ m1.isData = m.isData
          ∧ m1.bytes = m.bytes ∧ m1.labels = m.labels
          ∧ ∀ o r, m1.relocs.lookup o = some r →
              r = { size := if referenceFlags d &&& 0x10 ≠ 0 then 2 else 4,
                    name1 := d.inp.byte.2.word.2.word.1 }
                ∨ m.relocs.lookup o = some r) := by
  unfold doReference at h
  simp only at h
  split at h
  · have := state_exit1 _ _ _ h
    subst this
    exact ⟨rfl, rfl, Or.inl rfl⟩
  · split at h
    · have := state_exit1 _ _ _ h
      subst this
      exact ⟨rfl, rfl, Or.inl rfl⟩
    · cases hm : d.module with
      | none =>
        rw [hm] at h
        have := state_abort _ _ h
        subst this
        exact ⟨rfl, rfl, Or.inl rfl⟩
      | some m =>
        rw [hm] at h
        simp only at h
        obtain ⟨_, e2, e3, m1, f1, f2, f3, f4, f5, f6, f7⟩ := relocLoop_state _ _ _ _ _ d1 h
        exact ⟨e2, e3, Or.inr ⟨m, m1, rfl, f1, f2, f3, f4, f5, f6, f7⟩⟩

theorem doComputedRef_state (d d1 : Decoder) (h : (doComputedRef d).state? = some d1) :
    d1.tables.stringDictionary = d.tables.stringDictionary
      ∧ d1.tables.localLabels = d.tables.localLabels
      ∧ d1.modules = d.modules
      ∧ ((d1.module = d.module ∧ d1.tables.sectionMap = d.tables.sectionMap)
          ∨ ∃ m m1, d.module = some m ∧ d1.module = some m1
            ∧ m1.name = m.name ∧ m1.segment = m.segment ∧ m1.isData = m.isData
            ∧ m1.bytes = m.bytes ∧ m1.labels = m.labels
            ∧ (∀ o r, m1.relocs.lookup o = some r →
                r = { size := 2, name1 := computedRefPrimary d, name2 := computedRefSecondary d }
                  ∨ m.relocs.lookup o = some r)
            ∧ d1.tables.sectionMap
                = (match d.tables.sectionMap.lookup (computedRefPrimary d) with
                    | some v => mapSet d.tables.sectionMap m.name v
                    | none => d.tables.sectionMap)) := by
  unfold doComputedRef at h
  simp only at h
  split at h
  · have := state_abort _ _ h
    subst this
    exact ⟨rfl, rfl, rfl, Or.inl ⟨rfl, rfl⟩⟩
  · cases hm : d.module with
    | none =>
      rw [hm] at h
      have := state_abort _ _ h
      subst this
      exact ⟨rfl, rfl, rfl, Or.inl ⟨rfl, rfl⟩⟩
    | some m =>
      rw [hm] at h
      simp only at h
      obtain ⟨_, e2, e3, m1, f1, f2, f3, f4, f5, f6, f7⟩ := relocLoop_state _ _ _ _ _ d1 h
      refine ⟨by rw [e2], by rw [e2], e3, Or.inr ⟨m, m1, rfl, f1, f2, f3, f4, f5, f6, f7, ?_⟩⟩
      rw [e2]
      rfl

theorem doModule_eq (d : Decoder) :
    doModule d
      = .next
        { inp := d.inp.byte.2.word.2.word.2,
          tables :=
            { d.tables with
              sectionMap := mapSet d.tables.sectionMap (moduleRecordName d) (moduleRecordName d),
              localLabels :=
                if d.inp.byte.1 &&& 0x08 = 0 then setAdd d.tables.localLabels (moduleRecordName d)
                else d.tables.localLabels },
          modules := d.allModules,
          module := some
            { name := moduleRecordName d, segment := d.inp.byte.2.word.2.word.1,
              isData := decide (d.inp.byte.1 &&& 0x01 ≠ 0),
              labels := [(0, [moduleRecordName d])] } } := rfl

theorem dispatch_other_state (recordType : Nat) (d d1 : Decoder) (h5 : recordType ≠ 5)
    (h10 : recordType ≠ 10) (h : (dispatch recordType d).state? = some d1) :
    d1.tables.sectionMap = d.tables.sectionMap ∧ d1.modules = d.modules
      ∧ ModuleKept d.module d1.module := by
  unfold dispatch at h
  split at h
  · have := state_next _ _ h
    subst this
    exact ⟨rfl, rfl, Or.inl rfl⟩
  split at h
  · obtain ⟨e1, e2, e3⟩ := doComment_state d d1 h
    exact ⟨by rw [e1], e2, Or.inl e3⟩
  split at h
  · obtain ⟨e1, _, e2, e3⟩ := doDictionary_state d d1 h
    exact ⟨e1, e2, Or.inl e3⟩
  split at h
  · obtain ⟨e1, e2, e3⟩ := doContent_state d d1 h
    refine ⟨by rw [e1], e2, ?_⟩
    rcases e3 with e3 | ⟨m, m1, k1, k2, k3, k4⟩
    · exact Or.inl e3
    · exact Or.inr ⟨m, m1, k1, k2, k3, fun o r hr => Or.inl (by rw [← k4]; exact hr)⟩
  split at h
  · obtain ⟨e1, e2, e3⟩ := doSize_state d d1 h
    refine ⟨by rw [e1], e2, ?_⟩
    rcases e3 with e3 | ⟨m, m1, k1, k2, k3, k4⟩
    · exact Or.inl e3
    · exact Or.inr ⟨m, m1, k1, k2, k3, fun o r hr => Or.inl (by rw [← k4]; exact hr)⟩
  split at h
  · obtain ⟨e1, e2, e3⟩ := doReference_state d d1 h
    refine ⟨by rw [e1], e2, ?_⟩
    rcases e3 with e3 | ⟨m, m1, k1, k2, k3, _, _, _, _, k4⟩
    · exact Or.inl e3
    · refine Or.inr ⟨m, m1, k1, k2, k3, fun o r hr => ?_⟩
      rcases k4 o r hr with hq | hq
      · right
        rw [hq]
        simp only
        split
        · exact Or.inl rfl
        · exact Or.inr rfl
      · exact Or.inl hq
  split at h
  · obtain ⟨e1, e2, e3⟩ := doEntryPoint_state d d1 h
    refine ⟨e1, e2, ?_⟩
    rcases e3 with e3 | ⟨m, m1, k1, k2, k3, k4⟩
    · exact Or.inl e3
    · exact Or.inr ⟨m, m1, k1, k2, k3, fun o r hr => Or.inl (by rw [← k4]; exact hr)⟩
  split at h
  · obtain ⟨e1, e2, e3⟩ := doFilename_state d d1 h
    exact ⟨by rw [e1], e2, Or.inl e3⟩
  split at h
  · obtain ⟨e1, e2, e3⟩ := doLast_state d d1 h
    exact ⟨by rw [e1], e2, Or.inl e3⟩
  · have := state_exit1 _ _ _ h
    subst this
    exact ⟨rfl, rfl, Or.inl rfl⟩

theorem relocLoop_next_of_fit (end_ : Int) (reloc : Reloc) (fuel : Nat) (d : Decoder)
    (m : Module) (k : Nat) (hf : d.inp.failed = false) (hk : k < fuel)
    (hend : end_ ≤ (d.inp.pos : Int) + 2 * k) (hlen : d.inp.pos + 2 * k ≤ d.inp.data.length) :
    ∃ d1, relocLoop end_ reloc fuel d m = .next d1 := by
  obtain ⟨inp, t, ms, mo⟩ := d
  obtain ⟨data, pos, failed, eof⟩ := inp
  simp only at hf hend hlen
  subst hf
  obtain ⟨s, m1, hr⟩ := relocLoop_next end_ reloc data eof t ms fuel k pos mo m hk hend hlen
  exact ⟨_, hr⟩

theorem doComputedRef_next (d : Decoder) (m : Module) (hm : d.module = some m)
    (hf : computedRefFlags d = 0x90) (hc : ComputedRefComplete d) :
    ∃ d1, doComputedRef d = .next d1 := by
  obtain ⟨inp, t, ms, mo⟩ := d
  obtain ⟨data, pos, failed, eof⟩ := inp
  obtain ⟨hfail, hlen⟩ := hc
  simp only at hfail hm hlen
  subst hfail hm
  have h1 : ¬ ((IStream.mk data pos false eof).byte.1 ≠ 0x90) := fun hc => hc hf
  unfold doComputedRef
  simp only
  rw [if_neg h1]
  simp only [computedRefSize, IStream.byte_mk data pos eof (by omega),
    IStream.word_mk data (pos + 1) eof (by omega)] at hlen
  simp only [IStream.byte_mk data pos eof (by omega),
    IStream.word_mk data (pos + 1) eof (by omega), IStream.word_mk data (pos + 3) eof (by omega),
    IStream.word_mk data (pos + 5) eof (by omega), IStream.tellg_mk]
  refine relocLoop_next_of_fit _ _ _ _ _ (((data.get ⟨pos + 1, by omega⟩).val * 256
    + (data.get ⟨pos + 1 + 1, by omega⟩).val - 7) / 2) rfl ?_ ?_ ?_
  · show _ < data.length + 1
    omega
  · show _ ≤ ((pos + 7 : Nat) : Int) + _
    push_cast
    omega
  · show pos + 7 + _ ≤ data.length
    omega

/-- C14: SectionMap is changed only by Module and ComputedRef records.  A Module
record with name n is always decoded and sets SectionMap[n] = n, every other entry
unchanged.  A ComputedRef record with flags 0x90 that lies in the stream, read while
module m is current, is decoded; after it SectionMap[m.name] is the previous
SectionMap[p] when the primary symbol p had an entry, every other entry unchanged, and
SectionMap is entirely unchanged when p had none; a ComputedRef record that stops at
an assert leaves the tables unchanged.  Every other record type, however it ends,
leaves SectionMap unchanged. -/
theorem sectionMap_changes (d : Decoder) :
    (∃ d1, doModule d = .next d1
      ∧ d1.tables.sectionMap.lookup (moduleRecordName d) = some (moduleRecordName d)
      ∧ ∀ k, k ≠ moduleRecordName d →
          d1.tables.sectionMap.lookup k = d.tables.sectionMap.lookup k)
    ∧ (∀ m, d.module = some m → computedRefFlags d = 0x90 → ComputedRefComplete d →
        ∃ d1, doComputedRef d = .next d1)
    ∧ (∀ m d1, d.module = some m → doComputedRef d = .next d1 →
        (∀ v, d.tables.sectionMap.lookup (computedRefPrimary d) = some v →
          d1.tables.sectionMap.lookup m.name = some v
          ∧ ∀ k, k ≠ m.name → d1.tables.sectionMap.lookup k = d.tables.sectionMap.lookup k)
        ∧ (d.tables.sectionMap.lookup (computedRefPrimary d) = none →
          d1.tables.sectionMap = d.tables.sectionMap))
    ∧ (∀ d1, doComputedRef d = .abort d1 → d1.tables = d.tables)
    ∧ (∀ recordType d1, recordType ≠ 5 → recordType ≠ 10 →
        (dispatch recordType d).state? = some d1 →
        d1.tables.sectionMap = d.tables.sectionMap) := by
  refine ⟨⟨_, doModule_eq d, ?_, ?_⟩, fun m hm hf hc => doComputedRef_next d m hm hf hc, ?_, ?_,
    fun t d1 h5 h10 h => (dispatch_other_state t d d1 h5 h10 h).1⟩
  · show (mapSet d.tables.sectionMap (moduleRecordName d) (moduleRecordName d)).lookup _ = _
    rw [lookup_mapSet, if_pos rfl]
  · intro k hk
    show (mapSet d.tables.sectionMap (moduleRecordName d) (moduleRecordName d)).lookup _ = _
    rw [lookup_mapSet, if_neg hk]
  · intro m d1 hm hn
    unfold doComputedRef at hn
    simp only at hn
    split at hn
    · cases hn
    · rw [hm] at hn
      simp only at hn
      obtain ⟨_, e2, _⟩ := relocLoop_state _ _ _ _ _ d1 (by rw [hn]; rfl)
      have k9 : d1.tables.sectionMap
          = (match d.tables.sectionMap.lookup (computedRefPrimary d) with
              | some v => mapSet d.tables.sectionMap m.name v
              | none => d.tables.sectionMap) := by
        rw [e2]
        rfl
      constructor
      · intro v hv
        rw [hv] at k9
        simp only at k9
        rw [k9]
        refine ⟨by rw [lookup_mapSet, if_pos rfl], fun k hk => by rw [lookup_mapSet, if_neg hk]⟩
      · intro hv
        rw [hv] at k9
        exact k9
  · intro d1 ha
    unfold doComputedRef at ha
    simp only at ha
    split at ha
    · cases ha
      rfl
    · cases hm : d.module with
      | none =>
        rw [hm] at ha
        cases ha
        rfl
      | some m =>
        rw [hm] at ha
        simp only at ha
        obtain ⟨hn, _⟩ := relocLoop_state _ _ _ _ _ d1 (by rw [ha]; rfl)
        rw [hn] at ha
        cases ha

/-- Witness for `sectionMap_changes`: a ComputedRef record with primary symbol 1,
read while the module named 2 is current; afterwards SectionMap[2] = SectionMap[1] = 1. -/
theorem sectionMap_changes_witness :
    (computedRefExample.module
        = some { name := 2, segment := 0, isData := false, bytes := [0, 0], labels := [(0, [2])] }
      ∧ computedRefFlags computedRefExample = 0x90 ∧ ComputedRefComplete computedRefExample)
    ∧ (∃ d1, doComputedRef computedRefExample = .next d1)
    ∧ doComputedRef computedRefExample
        = .next { computedRefExample with
                    inp := { computedRefExample.inp with pos := 10 },
                    tables := { sectionMap := [(1, 1), (2, 1)] },
                    module := some
                      { name := 2, segment := 0, isData := false, bytes := [0, 0],
                        labels := [(0, [2])],
                        relocs := [(0, { size := 2, name1 := 1, name2 := 2 })] } } :=
  ⟨⟨rfl, rfl, by decide⟩,
   (sectionMap_changes computedRefExample).2.1 _ rfl rfl (by decide),
   rfl⟩

/-! ## Widths of the decoded relocations -/

theorem linkStream_decoded :
    recordLoop 49 { inp := { data := linkStream, pos := 4 } } = .last linkDecoded := by
  have h1 : step { inp := { data := linkStream, pos := 4 } }
      = .next { inp := { data := linkStream, pos := 10 },
                tables := { sectionMap := [(1, 1)] },
                module := some { linkFirst with bytes := [], relocs := [] } } := rfl
  have h2 : step { inp := { data := linkStream, pos := 10 },
                   tables := { sectionMap := [(1, 1)] },
                   module := some { linkFirst with bytes := [], relocs := [] } }
      = .next { inp := { data := linkStream, pos := 16 },
                tables := { sectionMap := [(1, 1)] },
                module := some { linkFirst with relocs := [] } } := rfl
  have h3 : step { inp := { data := linkStream, pos := 16 },
                   tables := { sectionMap := [(1, 1)] },
                   module := some { linkFirst with relocs := [] } }
      = .next { inp := { data := linkStream, pos := 24 },
                tables := { sectionMap := [(1, 1)] },
                module := some linkFirst } := rfl
  have h4 : step { inp := { data := linkStream, pos := 24 },
                   tables := { sectionMap := [(1, 1)] },
                   module := some linkFirst }
      = .next { inp := { data := linkStream, pos := 30 },
                tables := { sectionMap := [(1, 1), (2, 2)] },
                modules := [linkFirst],
                module := some { linkSecond with bytes := [], relocs := [] } } := rfl
  have h5 : step { inp := { data := linkStream, pos := 30 },
                   tables := { sectionMap := [(1, 1), (2, 2)] },
                   modules := [linkFirst],
                   module := some { linkSecond with bytes := [], relocs := [] } }
      = .next { inp := { data := linkStream, pos := 36 },
                tables := { sectionMap := [(1, 1), (2, 2)] },
                modules := [linkFirst],
                module := some { linkSecond with relocs := [] } } := rfl
  have h6 : step { inp := { data := linkStream, pos := 36 },
                   tables := { sectionMap := [(1, 1), (2, 2)] },
                   modules := [linkFirst],
                   module := some { linkSecond with relocs := [] } }
      = .next { inp := { data := linkStream, pos := 46 },
                tables := { sectionMap := [(1, 1), (2, 1)] },
                modules := [linkFirst],
                module := some linkSecond } := rfl
  have h7 : step { inp := { data := linkStream, pos := 46 },
                   tables := { sectionMap := [(1, 1), (2, 1)] },
                   modules := [linkFirst],
                   module := some linkSecond }
      = .last linkDecoded := rfl
  rw [recordLoop_next _ _ _ h1, recordLoop_next _ _ _ h2, recordLoop_next _ _ _ h3,
    recordLoop_next _ _ _ h4, recordLoop_next _ _ _ h5, recordLoop_next _ _ _ h6,
    recordLoop_last _ _ _ h7]

theorem step_state (d d1 : Decoder) (h : (step d).state? = some d1) :
    (d1.tables.sectionMap = d.tables.sectionMap ∧ d1.modules = d.modules
      ∧ ModuleKept d.module d1.module)
    ∨ (d1.tables.sectionMap
          = mapSet d.tables.sectionMap (moduleRecordName { d with inp := d.inp.byte.2 })
              (moduleRecordName { d with inp := d.inp.byte.2 })
        ∧ d1.modules = d.allModules
        ∧ ∃ m, d1.module = some m ∧ m.name = moduleRecordName { d with inp := d.inp.byte.2 }
            ∧ m.relocs = [])
    ∨ (d1.modules = d.modules
        ∧ ∃ m m1, d.module = some m ∧ d1.module = some m1 ∧ m1.name = m.name
          ∧ (∀ o r, m1.relocs.lookup o = some r → m.relocs.lookup o = some r ∨ r.size = 2)
          ∧ d1.tables.sectionMap
              = (match d.tables.sectionMap.lookup
                    (computedRefPrimary { d with inp := d.inp.byte.2 }) with
                  | some v => mapSet d.tables.sectionMap m.name v
                  | none => d.tables.sectionMap)) := by
  unfold step at h
  simp only at h
  split at h
  · have := state_exit1 _ _ _ h
    subst this
    exact Or.inl ⟨rfl, rfl, Or.inl rfl⟩
  · by_cases h5 : d.inp.byte.1 = 5
    · right; left
      rw [h5] at h
      have hd : dispatch 5 { d with inp := d.inp.byte.2 } = doModule { d with inp := d.inp.byte.2 } := rfl
      rw [hd, doModule_eq] at h
      have := state_next _ _ h
      subst this
      exact ⟨rfl, rfl, _, rfl, rfl, rfl⟩
    · by_cases h10 : d.inp.byte.1 = 10
      · rw [h10] at h
        have hd : dispatch 10 { d with inp := d.inp.byte.2 }
            = doComputedRef { d with inp := d.inp.byte.2 } := rfl
        rw [hd] at h
        obtain ⟨_, _, e3, hcase⟩ := doComputedRef_state _ d1 h
        rcases hcase with ⟨k1, k2⟩ | ⟨m, m1, k1, k2, k3, _, _, _, _, k8, k9⟩
        · exact Or.inl ⟨k2, e3, Or.inl k1⟩
        · right; right
          refine ⟨e3, m, m1, k1, k2, k3, ?_, k9⟩
          intro o r hr
          rcases k8 o r hr with hq | hq
          · right
            rw [hq]
          · exact Or.inl hq
      · obtain ⟨e1, e2, e3⟩ := dispatch_other_state _ _ d1 h5 h10 h
        exact Or.inl ⟨e1, e2, e3⟩

theorem recordLoop_invariant (P : Decoder → Prop)
    (hstep : ∀ d d1, P d → (step d).state? = some d1 → P d1) :
    ∀ (fuel : Nat) (d d1 : Decoder), P d → (recordLoop fuel d).state? = some d1 → P d1 := by
  intro fuel
  induction fuel with
  | zero =>
    intro d d1 _ h
    cases h
  | succ n ih =>
    intro d d1 hp h
    rw [recordLoop] at h
    cases hs : step d with
    | next d2 =>
      rw [hs] at h
      exact ih d2 d1 (hstep d d2 hp (by rw [hs]; rfl)) h
    | last d2 =>
      rw [hs] at h
      exact hstep d d1 hp (by rw [hs]; exact h)
    | exit1 why d2 =>
      rw [hs] at h
      exact hstep d d1 hp (by rw [hs]; exact h)
    | abort d2 =>
      rw [hs] at h
      exact hstep d d1 hp (by rw [hs]; exact h)
    | undefined =>
      rw [hs] at h
      cases h
    | diverge =>
      rw [hs] at h
      cases h
    | outOfFuel =>
      rw [hs] at h
      cases h

theorem mem_allModules (d : Decoder) (m : Module) :
    m ∈ d.allModules ↔ m ∈ d.modules ∨ d.module = some m := by
  unfold Decoder.allModules
  rw [List.mem_append]
  cases d.module with
  | none => simp
  | some m0 =>
    simp only [Option.toList, List.mem_singleton, Option.some.injEq]
    constructor
    · rintro (h | h)
      · exact Or.inl h
      · exact Or.inr h.symm
    · rintro (h | h)
      · exact Or.inl h
      · exact Or.inr h.symm

theorem relocWidths_step (d d1 : Decoder) (hp : RelocWidths d)
    (h : (step d).state? = some d1) : RelocWidths d1 := by
  intro m hm o r hr
  rw [mem_allModules] at hm
  rcases step_state d d1 h with ⟨_, e2, e3⟩ | ⟨_, e2, m0, e3, _, e4⟩ | ⟨e2, m0, m1, k1, k2, _, k4, _⟩
  · rcases hm with hm | hm
    · exact hp m ((mem_allModules d m).2 (Or.inl (e2 ▸ hm))) o r hr
    · rcases e3 with e3 | ⟨m0, m1, k1, k2, _, k4⟩
      · exact hp m ((mem_allModules d m).2 (Or.inr (e3 ▸ hm))) o r hr
      · rw [k2] at hm
        cases hm
        rcases k4 o r hr with hq | hq
        · exact hp m0 ((mem_allModules d m0).2 (Or.inr k1)) o r hq
        · exact hq
  · rcases hm with hm | hm
    · exact hp m (e2 ▸ hm) o r hr
    · rw [e3] at hm
      cases hm
      rw [e4] at hr
      cases hr
  · rcases hm with hm | hm
    · exact hp m ((mem_allModules d m).2 (Or.inl (e2 ▸ hm))) o r hr
    · rw [k2] at hm
      cases hm
      rcases k4 o r hr with hq | hq
      · exact hp m0 ((mem_allModules d m0).2 (Or.inr k1)) o r hq
      · exact Or.inl hq

theorem Reloc.write_width (t : Tables) (r : Reloc) (p : List Byte)
    (hs : r.size = 2 ∨ r.size = 4) :
    r.write t p ≠ .error .assertFalse
      ∧ ∀ text w, r.write t p = .ok (text, w) → (w : Int) = r.size := by
  unfold Reloc.write
  rcases hs with hs | hs
  · rw [if_pos hs]
    split
    · refine ⟨by simp, fun text w h => ?_⟩
      simp only [Except.ok.injEq, Prod.mk.injEq] at h
      rw [← h.2, hs]
      rfl
    · exact ⟨by simp, fun text w h => by cases h⟩
  · have hne : ¬ r.size = 2 := by omega
    rw [if_neg hne, if_pos hs]
    split
    · refine ⟨by simp, fun text w h => ?_⟩
      simp only [Except.ok.injEq, Prod.mk.injEq] at h
      rw [← h.2, hs]
      rfl
    · exact ⟨by simp, fun text w h => by cases h⟩

theorem walkFrom_no_assert (t : Tables) (m : Module)
    (hw : ∀ o r, m.relocs.lookup o = some r → r.size = 2 ∨ r.size = 4) :
    ∀ fuel offset, walkFrom t m fuel offset ≠ .error .assertFalse := by
  intro fuel
  induction fuel with
  | zero =>
    intro offset
    unfold walkFrom
    split <;> simp
  | succ n ih =>
    intro offset
    unfold walkFrom
    split
    · simp only
      cases hl : m.relocs.lookup offset with
      | some r =>
        simp only
        cases hwr : r.write t (m.bytes.drop offset) with
        | ok tw =>
          obtain ⟨text, w⟩ := tw
          simp only
          cases hrec : walkFrom t m n (offset + w) with
          | ok rest => simp
          | error e =>
            simp only
            intro hc
            exact ih (offset + w) (by rw [hrec, hc])
        | error e =>
          simp only
          intro hc
          apply (Reloc.write_width t r (m.bytes.drop offset) (hw offset r hl)).1
          rw [hwr]
          cases hc
          rfl
      | none =>
        simp only
        cases hrec : walkFrom t m n (offset + 1) with
        | ok rest => simp
        | error e =>
          simp only
          intro hc
          exact ih (offset + 1) (by rw [hrec, hc])
    · simp

theorem writeAll_no_assert (t : Tables) (ms : List Module)
    (hw : ∀ m ∈ ms, ∀ o r, m.relocs.lookup o = some r → r.size = 2 ∨ r.size = 4) :
    writeAll t ms ≠ .error .assertFalse := by
  induction ms with
  | nil => simp [writeAll]
  | cons m ms ih =>
    unfold writeAll
    cases hm : m.write t with
    | ok text =>
      simp only
      cases hr : writeAll t ms with
      | ok more => simp
      | error e =>
        simp only
        intro hc
        apply ih (fun m0 h0 => hw m0 (List.mem_cons_of_mem _ h0))
        rw [hr, hc]
    | error e =>
      simp only
      intro hc
      unfold Module.write at hm
      simp only at hm
      cases hk : walk t m with
      | ok items =>
        rw [hk] at hm
        cases hm
      | error e2 =>
        rw [hk] at hm
        simp only at hm
        apply walkFrom_no_assert t m (hw m (List.mem_cons_self _ _)) m.bytes.length 0
        unfold walk at hk
        rw [hk]
        cases hm
        cases hc
        rfl

theorem sortModules_mem (ms out : List Module) (h : sortModules ms = .ok out) :
    ∀ m ∈ out, m ∈ ms := by
  unfold sortModules at h
  cases ho : sortOrder ms with
  | ok order =>
    rw [ho] at h
    simp only [Except.ok.injEq] at h
    subst h
    intro m hm
    rw [List.mem_filterMap] at hm
    obtain ⟨i, _, hi⟩ := hm
    exact List.get?_mem hi
  | error e =>
    rw [ho] at h
    cases h

theorem emit_no_abort (d : Decoder) (out : String) (hw : RelocWidths d) :
    emit d out ≠ .abort := by
  unfold emit
  have hs : shouldSortModules = true := rfl
  rw [if_pos hs]
  cases hsort : sortModules d.allModules with
  | error e => simp
  | ok modules =>
    simp only
    have hno := writeAll_no_assert d.tables modules
      (fun m hm => hw m (sortModules_mem _ _ hsort m hm))
    cases hwa : writeAll d.tables modules with
    | ok text => simp
    | error e =>
      cases e with
      | assertFalse => exact absurd hwa hno
      | outOfBounds => simp
      | outOfFuel => simp

/-- C19: in every state that the record loop reaches from the start of a stream, every
relocation of every module has width 2 or 4; for such a relocation Reloc::write never
takes the `assert(false)` branch, the width it returns is the relocation's width, and
it returns whenever the buffer holds that many bytes; so emitting the modules never
stops at that assert. -/
theorem decoder_reloc_widths (s : IStream) (fuel : Nat) (d1 : Decoder)
    (h : (recordLoop fuel { inp := s }).state? = some d1) :
    (∀ m ∈ d1.allModules, ∀ o r, m.relocs.lookup o = some r →
        (r.size = 2 ∨ r.size = 4)
        ∧ ∀ t p, r.write t p ≠ .error .assertFalse
            ∧ (∀ text w, r.write t p = .ok (text, w) → (w : Int) = r.size)
            ∧ (r.size ≤ (p.length : Int) → ∃ text, r.write t p = .ok (text, r.size.toNat)))
    ∧ (∀ t, writeAll t d1.allModules ≠ .error .assertFalse)
    ∧ ∀ out, emit d1 out ≠ .abort := by
  have hinit : RelocWidths { inp := s } := by
    intro m hm
    simp [Decoder.allModules] at hm
  have hw : RelocWidths d1 :=
    recordLoop_invariant RelocWidths relocWidths_step fuel _ d1 hinit h
  refine ⟨fun m hm o r hr => ⟨hw m hm o r hr, fun t p => ?_⟩,
    fun t => writeAll_no_assert t _ hw, fun out => emit_no_abort d1 out hw⟩
  obtain ⟨h1, h2⟩ := Reloc.write_width t r p (hw m hm o r hr)
  exact ⟨h1, h2, fun hp => Reloc.write_ok t r p (hw m hm o r hr) hp⟩

/-- Witness for `decoder_reloc_widths`: the stream with a Reference record in the first
module and a ComputedRef record in the second, decoded to the end. -/
theorem decoder_reloc_widths_witness :
    (recordLoop 49 { inp := { data := linkStream, pos := 4 } }).state? = some linkDecoded
    ∧ ((∀ m ∈ linkDecoded.allModules, ∀ o r, m.relocs.lookup o = some r →
        (r.size = 2 ∨ r.size = 4)
        ∧ ∀ t p, r.write t p ≠ .error .assertFalse
            ∧ (∀ text w, r.write t p = .ok (text, w) → (w : Int) = r.size)
            ∧ (r.size ≤ (p.length : Int) → ∃ text, r.write t p = .ok (text, r.size.toNat)))
      ∧ (∀ t, writeAll t linkDecoded.allModules ≠ .error .assertFalse)
      ∧ ∀ out, emit linkDecoded out ≠ .abort)
    ∧ linkDecoded.allModules = [linkFirst, linkSecond] :=
  ⟨by rw [linkStream_decoded]; rfl,
   decoder_reloc_widths { data := linkStream, pos := 4 } 49 linkDecoded
     (by rw [linkStream_decoded]; rfl),
   rfl⟩

/-! ## Invariant of the section map -/

theorem names_kept (d d1 : Decoder) (hmods : d1.modules = d.modules)
    (hcur : d1.module = d.module
      ∨ ∃ m m1, d.module = some m ∧ d1.module = some m1 ∧ m1.name = m.name) :
    (∀ m ∈ d.allModules, ∃ m2 ∈ d1.allModules, m2.name = m.name)
    ∧ (∀ m ∈ d1.allModules, ∃ m2 ∈ d.allModules, m2.name = m.name) := by
  constructor
  · intro m hm
    rw [mem_allModules] at hm
    rcases hm with hm | hm
    · exact ⟨m, (mem_allModules d1 m).2 (Or.inl (hmods ▸ hm)), rfl⟩
    · rcases hcur with hc | ⟨m0, m1, k1, k2, k3⟩
      · exact ⟨m, (mem_allModules d1 m).2 (Or.inr (hc ▸ hm)), rfl⟩
      · rw [k1] at hm
        cases hm
        exact ⟨m1, (mem_allModules d1 m1).2 (Or.inr k2), k3⟩
  · intro m hm
    rw [mem_allModules] at hm
    rcases hm with hm | hm
    · exact ⟨m, (mem_allModules d m).2 (Or.inl (hmods ▸ hm)), rfl⟩
    · rcases hcur with hc | ⟨m0, m1, k1, k2, k3⟩
      · exact ⟨m, (mem_allModules d m).2 (Or.inr (hc ▸ hm)), rfl⟩
      · rw [k2] at hm
        cases hm
        exact ⟨m0, (mem_allModules d m0).2 (Or.inr k1), k3.symm⟩

theorem sectionInv_step (d d1 : Decoder) (hp : SectionInv d)
    (h : (step d).state? = some d1) : SectionInv d1 := by
  obtain ⟨hp1, hp2⟩ := hp
  rcases step_state d d1 h with ⟨e1, e2, e3⟩ | ⟨e1, e2, m0, e3, e4, _⟩
      | ⟨e2, m0, m1, k1, k2, k3, _, k5⟩
  · have hcur : d1.module = d.module
        ∨ ∃ m m1, d.module = some m ∧ d1.module = some m1 ∧ m1.name = m.name := by
      rcases e3 with e3 | ⟨m, m1, g1, g2, g3, _⟩
      · exact Or.inl e3
      · exact Or.inr ⟨m, m1, g1, g2, g3⟩
    obtain ⟨n1, n2⟩ := names_kept d d1 e2 hcur
    constructor
    · intro m hm
      obtain ⟨m2, hm2, hn⟩ := n2 m hm
      rw [e1, ← hn]
      exact hp1 m2 hm2
    · intro k v hk
      rw [e1] at hk
      obtain ⟨m, hm, hn⟩ := hp2 k v hk
      obtain ⟨m2, hm2, hn2⟩ := n1 m hm
      exact ⟨m2, hm2, hn2.trans hn⟩
  · constructor
    · intro m hm
      rw [mem_allModules] at hm
      rw [e1, lookup_mapSet]
      rcases hm with hm | hm
      · by_cases hn : m.name = moduleRecordName { d with inp := d.inp.byte.2 }
        · rw [if_pos hn]
          exact ⟨_, rfl⟩
        · rw [if_neg hn]
          exact hp1 m (e2 ▸ hm)
      · rw [e3] at hm
        cases hm
        rw [if_pos e4]
        exact ⟨_, rfl⟩
    · intro k v hk
      rw [e1, lookup_mapSet] at hk
      by_cases hn : k = moduleRecordName { d with inp := d.inp.byte.2 }
      · rw [if_pos hn] at hk
        cases hk
        exact ⟨m0, (mem_allModules d1 m0).2 (Or.inr e3), e4⟩
      · rw [if_neg hn] at hk
        obtain ⟨m, hm, hv⟩ := hp2 k v hk
        exact ⟨m, (mem_allModules d1 m).2 (Or.inl (e2.symm ▸ hm)), hv⟩
  · obtain ⟨n1, n2⟩ := names_kept d d1 e2 (Or.inr ⟨m0, m1, k1, k2, k3⟩)
    cases hl : d.tables.sectionMap.lookup (computedRefPrimary { d with inp := d.inp.byte.2 }) with
    | none =>
      rw [hl] at k5
      simp only at k5
      constructor
      · intro m hm
        obtain ⟨m2, hm2, hn⟩ := n2 m hm
        rw [k5, ← hn]
        exact hp1 m2 hm2
      · intro k v hk
        rw [k5] at hk
        obtain ⟨m, hm, hn⟩ := hp2 k v hk
        obtain ⟨m2, hm2, hn2⟩ := n1 m hm
        exact ⟨m2, hm2, hn2.trans hn⟩
    | some v0 =>
      rw [hl] at k5
      simp only at k5
      constructor
      · intro m hm
        obtain ⟨m2, hm2, hn⟩ := n2 m hm
        rw [k5, lookup_mapSet]
        by_cases hq : m.name = m0.name
        · rw [if_pos hq]
          exact ⟨_, rfl⟩
        · rw [if_neg hq, ← hn]
          exact hp1 m2 hm2
      · intro k v hk
        rw [k5, lookup_mapSet] at hk
        by_cases hq : k = m0.name
        · rw [if_pos hq] at hk
          cases hk
          obtain ⟨m, hm, hn⟩ := hp2 _ _ hl
          obtain ⟨m2, hm2, hn2⟩ := n1 m hm
          exact ⟨m2, hm2, hn2.trans hn⟩
        · rw [if_neg hq] at hk
          obtain ⟨m, hm, hn⟩ := hp2 k v hk
          obtain ⟨m2, hm2, hn2⟩ := n1 m hm
          exact ⟨m2, hm2, hn2.trans hn⟩

/-- C20: in every state that the record loop reaches from the start of a stream, the
name id of every module is a key of SectionMap, and every value stored in SectionMap is
the name id of a declared module and so itself a key; hence the section identity that
Module::write looks up for a module is a stored value and names a declared module. -/
theorem sectionMap_invariant (s : IStream) (fuel : Nat) (d1 : Decoder)
    (h : (recordLoop fuel { inp := s }).state? = some d1) :
    (∀ m ∈ d1.allModules, ∃ v, d1.tables.sectionMap.lookup m.name = some v)
    ∧ (∀ k v, d1.tables.sectionMap.lookup k = some v →
        (∃ m ∈ d1.allModules, m.name = v) ∧ ∃ w, d1.tables.sectionMap.lookup v = some w)
    ∧ (∀ m ∈ d1.allModules,
        d1.tables.sectionMap.lookup m.name = some (d1.tables.section m.name)
        ∧ ∃ m2 ∈ d1.allModules, m2.name = d1.tables.section m.name) := by
  have hinit : SectionInv { inp := s } := by
    constructor
    · intro m hm
      simp [Decoder.allModules] at hm
    · intro k v hk
      simp [List.lookup] at hk
  obtain ⟨h1, h2⟩ := recordLoop_invariant SectionInv sectionInv_step fuel _ d1 hinit h
  refine ⟨h1, ?_, ?_⟩
  · intro k v hk
    obtain ⟨m, hm, hn⟩ := h2 k v hk
    refine ⟨⟨m, hm, hn⟩, ?_⟩
    rw [← hn]
    exact h1 m hm
  · intro m hm
    obtain ⟨v, hv⟩ := h1 m hm
    have hsec : d1.tables.section m.name = v := by
      unfold Tables.section
      rw [hv]
      rfl
    rw [hsec]
    exact ⟨hv, h2 _ v hv⟩

/-- Witness for `sectionMap_invariant`: after the stream with two modules and a
ComputedRef record, SectionMap is 1 -> 1, 2 -> 1. -/
theorem sectionMap_invariant_witness :
    (recordLoop 49 { inp := { data := linkStream, pos := 4 } }).state? = some linkDecoded
    ∧ ((∀ m ∈ linkDecoded.allModules, ∃ v, linkDecoded.tables.sectionMap.lookup m.name = some v)
      ∧ (∀ k v, linkDecoded.tables.sectionMap.lookup k = some v →
          (∃ m ∈ linkDecoded.allModules, m.name = v)
          ∧ ∃ w, linkDecoded.tables.sectionMap.lookup v = some w)
      ∧ (∀ m ∈ linkDecoded.allModules,
          linkDecoded.tables.sectionMap.lookup m.name = some (linkDecoded.tables.section m.name)
          ∧ ∃ m2 ∈ linkDecoded.allModules, m2.name = linkDecoded.tables.section m.name))
    ∧ linkDecoded.tables.sectionMap = [(1, 1), (2, 1)] :=
  ⟨by rw [linkStream_decoded]; rfl,
   sectionMap_invariant { data := linkStream, pos := 4 } 49 linkDecoded
     (by rw [linkStream_decoded]; rfl),
   rfl⟩

/-! ## Relocations installed by a Reference record -/

theorem get_val_eq_getD (data : List Byte) (i : Nat) (h : i < data.length) :
    (data.get ⟨i, h⟩).val = (data.getD i 0).val := by
  rw [List.getD_eq_getElem _ _ h]
  rfl

theorem offsetWords_congr (data data2 : List Byte) :
    ∀ (k pos : Nat), (∀ i, pos ≤ i → data2.getD i 0 = data.getD i 0) →
      offsetWords data2 pos k = offsetWords data pos k := by
  intro k
  induction k with
  | zero => intro pos _; rfl
  | succ n ih =>
    intro pos h
    rw [offsetWords, offsetWords, h pos (le_refl _), h (pos + 1) (by omega),
      ih (pos + 2) (fun i hi => h i (by omega))]

theorem lookup_install (reloc : Reloc) (offs : List Nat) :
    ∀ (rs : List (Nat × Reloc)) (o : Nat),
      (offs.foldl (fun rs o2 => mapSet rs o2 reloc) rs).lookup o
        = if o ∈ offs then some reloc else rs.lookup o := by
  induction offs with
  | nil => intro rs o; simp
  | cons a offs ih =>
    intro rs o
    rw [List.foldl_cons, ih, lookup_mapSet_key]
    by_cases h1 : o ∈ offs
    · rw [if_pos h1, if_pos (List.mem_cons_of_mem _ h1)]
    · rw [if_neg h1]
      by_cases h2 : o = a
      · rw [if_pos h2, if_pos (by rw [h2]; exact List.mem_cons_self _ _)]
      · rw [if_neg h2, if_neg]
        intro hc
        rcases List.mem_cons.1 hc with hc | hc
        · exact h2 hc
        · exact h1 hc

theorem relocLoop_explicit (end_ : Int) (reloc : Reloc) (data : List Byte) (eof : Nat)
    (t : Tables) (ms : List Module) (mo : Option Module) :
    ∀ (k fuel pos : Nat) (m : Module), k < fuel →
      end_ ≤ (pos : Int) + 2 * k → (∀ j, j < k → (pos : Int) + 2 * j < end_) →
      pos + 2 * k ≤ data.length →
      relocLoop end_ reloc fuel ⟨IStream.mk data pos false eof, t, ms, mo⟩ m
        = .next ⟨IStream.mk data (pos + 2 * k) false eof, t, ms,
            some { m with
                    relocs := (offsetWords data pos k).foldl (fun rs o => mapSet rs o reloc)
                                m.relocs }⟩ := by
  intro k
  induction k with
  | zero =>
    intro fuel pos m _ hend _ _
    have hlt : ¬ ((pos : Int) < end_) := by omega
    unfold relocLoop
    simp only [IStream.tellg_mk]
    rw [if_neg hlt]
    rfl
  | succ n ih =>
    intro fuel pos m hk hend hall hlen
    cases fuel with
    | zero => omega
    | succ f =>
      have hlt : (pos : Int) < end_ := by
        have := hall 0 (by omega)
        omega
      unfold relocLoop
      simp only [IStream.tellg_mk]
      rw [if_pos hlt, if_neg (by simp)]
      simp only [IStream.word_mk data pos eof (by omega)]
      rw [ih f (pos + 2) _ (by omega) (by push_cast; push_cast at hend; omega)
        (fun j hj => by
          have := hall (j + 1) (by omega)
          push_cast at this ⊢
          omega) (by omega)]
      rw [offsetWords, List.foldl_cons, get_val_eq_getD, get_val_eq_getD]
      have hp : pos + 2 + 2 * n = pos + 2 * (n + 1) := by omega
      rw [hp]

set_option maxRecDepth 100000 in
theorem flags_bit0 : ∀ b : Byte, b.val &&& 0xEE = 0 →
    ¬ (b.val &&& 0x6E ≠ 0) ∧ ¬ (b.val &&& 0x80 ≠ 0)
    ∧ ¬ ((b.val ^^^ 1) &&& 0x6E ≠ 0) ∧ ¬ ((b.val ^^^ 1) &&& 0x80 ≠ 0)
    ∧ ((b.val ^^^ 1) &&& 0x10 = b.val &&& 0x10) := by
  decide

theorem doReference_explicit (data : List Byte) (pos eof : Nat) (t : Tables)
    (ms : List Module) (m : Module) (f : Nat)
    (hlen : pos + 5 + 2 * (((data.getD (pos + 1) 0).val * 256 + (data.getD (pos + 2) 0).val - 5) / 2)
      ≤ data.length)
    (hflag : (data.getD pos 0).val = f)
    (h1 : ¬ (f &&& 0x6E ≠ 0)) (h2 : ¬ (f &&& 0x80 ≠ 0)) :
    doReference ⟨IStream.mk data pos false eof, t, ms, some m⟩
      = .next ⟨IStream.mk data
            (pos + 5 + 2 * (((data.getD (pos + 1) 0).val * 256 + (data.getD (pos + 2) 0).val - 5) / 2))
            false eof, t, ms,
          some { m with
            relocs :=
              (offsetWords data (pos + 5)
                (((data.getD (pos + 1) 0).val * 256 + (data.getD (pos + 2) 0).val - 5) / 2)).foldl
                (fun rs o => mapSet rs o
                  { size := if f &&& 0x10 ≠ 0 then 2 else 4,
                    name1 := (((data.getD (pos + 3) 0).val * 256 + (data.getD (pos + 4) 0).val : Nat)
                      : stringid) })
                m.relocs }⟩ := by
  subst hflag
  unfold doReference
  simp only [IStream.byte_mk data pos eof (by omega),
    IStream.word_mk data (pos + 1) eof (by omega), IStream.word_mk data (pos + 3) eof (by omega),
    IStream.tellg_mk, get_val_eq_getD]
  rw [if_neg h1, if_neg h2]
  simp only [show pos + 1 + 1 = pos + 2 from rfl, show pos + 3 + 1 = pos + 4 from rfl,
    show pos + 3 + 2 = pos + 5 from rfl]
  rw [relocLoop_explicit _ _ data eof t ms (some m)
    (((data.getD (pos + 1) 0).val * 256 + (data.getD (pos + 2) 0).val - 5) / 2)
    (data.length + 1) (pos + 5) m (by omega) (by push_cast; omega)
    (fun j hj => by push_cast; omega) (by omega)]

/-- C18: a Reference record whose flags f satisfy (f & 0xEE) = 0, lying in the stream
and read while module m is current, is decoded; afterwards the current module is m
with, at each offset listed in the record, the relocation with the record's symbol as
primary symbol, no secondary symbol and width 2 if (f & 0x10) != 0 and 4 otherwise
(whatever relocation was there before), and with its other relocations unchanged; the
same record with bit 0x01 of the flags flipped is decoded to the same module, tables,
module list and stream position. -/
theorem reference_installs (d : Decoder) (m : Module) (hm : d.module = some m)
    (hc : ReferenceComplete d) (hf : referenceFlags d &&& 0xEE = 0) :
    ∃ m1,
      doReference d
        = .next { d with
                    inp := ⟨d.inp.data, d.inp.pos + 5 + 2 * ((referenceSize d - 5) / 2), false,
                            d.inp.eof⟩,
                    module := some m1 }
      ∧ m1.name = m.name ∧ m1.segment = m.segment ∧ m1.isData = m.isData
      ∧ m1.bytes = m.bytes ∧ m1.labels = m.labels
      ∧ (∀ o, o ∈ referenceOffsets d →
          m1.relocs.lookup o
            = some { size := if referenceFlags d &&& 0x10 ≠ 0 then 2 else 4,
                     name1 := (recordWord d 3 : Nat), name2 := -1 })
      ∧ (∀ o, o ∉ referenceOffsets d → m1.relocs.lookup o = m.relocs.lookup o)
      ∧ (∀ d2, FlagBitFlipped d d2 →
          doReference d2
            = .next { d2 with
                        inp := ⟨d2.inp.data, d.inp.pos + 5 + 2 * ((referenceSize d - 5) / 2),
                                false, d.inp.eof⟩,
                        module := some m1 }) := by
  obtain ⟨inp, t, ms, mo⟩ := d
  obtain ⟨data, pos, failed, eof⟩ := inp
  obtain ⟨hfail, hlen⟩ := hc
  simp only at hfail hm hlen
  subst hfail hm
  have hsz : referenceSize ⟨IStream.mk data pos false eof, t, ms, some m⟩
      = (data.getD (pos + 1) 0).val * 256 + (data.getD (pos + 2) 0).val := by
    simp only [referenceSize, IStream.byte_mk data pos eof (by omega),
      IStream.word_mk data (pos + 1) eof (by omega), get_val_eq_getD]
  have hfl : referenceFlags ⟨IStream.mk data pos false eof, t, ms, some m⟩
      = (data.getD pos 0).val := by
    simp only [referenceFlags, IStream.byte_mk data pos eof (by omega), get_val_eq_getD]
  rw [hsz] at hlen
  rw [hfl] at hf
  obtain ⟨b1, b2, b3, b4, b5⟩ := flags_bit0 (data.getD pos 0) hf
  have hexp := doReference_explicit data pos eof t ms m _ hlen rfl b1 b2
  simp only [hsz, hfl, referenceOffsets, recordWord, recordByte]
  refine ⟨_, hexp, rfl, rfl, rfl, rfl, rfl, ?_, ?_, ?_⟩
  · intro o ho
    rw [lookup_install, if_pos ho]
  · intro o ho
    rw [lookup_install, if_neg ho]
  · intro d2 hflip
    obtain ⟨inp2, t2, ms2, mo2⟩ := d2
    obtain ⟨data2, pos2, failed2, eof2⟩ := inp2
    obtain ⟨e1, e2, e3, e4, e5, e6, e7, e8, e9⟩ := hflip
    simp only at e1 e2 e3 e4 e5 e6 e7 e8 e9
    subst e1 e2 e3 e4 e5 e6
    have g1 : data2.getD (pos2 + 1) 0 = data.getD (pos2 + 1) 0 := e8 _ (by omega)
    have g2 : data2.getD (pos2 + 2) 0 = data.getD (pos2 + 2) 0 := e8 _ (by omega)
    have g3 : data2.getD (pos2 + 3) 0 = data.getD (pos2 + 3) 0 := e8 _ (by omega)
    have g4 : data2.getD (pos2 + 4) 0 = data.getD (pos2 + 4) 0 := e8 _ (by omega)
    have hexp2 := doReference_explicit data2 pos2 eof2 t2 ms2 m _
      (by rw [g1, g2, e7]; exact hlen) e9 b3 b4
    rw [hexp2, g1, g2, g3, g4, b5,
      offsetWords_congr data data2 _ (pos2 + 5) (fun i hi => e8 i (by omega))]

/-- Witness for `reference_installs`: a Reference record with flags 0x11 and the offsets
0 and 4, read while a module with relocations at 0 and 2 is current; the relocation at 0
is replaced, the one at 2 kept, one is added at 4, and flags 0x10 give the same. -/
theorem reference_installs_witness :
    (refExample.module = some refModule ∧ ReferenceComplete refExample
      ∧ referenceFlags refExample &&& 0xEE = 0 ∧ FlagBitFlipped refExample refFlipped)
    ∧ (∃ m1,
        doReference refExample
          = .next { refExample with
                      inp := ⟨refExample.inp.data, 10, false, refExample.inp.eof⟩,
                      module := some m1 }
        ∧ doReference refFlipped
          = .next { refFlipped with
                      inp := ⟨refFlipped.inp.data, 10, false, refExample.inp.eof⟩,
                      module := some m1 })
    ∧ doReference refExample
        = .next { refExample with
                    inp := { refExample.inp with pos := 10 },
                    module := some
                      { refModule with
                        relocs := [(0, { size := 2, name1 := 7 }), (2, { size := 4, name1 := 3 }),
                                   (4, { size := 2, name1 := 7 })] } } := by
  have hflip : FlagBitFlipped refExample refFlipped := by
    refine ⟨rfl, rfl, rfl, rfl, rfl, rfl, rfl, ?_, rfl⟩
    intro i hi
    match i, hi with
    | 0, _ => rfl
    | 1, hi => exact absurd rfl hi
    | i + 2, _ => rfl
  obtain ⟨m1, h1, _, _, _, _, _, _, _, h9⟩ :=
    reference_installs refExample refModule rfl (by decide) (by decide)
  exact ⟨⟨rfl, by decide, by decide, hflip⟩, ⟨m1, h1, h9 refFlipped hflip⟩, rfl⟩

/-! ## Termination of sortModules -/

theorem visitRef_bound (ms : List Module) (st : SortState) (m2 : Nat) :
    (visitRef ms st m2).p = st.p
    ∧ (visitRef ms st m2).sorted.length + (visitRef ms st m2).unemitted.length
        = st.sorted.length + st.unemitted.length
    ∧ (visitRef ms st m2).unemitted.Sublist st.unemitted
    ∧ st.sorted.length ≤ (visitRef ms st m2).sorted.length := by
  unfold visitRef
  cases hget : ms.get? m2 with
  | none => exact ⟨rfl, rfl, List.Sublist.refl _, le_refl _⟩
  | some m =>
    simp only
    by_cases hmem : m.name ∈ st.unemitted
    · rw [if_pos hmem]
      have hpos := List.length_pos_of_mem hmem
      refine ⟨rfl, ?_, List.erase_sublist _ _, by simp⟩
      simp only [List.length_append, List.length_singleton, List.length_erase_of_mem hmem]
      omega
    · rw [if_neg hmem]
      exact ⟨rfl, rfl, List.Sublist.refl _, le_refl _⟩

theorem foldl_visitRef_bound (ms : List Module) (refs : List Nat) :
    ∀ st : SortState,
      (refs.foldl (visitRef ms) st).p = st.p
      ∧ (refs.foldl (visitRef ms) st).sorted.length + (refs.foldl (visitRef ms) st).unemitted.length
          = st.sorted.length + st.unemitted.length
      ∧ (refs.foldl (visitRef ms) st).unemitted.Sublist st.unemitted
      ∧ st.sorted.length ≤ (refs.foldl (visitRef ms) st).sorted.length := by
  induction refs with
  | nil => intro st; exact ⟨rfl, rfl, List.Sublist.refl _, le_refl _⟩
  | cons r refs ih =>
    intro st
    simp only [List.foldl_cons]
    obtain ⟨h1, h2, h3, h4⟩ := visitRef_bound ms st r
    obtain ⟨g1, g2, g3, g4⟩ := ih (visitRef ms st r)
    exact ⟨g1.trans h1, g2.trans h2, g3.trans h3, le_trans h4 g4⟩

theorem scanLoop_bound (ms : List Module) (refs : List (List Nat)) (fuel : Nat) :
    ∀ st : SortState, st.p ≤ st.sorted.length →
      st.sorted.length + st.unemitted.length ≤ fuel + st.p →
      ∃ st1, scanLoop ms refs fuel st = .ok st1 ∧ st1.p = st1.sorted.length
        ∧ st1.sorted.length + st1.unemitted.length = st.sorted.length + st.unemitted.length
        ∧ st1.unemitted.Sublist st.unemitted
        ∧ st.sorted.length ≤ st1.sorted.length := by
  induction fuel with
  | zero =>
    intro st hp hf
    have hn : ¬ st.p < st.sorted.length := by omega
    exact ⟨st, by unfold scanLoop; rw [if_neg hn], by omega, rfl, List.Sublist.refl _, le_refl _⟩
  | succ n ih =>
    intro st hp hf
    unfold scanLoop
    by_cases hlt : st.p < st.sorted.length
    · rw [if_pos hlt]
      simp only
      obtain ⟨h1, h2, h3, h4⟩ :=
        foldl_visitRef_bound ms (refs.getD (st.sorted.getD st.p 0) []) st
      obtain ⟨st1, g1, g2, g3, g4, g5⟩ :=
        ih { (List.foldl (visitRef ms) st (refs.getD (st.sorted.getD st.p 0) [])) with p := st.p + 1 }
          (by simp only; omega) (by simp only; omega)
      exact ⟨st1, g1, g2, g3.trans h2, g4.trans h3, le_trans h4 g5⟩
    · rw [if_neg hlt]
      exact ⟨st, rfl, by omega, rfl, List.Sublist.refl _, le_refl _⟩

theorem sortPass_bound (ms : List Module) (nameMap : List (stringid × Nat))
    (refs : List (List Nat)) (st : SortState) (hb : SortBound ms st) :
    sortPass ms nameMap refs st ≠ .error .outOfFuel
    ∧ (∀ st2, sortPass ms nameMap refs st = .ok st2 →
        SortBound ms st2 ∧ st2.unemitted.Sublist st.unemitted
        ∧ (st.unemitted ≠ [] → st2.unemitted.length < st.unemitted.length))
    ∧ ((∀ x ∈ st.unemitted, ∃ i, nameMap.lookup x = some i) →
        ∃ st2, sortPass ms nameMap refs st = .ok st2) := by
  obtain ⟨hp, hsum, hsub⟩ := hb
  have hN := (initialUnemitted_spec ms).2.2
  obtain ⟨st1, g1, g2, g3, g4, g5⟩ := scanLoop_bound ms refs ms.length st hp (by omega)
  unfold sortPass
  rw [g1]
  simp only
  cases hu : st1.unemitted with
  | nil =>
    simp only
    refine ⟨by simp, ?_, fun _ => ⟨st1, rfl⟩⟩
    intro st2 h2
    cases h2
    refine ⟨⟨by omega, by omega, g4.trans hsub⟩, g4, ?_⟩
    intro hne
    rw [hu]
    exact List.length_pos.2 hne
  | cons x rest =>
    simp only
    have hrest : rest.Sublist st.unemitted := by
      rw [hu] at g4
      exact (List.sublist_cons_self x rest).trans g4
    have hlen : rest.length < st.unemitted.length := by
      have := g4.length_le
      rw [hu] at this
      simp only [List.length_cons] at this
      omega
    cases hl : nameMap.lookup x with
    | none =>
      simp only
      refine ⟨by simp, fun st2 h2 => (by cases h2), fun hres => ?_⟩
      obtain ⟨i, hi⟩ := hres x (g4.subset (by rw [hu]; exact List.mem_cons_self _ _))
      rw [hl] at hi
      cases hi
    | some m =>
      simp only
      refine ⟨by simp, ?_, fun _ => ⟨_, rfl⟩⟩
      intro st2 h2
      cases h2
      rw [hu] at g3
      simp only [List.length_cons] at g3
      refine ⟨⟨by simp only [List.length_append, List.length_singleton]; omega, ?_,
        hrest.trans hsub⟩, hrest, fun _ => hlen⟩
      simp only [List.length_append, List.length_singleton]
      omega

theorem sortLoop_nil (ms : List Module) (nameMap : List (stringid × Nat))
    (refs : List (List Nat)) (fuel : Nat) (st : SortState) (h : st.unemitted = []) :
    sortLoop ms nameMap refs fuel st = .ok st := by
  unfold sortLoop
  rw [h]
  rfl

theorem sortLoop_succ (ms : List Module) (nameMap : List (stringid × Nat))
    (refs : List (List Nat)) (fuel : Nat) (st : SortState) (h : st.unemitted ≠ []) :
    sortLoop ms nameMap refs (fuel + 1) st
      = match sortPass ms nameMap refs st with
        | .error e => .error e
        | .ok st2 => sortLoop ms nameMap refs fuel st2 := by
  have hne : ¬ (st.unemitted.isEmpty = true) := by
    rw [List.isEmpty_iff]
    exact h
  rw [sortLoop, if_neg hne]
  unfold sortPass
  cases hs : scanLoop ms refs ms.length st with
  | error e => rfl
  | ok st1 =>
    simp only
    cases hu : st1.unemitted with
    | nil =>
      simp only
      rw [sortLoop_nil ms nameMap refs fuel st1 hu]
    | cons x rest =>
      simp only
      cases hl : nameMap.lookup x with
      | none => rfl
      | some m => rfl

theorem sortLoop_bound (ms : List Module) (nameMap : List (stringid × Nat))
    (refs : List (List Nat)) (fuel : Nat) :
    ∀ st : SortState, SortBound ms st → st.unemitted.length ≤ fuel →
      sortLoop ms nameMap refs fuel st ≠ .error .outOfFuel
      ∧ (∀ st1, sortLoop ms nameMap refs fuel st = .ok st1 →
          SortBound ms st1 ∧ st1.unemitted = [])
      ∧ ((∀ x ∈ st.unemitted, ∃ i, nameMap.lookup x = some i) →
          ∃ st1, sortLoop ms nameMap refs fuel st = .ok st1) := by
  induction fuel with
  | zero =>
    intro st hb hf
    have hnil : st.unemitted = [] := List.length_eq_zero.1 (by omega)
    rw [sortLoop_nil ms nameMap refs 0 st hnil]
    refine ⟨by simp, fun st1 h1 => ?_, fun _ => ⟨st, rfl⟩⟩
    cases h1
    exact ⟨hb, hnil⟩
  | succ n ih =>
    intro st hb hf
    by_cases hnil : st.unemitted = []
    · rw [sortLoop_nil ms nameMap refs (n + 1) st hnil]
      refine ⟨by simp, fun st1 h1 => ?_, fun _ => ⟨st, rfl⟩⟩
      cases h1
      exact ⟨hb, hnil⟩
    · rw [sortLoop_succ ms nameMap refs n st hnil]
      obtain ⟨p1, p2, p3⟩ := sortPass_bound ms nameMap refs st hb
      cases hpass : sortPass ms nameMap refs st with
      | error e =>
        simp only
        refine ⟨fun hc => p1 (by rw [hpass, hc]), fun st1 h1 => (by cases h1), fun hres => ?_⟩
        obtain ⟨st2, h2⟩ := p3 hres
        rw [hpass] at h2
        cases h2
      | ok st2 =>
        simp only
        obtain ⟨q1, q2, q3⟩ := p2 st2 hpass
        have hlt := q3 hnil
        obtain ⟨r1, r2, r3⟩ := ih st2 q1 (by omega)
        exact ⟨r1, r2, fun hres => r3 (fun x hx => hres x (q2.subset hx))⟩

theorem label_resolves (ms : List Module) :
    ∀ m ∈ ms, ∀ x ∈ labelIds m, ∃ i, (buildNameMap ms).lookup x = some i := by
  induction ms using List.reverseRecOn with
  | nil => intro m hm; simp at hm
  | append_singleton l a ih =>
    intro m hm x hx
    rw [buildNameMap_append, lookup_addLabels]
    by_cases ha : x ∈ labelIds a
    · rw [if_pos ha]
      exact ⟨_, rfl⟩
    · rw [if_neg ha]
      rcases List.mem_append.1 hm with h | h
      · exact ih m h x hx
      · rw [List.mem_singleton.1 h] at hx
        exact absurd hx ha

/-- C17: the ordering loop of sortModules ends on every module list, whatever the
near-reference graph.  The counting invariant (scan position within the output
sequence; one module appended per erased name; names never come back) holds at the
start and after every pass; a pass never runs out of rounds and, while names are left,
erases at least one; so the loop needs at most one pass per name, the output has
exactly one entry per name, and when every module carries its own name among its
labels the function returns. -/
theorem sortModules_terminates (ms : List Module) :
    SortBound ms { sorted := [], p := 0, unemitted := initialUnemitted ms }
    ∧ (∀ st, SortBound ms st →
        sortPass ms (buildNameMap ms) (buildNearrefs ms (buildNameMap ms)) st ≠ .error .outOfFuel
        ∧ ∀ st2, sortPass ms (buildNameMap ms) (buildNearrefs ms (buildNameMap ms)) st = .ok st2 →
            SortBound ms st2 ∧ st2.unemitted.Sublist st.unemitted
            ∧ (st.unemitted ≠ [] → st2.unemitted.length < st.unemitted.length))
    ∧ (∀ fuel st, st.unemitted ≠ [] →
        sortLoop ms (buildNameMap ms) (buildNearrefs ms (buildNameMap ms)) (fuel + 1) st
          = match sortPass ms (buildNameMap ms) (buildNearrefs ms (buildNameMap ms)) st with
            | .error e => .error e
            | .ok st2 =>
                sortLoop ms (buildNameMap ms) (buildNearrefs ms (buildNameMap ms)) fuel st2)
    ∧ sortOrder ms ≠ .error .outOfFuel
    ∧ sortModules ms ≠ .error .outOfFuel
    ∧ (∀ order, sortOrder ms = .ok order → order.length = (initialUnemitted ms).length)
    ∧ ((∀ m ∈ ms, m.name ∈ labelIds m) →
        ∃ order out, sortOrder ms = .ok order ∧ sortModules ms = .ok out) := by
  obtain ⟨hnd, hmem, hlen⟩ := initialUnemitted_spec ms
  have hinit : SortBound ms { sorted := [], p := 0, unemitted := initialUnemitted ms } :=
    ⟨le_refl _, by simp, List.Sublist.refl _⟩
  obtain ⟨t1, t2, t3⟩ := sortLoop_bound ms (buildNameMap ms)
    (buildNearrefs ms (buildNameMap ms)) ms.length _ hinit hlen
  have horder : sortOrder ms ≠ .error .outOfFuel := by
    unfold sortOrder
    simp only
    cases hs : sortLoop ms (buildNameMap ms) (buildNearrefs ms (buildNameMap ms)) ms.length
        { sorted := [], p := 0, unemitted := initialUnemitted ms } with
    | ok st => simp
    | error e =>
      simp only
      intro hc
      apply t1
      rw [hs]
      cases hc
      rfl
  refine ⟨hinit, fun st hb => ?_, fun fuel st hne => sortLoop_succ ms _ _ fuel st hne, horder,
    ?_, ?_, ?_⟩
  · obtain ⟨p1, p2, _⟩ := sortPass_bound ms (buildNameMap ms)
      (buildNearrefs ms (buildNameMap ms)) st hb
    exact ⟨p1, p2⟩
  · unfold sortModules
    cases ho : sortOrder ms with
    | ok order => simp
    | error e =>
      simp only
      intro hc
      apply horder
      rw [ho]
      cases hc
      rfl
  · intro order ho
    unfold sortOrder at ho
    simp only at ho
    cases hs : sortLoop ms (buildNameMap ms) (buildNearrefs ms (buildNameMap ms)) ms.length
        { sorted := [], p := 0, unemitted := initialUnemitted ms } with
    | ok st =>
      rw [hs] at ho
      simp only [Except.ok.injEq] at ho
      obtain ⟨⟨_, hsum, _⟩, hnil⟩ := t2 st hs
      rw [hnil] at hsum
      rw [← ho, ← hsum]
      rfl
    | error e =>
      rw [hs] at ho
      cases ho
  · intro hown
    have hres : ∀ x ∈ initialUnemitted ms, ∃ i, (buildNameMap ms).lookup x = some i := by
      intro x hx
      obtain ⟨m, hm, hname⟩ := (hmem x).1 hx
      exact label_resolves ms m hm x (hname ▸ hown m hm)
    obtain ⟨st1, hs⟩ := t3 hres
    have ho : sortOrder ms = .ok st1.sorted := by
      unfold sortOrder
      simp only
      rw [hs]
    exact ⟨st1.sorted, st1.sorted.filterMap (fun i => ms.get? i), ho,
      by simp only [sortModules, ho]⟩

/-- Witness for `sortModules_terminates`: three modules, two of them referring to each
other (a cycle of near references). -/
theorem sortModules_terminates_witness :
    (∀ m ∈ [linkedA, linkedB, linkedC], m.name ∈ labelIds m)
    ∧ (∃ order out, sortOrder [linkedA, linkedB, linkedC] = .ok order
        ∧ sortModules [linkedA, linkedB, linkedC] = .ok out)
    ∧ sortOrder [linkedA, linkedB, linkedC] = .ok [0, 2, 1] :=
  ⟨by decide, (sortModules_terminates [linkedA, linkedB, linkedC]).2.2.2.2.2.2 (by decide),
   by decide⟩

/-! ## Clustering of sortModules -/

theorem mem_pushRef (refs : List (List Nat)) (a b k x : Nat) :
    x ∈ (pushRef refs a b).getD k [] ↔ x ∈ refs.getD k [] ∨ (k = a ∧ a < refs.length ∧ x = b) := by
  unfold pushRef
  rw [List.getD_eq_getElem?_getD, List.getD_eq_getElem?_getD, List.getElem?_modify]
  by_cases hk : k < refs.length
  · rw [List.getElem?_eq_getElem hk]
    simp only [Option.map_eq_map, Option.map_some', Option.getD_some]
    by_cases hak : a = k
    · subst hak
      rw [if_pos rfl, List.mem_append, List.mem_singleton]
      constructor
      · rintro (h | h)
        · exact Or.inl h
        · exact Or.inr ⟨rfl, hk, h⟩
      · rintro (h | ⟨_, _, h⟩)
        · exact Or.inl h
        · exact Or.inr h
    · rw [if_neg hak]
      constructor
      · exact fun h => Or.inl h
      · rintro (h | ⟨h, _, _⟩)
        · exact h
        · exact absurd h.symm hak
  · rw [List.getElem?_eq_none (by omega)]
    simp only [Option.map_eq_map, Option.map_none', Option.getD_none, List.not_mem_nil, false_or]
    constructor
    · exact fun h => absurd h (by simp)
    · rintro ⟨h1, h2, _⟩
      omega

theorem pushRef_length (refs : List (List Nat)) (a b : Nat) :
    (pushRef refs a b).length = refs.length := by
  unfold pushRef
  rw [List.length_modify]

theorem refsOk_addPair (n : Nat) (refs : List (List Nat)) (u v : Nat) (hu : u < n) (hv : v < n)
    (h : RefsOk n refs) :
    RefsOk n (pushRef (pushRef refs u v) v u)
    ∧ (∀ a b, b ∈ refs.getD a [] → b ∈ (pushRef (pushRef refs u v) v u).getD a [])
    ∧ v ∈ (pushRef (pushRef refs u v) v u).getD u []
    ∧ u ∈ (pushRef (pushRef refs u v) v u).getD v [] := by
  obtain ⟨hlen, hsym⟩ := h
  have hmem : ∀ a b, b ∈ (pushRef (pushRef refs u v) v u).getD a []
      ↔ b ∈ refs.getD a [] ∨ (a = u ∧ b = v) ∨ (a = v ∧ b = u) := by
    intro a b
    rw [mem_pushRef, mem_pushRef, pushRef_length, hlen]
    constructor
    · rintro ((h | ⟨h1, _, h2⟩) | ⟨h1, _, h2⟩)
      · exact Or.inl h
      · exact Or.inr (Or.inl ⟨h1, h2⟩)
      · exact Or.inr (Or.inr ⟨h1, h2⟩)
    · rintro (h | ⟨h1, h2⟩ | ⟨h1, h2⟩)
      · exact Or.inl (Or.inl h)
      · exact Or.inl (Or.inr ⟨h1, hu, h2⟩)
      · exact Or.inr ⟨h1, hv, h2⟩
  refine ⟨⟨by rw [pushRef_length, pushRef_length, hlen], ?_⟩, ?_, ?_, ?_⟩
  · intro a b hab
    rw [hmem] at hab
    rw [hmem]
    rcases hab with h | ⟨h1, h2⟩ | ⟨h1, h2⟩
    · exact ⟨Or.inl (hsym a b h).1, (hsym a b h).2⟩
    · exact ⟨Or.inr (Or.inr ⟨h2, h1⟩), h2 ▸ hv⟩
    · exact ⟨Or.inr (Or.inl ⟨h2, h1⟩), h2 ▸ hu⟩
  · intro a b hab
    rw [hmem]
    exact Or.inl hab
  · rw [hmem]
    exact Or.inr (Or.inl ⟨rfl, rfl⟩)
  · rw [hmem]
    exact Or.inr (Or.inr ⟨rfl, rfl⟩)

theorem lookup_lt (ms : List Module) :
    ∀ x i, (buildNameMap ms).lookup x = some i → i < ms.length := by
  induction ms using List.reverseRecOn with
  | nil => intro x i h; simp [buildNameMap, List.lookup] at h
  | append_singleton l a ih =>
    intro x i h
    rw [buildNameMap_append, lookup_addLabels] at h
    rw [List.length_append, List.length_singleton]
    by_cases ha : x ∈ labelIds a
    · rw [if_pos ha] at h
      cases h
      omega
    · rw [if_neg ha] at h
      have := ih x i h
      omega

theorem label_owner (ms : List Module)
    (hdisj : ms.Pairwise fun a b => ∀ x ∈ labelIds a, x ∉ labelIds b) :
    ∀ j m x, ms.get? j = some m → x ∈ labelIds m → (buildNameMap ms).lookup x = some j := by
  induction ms using List.reverseRecOn with
  | nil => intro j m x h; simp at h
  | append_singleton l a ih =>
    intro j m x hget hx
    rw [buildNameMap_append, lookup_addLabels]
    rw [List.pairwise_append] at hdisj
    obtain ⟨hl, -, hla⟩ := hdisj
    rw [List.get?_eq_getElem?] at hget
    by_cases hj : j < l.length
    · rw [List.getElem?_append_left hj] at hget
      have hm : m ∈ l := List.getElem?_mem hget
      have hna : x ∉ labelIds a := hla m hm a (List.mem_singleton_self a) x hx
      rw [if_neg hna]
      exact ih hl j m x (by rw [List.get?_eq_getElem?]; exact hget) hx
    · rw [List.getElem?_append_right (by omega)] at hget
      have hj0 : j - l.length = 0 := by
        by_contra hc
        rw [List.getElem?_eq_none (by simp; omega)] at hget
        cases hget
      rw [hj0] at hget
      simp only [List.getElem?_cons_zero, Option.some.injEq] at hget
      subst hget
      rw [if_pos hx]
      congr 1
      omega

theorem addEdge_ok (ms : List Module) (i : Nat) (hi : i < ms.length) (refs : List (List Nat))
    (r : Reloc) (h : RefsOk ms.length refs) :
    RefsOk ms.length (addEdge (buildNameMap ms) i refs r)
    ∧ (∀ a b, b ∈ refs.getD a [] → b ∈ (addEdge (buildNameMap ms) i refs r).getD a []) := by
  unfold addEdge
  by_cases h1 : r.size ≠ 2
  · rw [if_pos h1]
    exact ⟨h, fun a b hab => hab⟩
  · rw [if_neg h1]
    by_cases h2 : r.name2 = -1
    · rw [if_pos h2]
      cases hl : (buildNameMap ms).lookup r.name1 with
      | none => exact ⟨h, fun a b hab => hab⟩
      | some m1 =>
        simp only
        obtain ⟨q1, q2, _, _⟩ := refsOk_addPair ms.length refs m1 i (lookup_lt ms _ _ hl) hi h
        exact ⟨q1, q2⟩
    · rw [if_neg h2]
      cases hl1 : (buildNameMap ms).lookup r.name1 with
      | none => exact ⟨h, fun a b hab => hab⟩
      | some m1 =>
        cases hl2 : (buildNameMap ms).lookup r.name2 with
        | none => exact ⟨h, fun a b hab => hab⟩
        | some m2 =>
          simp only
          obtain ⟨q1, q2, _, _⟩ := refsOk_addPair ms.length refs m1 m2
            (lookup_lt ms _ _ hl1) (lookup_lt ms _ _ hl2) h
          exact ⟨q1, q2⟩

theorem addEdge_single (ms : List Module) (i j : Nat) (hi : i < ms.length)
    (refs : List (List Nat)) (r : Reloc) (h : RefsOk ms.length refs)
    (hs : r.size = 2) (h2 : r.name2 = -1) (hl : (buildNameMap ms).lookup r.name1 = some j) :
    j ∈ (addEdge (buildNameMap ms) i refs r).getD i []
    ∧ i ∈ (addEdge (buildNameMap ms) i refs r).getD j [] := by
  unfold addEdge
  rw [if_neg (by simp [hs]), if_pos h2, hl]
  simp only
  obtain ⟨_, _, q3, q4⟩ := refsOk_addPair ms.length refs j i (lookup_lt ms _ _ hl) hi h
  exact ⟨q4, q3⟩

theorem foldl_inv {α β : Type} (f : β → α → β) (Inv : β → Prop) (l : List α)
    (hstep : ∀ acc x, x ∈ l → Inv acc → Inv (f acc x)) :
    ∀ init, Inv init → Inv (l.foldl f init) := by
  induction l with
  | nil => intro init h; exact h
  | cons a l ih =>
    intro init h
    rw [List.foldl_cons]
    exact ih (fun acc x hx => hstep acc x (List.mem_cons_of_mem _ hx)) _
      (hstep init a (List.mem_cons_self _ _) h)

theorem foldl_establish {α β : Type} (f : β → α → β) (Inv E : β → Prop) (l : List α)
    (hinv : ∀ acc x, x ∈ l → Inv acc → Inv (f acc x))
    (hkeep : ∀ acc x, x ∈ l → Inv acc → E acc → E (f acc x))
    (x0 : α) (hx0 : x0 ∈ l) (hest : ∀ acc, Inv acc → E (f acc x0)) :
    ∀ init, Inv init → E (l.foldl f init) := by
  induction l with
  | nil => simp at hx0
  | cons a l ih =>
    intro init h
    rw [List.foldl_cons]
    have hinv2 : ∀ acc x, x ∈ l → Inv acc → Inv (f acc x) :=
      fun acc x hx => hinv acc x (List.mem_cons_of_mem _ hx)
    have hkeep2 : ∀ acc x, x ∈ l → Inv acc → E acc → E (f acc x) :=
      fun acc x hx => hkeep acc x (List.mem_cons_of_mem _ hx)
    have hia : Inv (f init a) := hinv init a (List.mem_cons_self _ _) h
    rcases List.mem_cons.1 hx0 with hx | hx
    · subst hx
      have he : E (f init x0) := hest init h
      have hboth := foldl_inv f (fun acc => Inv acc ∧ E acc) l
        (fun acc x hx hacc => ⟨hinv2 acc x hx hacc.1, hkeep2 acc x hx hacc.1 hacc.2⟩)
        (f init x0) ⟨hia, he⟩
      exact hboth.2
    · exact ih hinv2 hkeep2 hx _ hia

theorem relocs_fold_ok (ms : List Module) (i : Nat) (hi : i < ms.length)
    (rl : List (Nat × Reloc)) (refs : List (List Nat)) (h : RefsOk ms.length refs) :
    RefsOk ms.length (rl.foldl (fun refs r => addEdge (buildNameMap ms) i refs r.2) refs) :=
  foldl_inv _ (RefsOk ms.length) rl (fun acc x _ hacc => (addEdge_ok ms i hi acc x.2 hacc).1)
    refs h

theorem relocs_fold_mono (ms : List Module) (i : Nat) (hi : i < ms.length)
    (rl : List (Nat × Reloc)) (refs : List (List Nat)) (h : RefsOk ms.length refs)
    (a b : Nat) (hab : b ∈ refs.getD a []) :
    b ∈ (rl.foldl (fun refs r => addEdge (buildNameMap ms) i refs r.2) refs).getD a [] :=
  (foldl_inv (fun refs (r : Nat × Reloc) => addEdge (buildNameMap ms) i refs r.2)
    (fun acc => RefsOk ms.length acc ∧ b ∈ acc.getD a []) rl
    (fun acc x _ hacc => ⟨(addEdge_ok ms i hi acc x.2 hacc.1).1,
      (addEdge_ok ms i hi acc x.2 hacc.1).2 a b hacc.2⟩) refs ⟨h, hab⟩).2

theorem refsOk_init (ms : List Module) :
    RefsOk ms.length (ms.map fun _ => ([] : List Nat)) := by
  refine ⟨by simp, ?_⟩
  intro a b hab
  rw [List.getD_eq_getElem?_getD, List.getElem?_map] at hab
  cases h : ms[a]? with
  | none =>
    rw [h] at hab
    simp at hab
  | some m =>
    rw [h] at hab
    simp at hab

theorem buildNearrefs_ok (ms : List Module) :
    RefsOk ms.length (buildNearrefs ms (buildNameMap ms)) := by
  unfold buildNearrefs
  exact foldl_inv _ (RefsOk ms.length) ms.enum
    (fun acc x hx hacc => relocs_fold_ok ms x.1 (List.fst_lt_of_mem_enum hx) x.2.relocs acc hacc)
    _ (refsOk_init ms)

theorem nearRef_symm (ms : List Module) (a b : Nat) (h : NearRef ms a b) : NearRef ms b a :=
  ((buildNearrefs_ok ms).2 a b h).1

theorem nearRef_lt (ms : List Module) (a b : Nat) (h : NearRef ms a b) : b < ms.length :=
  ((buildNearrefs_ok ms).2 a b h).2

theorem connected_symm (ms : List Module) (a b : Nat) (h : Connected ms a b) :
    Connected ms b a :=
  Relation.ReflTransGen.symmetric (fun x y hxy => nearRef_symm ms x y hxy) h

theorem nearRef_of_reloc (ms : List Module)
    (hdisj : ms.Pairwise fun a b => ∀ x ∈ labelIds a, x ∉ labelIds b)
    (ia ib : Nat) (ma mb : Module) (o : Nat) (r : Reloc)
    (ha : ms.get? ia = some ma) (hb : ms.get? ib = some mb) (hr : (o, r) ∈ ma.relocs)
    (hs : r.size = 2) (h2 : r.name2 = -1) (hl : r.name1 ∈ labelIds mb) :
    NearRef ms ia ib ∧ NearRef ms ib ia := by
  have hlook := label_owner ms hdisj ib mb r.name1 hb hl
  rw [List.get?_eq_getElem?] at ha
  have hmem : (ia, ma) ∈ ms.enum := List.mk_mem_enum_iff_getElem?.2 ha
  have hia : ia < ms.length := List.fst_lt_of_mem_enum hmem
  unfold NearRef buildNearrefs
  exact foldl_establish
    (fun refs (im : Nat × Module) =>
      im.2.relocs.foldl (fun refs r => addEdge (buildNameMap ms) im.1 refs r.2) refs)
    (RefsOk ms.length) (fun refs => ib ∈ refs.getD ia [] ∧ ia ∈ refs.getD ib []) ms.enum
    (fun acc x hx hacc => relocs_fold_ok ms x.1 (List.fst_lt_of_mem_enum hx) x.2.relocs acc hacc)
    (fun acc x hx hacc he =>
      ⟨relocs_fold_mono ms x.1 (List.fst_lt_of_mem_enum hx) x.2.relocs acc hacc ia ib he.1,
       relocs_fold_mono ms x.1 (List.fst_lt_of_mem_enum hx) x.2.relocs acc hacc ib ia he.2⟩)
    (ia, ma) hmem
    (fun acc hacc =>
      foldl_establish (fun refs (r : Nat × Reloc) => addEdge (buildNameMap ms) ia refs r.2)
        (RefsOk ms.length) (fun refs => ib ∈ refs.getD ia [] ∧ ia ∈ refs.getD ib []) ma.relocs
        (fun acc2 x _ h2 => (addEdge_ok ms ia hia acc2 x.2 h2).1)
        (fun acc2 x _ h2 he => ⟨(addEdge_ok ms ia hia acc2 x.2 h2).2 ia ib he.1,
          (addEdge_ok ms ia hia acc2 x.2 h2).2 ib ia he.2⟩)
        (o, r) hr
        (fun acc2 h2acc => addEdge_single ms ia ib hia acc2 r h2acc hs h2 hlook)
        acc hacc)
    _ (refsOk_init ms)

theorem getElem?_concat_some (l : List Nat) (x i a : Nat) :
    (l ++ [x])[i]? = some a ↔ l[i]? = some a ∨ (i = l.length ∧ a = x) := by
  by_cases h : i < l.length
  · rw [List.getElem?_append_left h]
    constructor
    · exact fun h1 => Or.inl h1
    · rintro (h1 | ⟨h1, _⟩)
      · exact h1
      · omega
  · by_cases h2 : i = l.length
    · subst h2
      rw [List.getElem?_concat_length, List.getElem?_eq_none (le_refl _)]
      constructor
      · intro h1
        exact Or.inr ⟨rfl, (Option.some.inj h1).symm⟩
      · rintro (h1 | ⟨_, h1⟩)
        · cases h1
        · rw [h1]
    · rw [List.getElem?_eq_none (by simp; omega), List.getElem?_eq_none (by omega)]
      constructor
      · intro h1
        cases h1
      · rintro (h1 | ⟨h1, _⟩)
        · cases h1
        · exact absurd h1 h2

theorem getElem?_lt (l : List Nat) (i a : Nat) (h : l[i]? = some a) : i < l.length :=
  (List.getElem?_eq_some_iff.1 h).1

theorem bfs_push_block (ms : List Module) (s : Nat) (st st2 : SortState) (x : Nat)
    (hinv : BfsInv ms s st) (hx : x ∉ st.sorted)
    (isrc src : Nat) (hs : s ≤ isrc) (hsrc : st.sorted[isrc]? = some src)
    (hedge : NearRef ms src x)
    (hsorted : st2.sorted = st.sorted ++ [x]) (hp : st2.p = st.p) (hbase : SortInv ms st2) :
    BfsInv ms s st2 := by
  have hlen : st2.sorted.length = st.sorted.length + 1 := by rw [hsorted]; simp
  have hget : ∀ i a, st2.sorted[i]? = some a
      ↔ st.sorted[i]? = some a ∨ (i = st.sorted.length ∧ a = x) := by
    intro i a
    rw [hsorted]
    exact getElem?_concat_some _ _ _ _
  have hsrcx : Connected ms src x := Relation.ReflTransGen.single hedge
  refine ⟨hbase, by rw [hp]; exact hinv.s_le, by rw [hp, hlen]; exact Nat.le_succ_of_le hinv.p_le,
    ?_, ?_, ?_, ?_⟩
  · intro i a hi ha b hb
    rw [hp] at hi
    rw [hget] at ha
    rcases ha with ha | ⟨ha, _⟩
    · rw [hsorted]
      exact List.mem_append_left _ (hinv.scanned i a hi ha b hb)
    · have := hinv.p_le
      omega
  · intro i j k a b c hij hjk ha hb hc hac
    rw [hget] at ha hb hc
    rcases hc with hc | ⟨hk, hcx⟩
    · have hk := getElem?_lt _ _ _ hc
      rcases ha with ha | ⟨ha, _⟩
      · rcases hb with hb | ⟨hb, _⟩
        · exact hinv.contig i j k a b c hij hjk ha hb hc hac
        · omega
      · omega
    · rcases ha with ha | ⟨ha, _⟩
      · rcases hb with hb | ⟨hb, _⟩
        · by_cases his : i < s
          · exfalso
            obtain ⟨k2, _, hk2⟩ := hinv.closed i a his ha c hac
            rw [hcx] at hk2
            exact hx (List.getElem?_mem hk2)
          · exact hinv.block i j a b (by omega) (by omega) ha hb
        · omega
      · omega
  · intro i a hi ha b hab
    rw [hget] at ha
    rcases ha with ha | ⟨ha, _⟩
    · obtain ⟨k, hk, hkb⟩ := hinv.closed i a hi ha b hab
      exact ⟨k, hk, (hget k b).2 (Or.inl hkb)⟩
    · have := hinv.s_le
      have := hinv.p_le
      omega
  · intro i j a b hi hj ha hb
    rw [hget] at ha hb
    rcases ha with ha | ⟨_, ha⟩
    · rcases hb with hb | ⟨_, hb⟩
      · exact hinv.block i j a b hi hj ha hb
      · rw [hb]
        exact (hinv.block i isrc a src hi hs ha hsrc).trans hsrcx
    · rcases hb with hb | ⟨_, hb⟩
      · rw [ha]
        exact (connected_symm ms src x hsrcx).trans (hinv.block isrc j src b hs hj hsrc hb)
      · rw [ha, hb]
        exact Relation.ReflTransGen.refl

theorem connected_mem_of_scanned (ms : List Module) (sorted : List Nat)
    (hscan : ∀ a, a ∈ sorted → ∀ b, NearRef ms a b → b ∈ sorted)
    (a b : Nat) (ha : a ∈ sorted) (hab : Connected ms a b) : b ∈ sorted := by
  induction hab with
  | refl => exact ha
  | tail _ hstep ih => exact hscan _ ih _ hstep

theorem bfs_push_seed (ms : List Module) (s : Nat) (st st2 : SortState) (x : Nat)
    (hinv : BfsInv ms s st) (hx : x ∉ st.sorted) (hfull : st.p = st.sorted.length)
    (hsorted : st2.sorted = st.sorted ++ [x]) (hp : st2.p = st.p) (hbase : SortInv ms st2) :
    BfsInv ms st.sorted.length st2 := by
  have hlen : st2.sorted.length = st.sorted.length + 1 := by rw [hsorted]; simp
  have hget : ∀ i a, st2.sorted[i]? = some a
      ↔ st.sorted[i]? = some a ∨ (i = st.sorted.length ∧ a = x) := by
    intro i a
    rw [hsorted]
    exact getElem?_concat_some _ _ _ _
  have hscan : ∀ a, a ∈ st.sorted → ∀ b, NearRef ms a b → b ∈ st.sorted := by
    intro a ha b hb
    obtain ⟨i, hi⟩ := List.getElem?_of_mem ha
    exact hinv.scanned i a (by rw [hfull]; exact getElem?_lt _ _ _ hi) hi b hb
  refine ⟨hbase, by rw [hp, hfull], by rw [hp, hlen, hfull]; exact Nat.le_succ _, ?_, ?_, ?_, ?_⟩
  · intro i a hi ha b hb
    rw [hp] at hi
    rw [hget] at ha
    rcases ha with ha | ⟨ha, _⟩
    · rw [hsorted]
      exact List.mem_append_left _ (hinv.scanned i a hi ha b hb)
    · omega
  · intro i j k a b c hij hjk ha hb hc hac
    rw [hget] at ha hb hc
    rcases hc with hc | ⟨hk, hcx⟩
    · have hk := getElem?_lt _ _ _ hc
      rcases ha with ha | ⟨ha, _⟩
      · rcases hb with hb | ⟨hb, _⟩
        · exact hinv.contig i j k a b c hij hjk ha hb hc hac
        · omega
      · omega
    · rcases ha with ha | ⟨ha, _⟩
      · exfalso
        rw [hcx] at hac
        exact hx (connected_mem_of_scanned ms st.sorted hscan a x (List.getElem?_mem ha) hac)
      · omega
  · intro i a hi ha b hab
    rw [hget] at ha
    rcases ha with ha | ⟨ha, _⟩
    · have hb := connected_mem_of_scanned ms st.sorted hscan a b (List.getElem?_mem ha) hab
      obtain ⟨k, hk⟩ := List.getElem?_of_mem hb
      exact ⟨k, getElem?_lt _ _ _ hk, (hget k b).2 (Or.inl hk)⟩
    · omega
  · intro i j a b hi hj ha hb
    rw [hget] at ha hb
    rcases ha with ha | ⟨_, ha⟩
    · have := getElem?_lt _ _ _ ha
      omega
    · rcases hb with hb | ⟨_, hb⟩
      · have := getElem?_lt _ _ _ hb
        omega
      · rw [ha, hb]
        exact Relation.ReflTransGen.refl

theorem visitRef_bfs (ms : List Module)
    (hres : ∀ i m, ms.get? i = some m → (buildNameMap ms).lookup m.name = some i)
    (s : Nat) (st : SortState) (m2 : Nat) (hinv : BfsInv ms s st)
    (isrc src : Nat) (hs : s ≤ isrc) (hsrc : st.sorted[isrc]? = some src)
    (hedge : NearRef ms src m2) :
    BfsInv ms s (visitRef ms st m2) ∧ m2 ∈ (visitRef ms st m2).sorted
    ∧ (∀ (i a : Nat), st.sorted[i]? = some a → (visitRef ms st m2).sorted[i]? = some a)
    ∧ (visitRef ms st m2).p = st.p := by
  have hlt : m2 < ms.length := nearRef_lt ms src m2 hedge
  have hget : ms.get? m2 = some (ms.get ⟨m2, hlt⟩) := List.get?_eq_get hlt
  have hbase := (visitRef_inv ms hres st m2 hinv.base).1
  by_cases hmem : (ms.get ⟨m2, hlt⟩).name ∈ st.unemitted
  · have hv : visitRef ms st m2
        = { st with sorted := st.sorted ++ [m2],
                    unemitted := st.unemitted.erase (ms.get ⟨m2, hlt⟩).name } := by
      unfold visitRef
      rw [hget]
      simp only
      rw [if_pos hmem]
    have hnot : m2 ∉ st.sorted := fun hc => ((hinv.base.placed m2 _ hget).1 hc) hmem
    rw [hv] at hbase ⊢
    refine ⟨bfs_push_block ms s st _ m2 hinv hnot isrc src hs hsrc hedge rfl rfl hbase,
      by simp, ?_, rfl⟩
    intro i a ha
    exact (getElem?_concat_some _ _ _ _).2 (Or.inl ha)
  · have hv : visitRef ms st m2 = st := by
      unfold visitRef
      rw [hget]
      simp only
      rw [if_neg hmem]
    rw [hv]
    exact ⟨hinv, (hinv.base.placed m2 _ hget).2 hmem, fun i a ha => ha, rfl⟩

theorem foldl_visitRef_bfs (ms : List Module)
    (hres : ∀ i m, ms.get? i = some m → (buildNameMap ms).lookup m.name = some i)
    (s isrc src : Nat) (hs : s ≤ isrc) (refs : List Nat) (hrefs : ∀ m2 ∈ refs, NearRef ms src m2) :
    ∀ st : SortState, BfsInv ms s st → st.sorted[isrc]? = some src →
      BfsInv ms s (refs.foldl (visitRef ms) st)
      ∧ (∀ m2 ∈ refs, m2 ∈ (refs.foldl (visitRef ms) st).sorted)
      ∧ (∀ (i a : Nat), st.sorted[i]? = some a →
          (refs.foldl (visitRef ms) st).sorted[i]? = some a)
      ∧ (refs.foldl (visitRef ms) st).p = st.p := by
  induction refs with
  | nil =>
    intro st hinv _
    exact ⟨hinv, fun m2 h => absurd h (List.not_mem_nil _), fun i a ha => ha, rfl⟩
  | cons r refs ih =>
    intro st hinv hsrc
    simp only [List.foldl_cons]
    obtain ⟨h1, h2, h3, h4⟩ :=
      visitRef_bfs ms hres s st r hinv isrc src hs hsrc (hrefs r (List.mem_cons_self _ _))
    obtain ⟨g1, g2, g3, g4⟩ :=
      ih (fun m2 hm => hrefs m2 (List.mem_cons_of_mem _ hm)) (visitRef ms st r) h1
        (h3 isrc src hsrc)
    refine ⟨g1, ?_, fun i a ha => g3 i a (h3 i a ha), g4.trans h4⟩
    intro m2 hm
    rcases List.mem_cons.1 hm with hm | hm
    · subst hm
      obtain ⟨i, hi⟩ := List.getElem?_of_mem h2
      exact List.getElem?_mem (g3 i m2 hi)
    · exact g2 m2 hm

theorem scanLoop_bfs (ms : List Module)
    (hres : ∀ i m, ms.get? i = some m → (buildNameMap ms).lookup m.name = some i)
    (s : Nat) (fuel : Nat) :
    ∀ st, BfsInv ms s st → ms.length ≤ fuel + st.p →
      ∃ st1, scanLoop ms (buildNearrefs ms (buildNameMap ms)) fuel st = .ok st1
        ∧ BfsInv ms s st1 ∧ st1.p = st1.sorted.length
        ∧ st1.unemitted.length ≤ st.unemitted.length := by
  induction fuel with
  | zero =>
    intro st hinv hf
    have hle := hinv.base.length_le
    have hp := hinv.p_le
    have hn : ¬ st.p < st.sorted.length := by omega
    exact ⟨st, by unfold scanLoop; rw [if_neg hn], hinv, by omega, le_refl _⟩
  | succ n ih =>
    intro st hinv hf
    unfold scanLoop
    by_cases hp : st.p < st.sorted.length
    · rw [if_pos hp]
      simp only
      have hcur : st.sorted[st.p]? = some (st.sorted.getD st.p 0) := by
        rw [List.getElem?_eq_getElem hp, List.getD_eq_getElem _ _ hp]
      obtain ⟨h1, h2, h3, h4⟩ := foldl_visitRef_bfs ms hres s st.p (st.sorted.getD st.p 0)
        hinv.s_le ((buildNearrefs ms (buildNameMap ms)).getD (st.sorted.getD st.p 0) [])
        (fun m2 hm => hm) st hinv hcur
      obtain ⟨_, k2, _⟩ := foldl_visitRef_inv ms hres
        ((buildNearrefs ms (buildNameMap ms)).getD (st.sorted.getD st.p 0) []) st hinv.base
      have hlen2 : st.sorted.length
          ≤ (List.foldl (visitRef ms) st
              ((buildNearrefs ms (buildNameMap ms)).getD (st.sorted.getD st.p 0) [])).sorted.length :=
        (foldl_visitRef_bound ms _ st).2.2.2
      have hinv2 : BfsInv ms s
          { (List.foldl (visitRef ms) st
              ((buildNearrefs ms (buildNameMap ms)).getD (st.sorted.getD st.p 0) [])) with
            p := st.p + 1 } := by
        refine ⟨⟨h1.base.nodup, h1.base.bound, h1.base.unodup, h1.base.placed, h1.base.known⟩,
          Nat.le_succ_of_le hinv.s_le, by simp only; omega, ?_, h1.contig, h1.closed, h1.block⟩
        intro i a hi ha b hb
        simp only at hi ha ⊢
        by_cases hip : i < st.p
        · exact h1.scanned i a (by rw [h4]; exact hip) ha b hb
        · have hieq : i = st.p := by omega
          subst hieq
          have ha2 := h3 _ _ hcur
          rw [ha2] at ha
          cases ha
          exact h2 b hb
      obtain ⟨st1, g1, g2, g3, g4⟩ := ih _ hinv2 (by simp only; omega)
      exact ⟨st1, g1, g2, g3, le_trans g4 k2⟩
    · rw [if_neg hp]
      have := hinv.p_le
      exact ⟨st, rfl, hinv, by omega, le_refl _⟩

theorem sortLoop_bfs (ms : List Module)
    (hres : ∀ i m, ms.get? i = some m → (buildNameMap ms).lookup m.name = some i)
    (fuel : Nat) :
    ∀ s st, BfsInv ms s st → st.unemitted.length ≤ fuel →
      ∃ s1 st1, sortLoop ms (buildNameMap ms) (buildNearrefs ms (buildNameMap ms)) fuel st
          = .ok st1 ∧ BfsInv ms s1 st1 ∧ st1.unemitted = [] := by
  induction fuel with
  | zero =>
    intro s st hinv hf
    have hnil : st.unemitted = [] := List.length_eq_zero.1 (by omega)
    exact ⟨s, st, sortLoop_nil ms _ _ 0 st hnil, hinv, hnil⟩
  | succ n ih =>
    intro s st hinv hf
    by_cases hnil : st.unemitted = []
    · exact ⟨s, st, sortLoop_nil ms _ _ (n + 1) st hnil, hinv, hnil⟩
    · rw [sortLoop_succ ms _ _ n st hnil]
      obtain ⟨st1, hs, hinv1, hfull, hlen1⟩ := scanLoop_bfs ms hres s ms.length st hinv (by omega)
      unfold sortPass
      rw [hs]
      simp only
      cases hu1 : st1.unemitted with
      | nil =>
        simp only
        exact ⟨s, st1, sortLoop_nil ms _ _ n st1 hu1, hinv1, hu1⟩
      | cons x rest =>
        simp only
        obtain ⟨i, m, hget, hname⟩ := hinv1.base.known x (by rw [hu1]; simp)
        have hlook := hres i m hget
        rw [hname] at hlook
        rw [hlook]
        simp only
        have hnd : (x :: rest).Nodup := hu1 ▸ hinv1.base.unodup
        have hxr : x ∉ rest := (List.nodup_cons.1 hnd).1
        have hnot : i ∉ st1.sorted := by
          intro hc
          exact ((hinv1.base.placed i m hget).1 hc) (by rw [hu1, hname]; simp)
        have hlt : i < ms.length := by
          rw [List.get?_eq_getElem?] at hget
          exact (List.getElem?_eq_some_iff.1 hget).1
        have hbase : SortInv ms { st1 with sorted := st1.sorted ++ [i], unemitted := rest } := by
          refine ⟨?_, ?_, ?_, ?_, ?_⟩
          · exact List.Nodup.append hinv1.base.nodup (List.nodup_singleton _) (by simpa using hnot)
          · intro j hj
            rcases List.mem_append.1 hj with hj | hj
            · exact hinv1.base.bound j hj
            · rw [List.mem_singleton.1 hj]; exact hlt
          · exact (List.nodup_cons.1 hnd).2
          · intro j mj hj
            simp only [List.mem_append, List.mem_singleton]
            rw [hinv1.base.placed j mj hj, hu1]
            simp only [List.mem_cons, not_or]
            constructor
            · rintro (h | h)
              · exact h.2
              · subst h
                rw [hget] at hj
                cases hj
                rw [hname]
                exact hxr
            · intro h
              by_cases hx : mj.name = x
              · exact Or.inr (name_inj ms hres j i mj m hj hget (hx.trans hname.symm))
              · exact Or.inl ⟨hx, h⟩
          · intro z hz
            exact hinv1.base.known z (by rw [hu1]; exact List.mem_cons_of_mem _ hz)
        have hinv2 := bfs_push_seed ms s st1
          { st1 with sorted := st1.sorted ++ [i], unemitted := rest } i hinv1 hnot hfull rfl rfl
          hbase
        exact ih _ _ hinv2 (by
          simp only
          rw [hu1] at hlen1
          simp only [List.length_cons] at hlen1
          omega)

/-- C16: for a module list in which every module carries its own name id among its
labels and no label id belongs to two modules, sortModules returns, and in the order
it leaves (a permutation of the input) every connected component of the near-reference
graph is one contiguous block: a module that stands between two connected modules is
connected to both.  Every 16-bit single-symbol relocation of a module A that names a
label of a module B is an edge of that graph in both directions, so A and B are never
separated by a module that is not connected to them. -/
theorem sortModules_clusters (ms : List Module)
    (hown : ∀ m ∈ ms, m.name ∈ labelIds m)
    (hdisj : ms.Pairwise fun a b => ∀ x ∈ labelIds a, x ∉ labelIds b) :
    ∃ order, sortOrder ms = .ok order ∧ order.Perm (List.range ms.length)
      ∧ sortModules ms = .ok (order.filterMap fun i => ms.get? i)
      ∧ (∀ (i j k a b c : Nat), i < j → j < k → order[i]? = some a → order[j]? = some b →
          order[k]? = some c → Connected ms a c → Connected ms a b ∧ Connected ms b c)
      ∧ (∀ (ia ib : Nat) (ma mb : Module) (o : Nat) (r : Reloc),
          ms.get? ia = some ma → ms.get? ib = some mb → (o, r) ∈ ma.relocs →
          r.size = 2 → r.name2 = -1 → r.name1 ∈ labelIds mb →
          NearRef ms ia ib ∧ NearRef ms ib ia ∧ Connected ms ia ib) := by
  have hres : ∀ i m, ms.get? i = some m → (buildNameMap ms).lookup m.name = some i :=
    fun i m hget => label_owner ms hdisj i m m.name hget (hown m (List.get?_mem hget))
  obtain ⟨hnd, hmem, hlen⟩ := initialUnemitted_spec ms
  have hbase : SortInv ms { sorted := [], p := 0, unemitted := initialUnemitted ms } := by
    refine ⟨List.nodup_nil, by simp, hnd, ?_, ?_⟩
    · intro i m hget
      simp only [List.not_mem_nil, false_iff, not_not]
      exact (hmem m.name).2 ⟨m, List.get?_mem hget, rfl⟩
    · intro x hx
      obtain ⟨m, hm, hname⟩ := (hmem x).1 hx
      obtain ⟨i, hi⟩ := List.get?_of_mem hm
      exact ⟨i, m, hi, hname⟩
  have hinit : BfsInv ms 0 { sorted := [], p := 0, unemitted := initialUnemitted ms } := by
    refine ⟨hbase, le_refl _, le_refl _, ?_, ?_, ?_, ?_⟩
    · intro i a hi
      exact absurd hi (Nat.not_lt_zero _)
    · intro i j k a b c _ _ ha
      simp at ha
    · intro i a hi
      exact absurd hi (Nat.not_lt_zero _)
    · intro i j a b _ _ ha
      simp at ha
  obtain ⟨s1, st1, hs, hinv1, _⟩ := sortLoop_bfs ms hres ms.length 0 _ hinit hlen
  have ho : sortOrder ms = .ok st1.sorted := by
    unfold sortOrder
    simp only
    rw [hs]
  obtain ⟨order, ho2, hperm⟩ := sortOrder_perm ms hres
  rw [ho] at ho2
  cases ho2
  refine ⟨st1.sorted, ho, hperm, by simp only [sortModules, ho], ?_, ?_⟩
  · intro i j k a b c hij hjk ha hb hc hac
    have hab := hinv1.contig i j k a b c hij hjk ha hb hc hac
    exact ⟨hab, (connected_symm ms a b hab).trans hac⟩
  · intro ia ib ma mb o r ha hb hr hs2 h2 hl
    obtain ⟨e1, e2⟩ := nearRef_of_reloc ms hdisj ia ib ma mb o r ha hb hr hs2 h2 hl
    exact ⟨e1, e2, Relation.ReflTransGen.single e1⟩

/-- Witness for `sortModules_clusters`: three modules, the first and the third linked by
16-bit relocations; the order left is first, third, second. -/
theorem sortModules_clusters_witness :
    ((∀ m ∈ [linkedA, linkedB, linkedC], m.name ∈ labelIds m)
      ∧ [linkedA, linkedB, linkedC].Pairwise fun a b => ∀ x ∈ labelIds a, x ∉ labelIds b)
    ∧ (∃ order, sortOrder [linkedA, linkedB, linkedC] = .ok order
        ∧ order.Perm (List.range [linkedA, linkedB, linkedC].length)
        ∧ sortModules [linkedA, linkedB, linkedC]
            = .ok (order.filterMap fun i => [linkedA, linkedB, linkedC].get? i)
        ∧ (∀ (i j k a b c : Nat), i < j → j < k → order[i]? = some a → order[j]? = some b →
            order[k]? = some c → Connected [linkedA, linkedB, linkedC] a c →
            Connected [linkedA, linkedB, linkedC] a b ∧ Connected [linkedA, linkedB, linkedC] b c)
        ∧ (∀ (ia ib : Nat) (ma mb : Module) (o : Nat) (r : Reloc),
            [linkedA, linkedB, linkedC].get? ia = some ma →
            [linkedA, linkedB, linkedC].get? ib = some mb → (o, r) ∈ ma.relocs →
            r.size = 2 → r.name2 = -1 → r.name1 ∈ labelIds mb →
            NearRef [linkedA, linkedB, linkedC] ia ib ∧ NearRef [linkedA, linkedB, linkedC] ib ia
              ∧ Connected [linkedA, linkedB, linkedC] ia ib))
    ∧ sortModules [linkedA, linkedB, linkedC] = .ok [linkedA, linkedC, linkedB] :=
  ⟨⟨by decide, by decide⟩,
   sortModules_clusters [linkedA, linkedB, linkedC] (by decide) (by decide),
   by decide⟩

/-! ## Decoded modules carry their own name among their labels -/

theorem labelIds_mapSet (labels : List (Nat × List stringid)) (offset : Nat)
    (name x : stringid) (hx : x ∈ labels.flatMap Prod.snd) :
    x ∈ (mapSet labels offset ((labels.lookup offset).getD [] ++ [name])).flatMap Prod.snd := by
  rw [List.mem_flatMap] at hx ⊢
  obtain ⟨⟨o, ids⟩, hmem, hxi⟩ := hx
  simp only at hxi
  induction labels with
  | nil => simp at hmem
  | cons p labels ih =>
    obtain ⟨k0, v0⟩ := p
    by_cases hk : k0 = offset
    · subst hk
      have hl : List.lookup k0 ((k0, v0) :: labels) = some v0 := by simp [List.lookup]
      rw [hl]
      simp only [Option.getD_some, mapSet, if_pos]
      rcases List.mem_cons.1 hmem with h | h
      · rw [(Prod.mk.inj h).2] at hxi
        exact ⟨(k0, v0 ++ [name]), List.mem_cons_self _ _, List.mem_append_left _ hxi⟩
      · exact ⟨(o, ids), List.mem_cons_of_mem _ h, hxi⟩
    · have hb : (offset == k0) = false := by
        simpa using fun h => hk h.symm
      have hl : List.lookup offset ((k0, v0) :: labels) = List.lookup offset labels := by
        simp [List.lookup, hb]
      rw [hl]
      simp only [mapSet, if_neg hk]
      rcases List.mem_cons.1 hmem with h | h
      · rw [(Prod.mk.inj h).2] at hxi
        exact ⟨(k0, v0), List.mem_cons_self _ _, hxi⟩
      · obtain ⟨q, hq1, hq2⟩ := ih h
        exact ⟨q, List.mem_cons_of_mem _ hq1, hq2⟩

theorem doContent_labels (d d1 : Decoder) (h : (doContent d).state? = some d1) :
    d1.modules = d.modules
      ∧ (d1.module = d.module
          ∨ ∃ m m1, d.module = some m ∧ d1.module = some m1 ∧ m1.name = m.name
              ∧ ∀ x, x ∈ labelIds m → x ∈ labelIds m1) := by
  unfold doContent at h
  simp only at h
  cases hm : d.module with
  | none =>
    rw [hm] at h
    have := state_abort _ _ h
    subst this
    exact ⟨rfl, Or.inl rfl⟩
  | some m =>
    rw [hm] at h
    simp only at h
    cases hs : storeContent m (readContentHeader d.inp) with
    | none =>
      rw [hs] at h
      cases h
    | some p =>
      obtain ⟨m1, s⟩ := p
      rw [hs] at h
      have := state_next _ _ h
      subst this
      obtain ⟨k1, _, _, k4, _⟩ := storeContent_kept m m1 _ s hs
      refine ⟨rfl, Or.inr ⟨m, m1, rfl, rfl, k1, fun x hx => ?_⟩⟩
      unfold labelIds at hx ⊢
      rw [k4]
      exact hx

theorem doSize_labels (d d1 : Decoder) (h : (doSize d).state? = some d1) :
    d1.modules = d.modules
      ∧ (d1.module = d.module
          ∨ ∃ m m1, d.module = some m ∧ d1.module = some m1 ∧ m1.name = m.name
              ∧ ∀ x, x ∈ labelIds m → x ∈ labelIds m1) := by
  unfold doSize at h
  simp only at h
  cases hm : d.module with
  | none =>
    rw [hm] at h
    have := state_abort _ _ h
    subst this
    exact ⟨rfl, Or.inl rfl⟩
  | some m =>
    rw [hm] at h
    have := state_next _ _ h
    subst this
    exact ⟨rfl, Or.inr ⟨m, _, rfl, rfl, rfl, fun x hx => hx⟩⟩

theorem doEntryPoint_labels (d d1 : Decoder) (h : (doEntryPoint d).state? = some d1) :
    d1.modules = d.modules
      ∧ (d1.module = d.module
          ∨ ∃ m m1, d.module = some m ∧ d1.module = some m1 ∧ m1.name = m.name
              ∧ ∀ x, x ∈ labelIds m → x ∈ labelIds m1) := by
  unfold doEntryPoint at h
  simp only at h
  cases hm : d.module with
  | none =>
    rw [hm] at h
    have := state_abort _ _ h
    subst this
    exact ⟨rfl, Or.inl rfl⟩
  | some m =>
    rw [hm] at h
    have := state_next _ _ h
    subst this
    refine ⟨rfl, Or.inr ⟨m, _, rfl, rfl, rfl, fun x hx => ?_⟩⟩
    exact labelIds_mapSet m.labels _ _ x hx

theorem doModule_labels (d d1 : Decoder) (h : (doModule d).state? = some d1) :
    d1.modules = d.allModules ∧ ∃ m, d1.module = some m ∧ m.name ∈ labelIds m := by
  rw [doModule_eq] at h
  have := state_next _ _ h
  subst this
  refine ⟨rfl, _, rfl, ?_⟩
  show moduleRecordName d ∈ List.flatMap [(0, [moduleRecordName d])] Prod.snd
  simp

theorem dispatch_labels (recordType : Nat) (d d1 : Decoder)
    (h : (dispatch recordType d).state? = some d1) :
    (d1.modules = d.modules
      ∧ (d1.module = d.module
          ∨ ∃ m m1, d.module = some m ∧ d1.module = some m1 ∧ m1.name = m.name
              ∧ ∀ x, x ∈ labelIds m → x ∈ labelIds m1))
    ∨ (d1.modules = d.allModules ∧ ∃ m, d1.module = some m ∧ m.name ∈ labelIds m) := by
  unfold dispatch at h
  by_cases h0 : recordType = 0
  · rw [if_pos h0] at h
    have := state_next _ _ h
    subst this
    exact Or.inl ⟨rfl, Or.inl rfl⟩
  rw [if_neg h0] at h
  by_cases h3 : recordType = 3
  · rw [if_pos h3] at h
    obtain ⟨_, e2, e3⟩ := doComment_state _ d1 h
    exact Or.inl ⟨e2, Or.inl e3⟩
  rw [if_neg h3] at h
  by_cases h4 : recordType = 4
  · rw [if_pos h4] at h
    obtain ⟨_, _, e2, e3⟩ := doDictionary_state _ d1 h
    exact Or.inl ⟨e2, Or.inl e3⟩
  rw [if_neg h4] at h
  by_cases h5 : recordType = 5
  · rw [if_pos h5] at h
    exact Or.inr (doModule_labels d d1 h)
  rw [if_neg h5] at h
  by_cases h8 : recordType = 8
  · rw [if_pos h8] at h
    exact Or.inl (doContent_labels d d1 h)
  rw [if_neg h8] at h
  by_cases h7 : recordType = 7
  · rw [if_pos h7] at h
    exact Or.inl (doSize_labels d d1 h)
  rw [if_neg h7] at h
  by_cases h9 : recordType = 9
  · rw [if_pos h9] at h
    obtain ⟨_, e2, e3⟩ := doReference_state _ d1 h
    rcases e3 with e3 | ⟨m, m1, k1, k2, k3, _, _, _, k7, _⟩
    · exact Or.inl ⟨e2, Or.inl e3⟩
    · refine Or.inl ⟨e2, Or.inr ⟨m, m1, k1, k2, k3, fun x hx => ?_⟩⟩
      unfold labelIds at hx ⊢
      rw [k7]
      exact hx
  rw [if_neg h9] at h
  by_cases h6 : recordType = 6
  · rw [if_pos h6] at h
    exact Or.inl (doEntryPoint_labels d d1 h)
  rw [if_neg h6] at h
  by_cases h10 : recordType = 10
  · rw [if_pos h10] at h
    obtain ⟨_, _, e2, e3⟩ := doComputedRef_state _ d1 h
    rcases e3 with ⟨e3, _⟩ | ⟨m, m1, k1, k2, k3, _, _, _, k7, _⟩
    · exact Or.inl ⟨e2, Or.inl e3⟩
    · refine Or.inl ⟨e2, Or.inr ⟨m, m1, k1, k2, k3, fun x hx => ?_⟩⟩
      unfold labelIds at hx ⊢
      rw [k7]
      exact hx
  rw [if_neg h10] at h
  by_cases h11 : recordType = 11
  · rw [if_pos h11] at h
    obtain ⟨_, e2, e3⟩ := doFilename_state _ d1 h
    exact Or.inl ⟨e2, Or.inl e3⟩
  rw [if_neg h11] at h
  by_cases h2 : recordType = 2
  · rw [if_pos h2] at h
    obtain ⟨_, e2, e3⟩ := doLast_state _ d1 h
    exact Or.inl ⟨e2, Or.inl e3⟩
  rw [if_neg h2] at h
  have := state_exit1 _ _ _ h
  subst this
  exact Or.inl ⟨rfl, Or.inl rfl⟩

theorem step_labels (d d1 : Decoder) (h : (step d).state? = some d1) :
    (d1.modules = d.modules
      ∧ (d1.module = d.module
          ∨ ∃ m m1, d.module = some m ∧ d1.module = some m1 ∧ m1.name = m.name
              ∧ ∀ x, x ∈ labelIds m → x ∈ labelIds m1))
    ∨ (d1.modules = d.allModules ∧ ∃ m, d1.module = some m ∧ m.name ∈ labelIds m) := by
  unfold step at h
  simp only at h
  by_cases hf : d.inp.byte.2.failed = true
  · rw [if_pos hf] at h
    have := state_exit1 _ _ _ h
    subst this
    exact Or.inl ⟨rfl, Or.inl rfl⟩
  · rw [if_neg hf] at h
    have hd := dispatch_labels _ _ d1 h
    exact hd

theorem ownNames_step (d d1 : Decoder) (hp : OwnNames d) (h : (step d).state? = some d1) :
    OwnNames d1 := by
  intro m hm
  rw [mem_allModules] at hm
  rcases step_labels d d1 h with ⟨e2, e3⟩ | ⟨e2, m0, e3, e4⟩
  · rcases hm with hm | hm
    · exact hp m ((mem_allModules d m).2 (Or.inl (e2 ▸ hm)))
    · rcases e3 with e3 | ⟨m0, m1, k1, k2, k3, k4⟩
      · exact hp m ((mem_allModules d m).2 (Or.inr (e3 ▸ hm)))
      · rw [k2] at hm
        cases hm
        rw [k3]
        exact k4 _ (hp m0 ((mem_allModules d m0).2 (Or.inr k1)))
  · rcases hm with hm | hm
    · exact hp m (e2 ▸ hm)
    · rw [e3] at hm
      cases hm
      exact e4

theorem decoder_own_names (s : IStream) (fuel : Nat) (d1 : Decoder)
    (h : (recordLoop fuel { inp := s }).state? = some d1) :
    ∀ m ∈ d1.allModules, m.name ∈ labelIds m := by
  have hinit : OwnNames { inp := s } := by
    intro m hm
    simp [Decoder.allModules] at hm
  exact recordLoop_invariant OwnNames ownNames_step fuel _ d1 hinit h

/-! ## Decoded modules without relocations -/

theorem walkFrom_plain (t : Tables) (m : Module) (hrel : m.relocs = []) :
    ∀ (l : List Byte) (fuel offset : Nat), m.bytes.drop offset = l → l.length ≤ fuel →
      walkFrom t m fuel offset
        = .ok ((l.enumFrom offset).flatMap fun ib =>
            labelItems t m ib.1 ++ [Item.byte ib.1 (byteLine ib.2)]) := by
  intro l
  induction l with
  | nil =>
    intro fuel offset hd _
    have hlen : ¬ offset < m.bytes.length := by
      rw [List.drop_eq_nil_iff] at hd
      omega
    unfold walkFrom
    rw [if_neg hlen]
    rfl
  | cons b l ih =>
    intro fuel offset hd hf
    have hlen : offset < m.bytes.length := by
      by_contra hc
      rw [List.drop_eq_nil_of_le (by omega)] at hd
      cases hd
    cases fuel with
    | zero => simp at hf
    | succ fuel =>
      have hb : m.bytes.getD offset 0 = b := by
        have h1 := List.drop_eq_getElem_cons hlen
        rw [hd] at h1
        rw [List.getD_eq_getElem _ _ hlen]
        exact (List.cons.inj h1).1.symm
      have hd1 : m.bytes.drop (offset + 1) = l := by
        have h1 := List.drop_eq_getElem_cons hlen
        rw [hd] at h1
        exact (List.cons.inj h1).2.symm
      have hrec := ih fuel (offset + 1) hd1 (by simpa using hf)
      unfold walkFrom
      rw [if_pos hlen]
      simp only [hrel, List.lookup, hrec, hb]
      rw [List.enumFrom_cons, List.flatMap_cons, List.append_assoc]
      rfl

theorem walk_plainWalk (t : Tables) (m : Module) (hrel : m.relocs = []) :
    walk t m = .ok (plainWalk t m) := by
  unfold walk plainWalk
  exact walkFrom_plain t m hrel m.bytes m.bytes.length 0 rfl (le_refl _)

theorem labelItems_no_directive (t : Tables) (m : Module) (offset : Nat) :
    (labelItems t m offset).filter Item.isDirective = [] := by
  unfold labelItems
  cases m.labels.lookup offset with
  | none => rfl
  | some ids =>
    simp only
    induction ids with
    | nil => rfl
    | cons a ids ih =>
      rw [List.map_cons, List.filter_cons_of_neg (by simp [Item.isDirective])]
      exact ih

theorem plainWalk_directives (t : Tables) (m : Module) :
    (plainWalk t m).filter Item.isDirective
      = m.bytes.enum.map fun ib => Item.byte ib.1 (byteLine ib.2) := by
  have h : ∀ (l : List Byte) (k : Nat),
      ((l.enumFrom k).flatMap fun ib =>
          labelItems t m ib.1 ++ [Item.byte ib.1 (byteLine ib.2)]).filter Item.isDirective
        = (l.enumFrom k).map fun ib => Item.byte ib.1 (byteLine ib.2) := by
    intro l
    induction l with
    | nil => intro k; rfl
    | cons b l ih =>
      intro k
      rw [List.enumFrom_cons, List.flatMap_cons, List.filter_append, List.filter_append,
        labelItems_no_directive, ih, List.map_cons]
      rfl
  exact h m.bytes 0

theorem plainWalk_head (t : Tables) (m : Module) (more : List stringid)
    (hl0 : m.labels.lookup 0 = some (m.name :: more)) (hn : 0 < m.bytes.length) :
    ∃ rest, plainWalk t m = Item.label 0 m.name (labelText t m.name) :: rest := by
  unfold plainWalk
  rcases hm : m.bytes with _ | ⟨b, l⟩
  · rw [hm] at hn
    simp at hn
  · refine ⟨(more.map fun raw => Item.label 0 raw (labelText t raw))
        ++ [Item.byte 0 (byteLine b)]
        ++ ((l.enumFrom 1).flatMap fun ib =>
            labelItems t m ib.1 ++ [Item.byte ib.1 (byteLine ib.2)]), ?_⟩
    rw [List.enum, List.enumFrom_cons, List.flatMap_cons]
    simp only [labelItems, hl0, List.map_cons, List.cons_append, List.append_assoc]

theorem doContent_shape (d d1 : Decoder) (h : (doContent d).state? = some d1) :
    d1.modules = d.modules
      ∧ (d1.module = d.module
          ∨ ∃ m m1, d.module = some m ∧ d1.module = some m1 ∧ m1.name = m.name
              ∧ m1.labels = m.labels) := by
  unfold doContent at h
  simp only at h
  cases hm : d.module with
  | none =>
    rw [hm] at h
    have := state_abort _ _ h
    subst this
    exact ⟨rfl, Or.inl rfl⟩
  | some m =>
    rw [hm] at h
    simp only at h
    cases hs : storeContent m (readContentHeader d.inp) with
    | none =>
      rw [hs] at h
      cases h
    | some p =>
      obtain ⟨m1, s⟩ := p
      rw [hs] at h
      have := state_next _ _ h
      subst this
      obtain ⟨k1, _, _, k4, _⟩ := storeContent_kept m m1 _ s hs
      exact ⟨rfl, Or.inr ⟨m, m1, rfl, rfl, k1, k4⟩⟩

theorem doSize_shape (d d1 : Decoder) (h : (doSize d).state? = some d1) :
    d1.modules = d.modules
      ∧ (d1.module = d.module
          ∨ ∃ m m1, d.module = some m ∧ d1.module = some m1 ∧ m1.name = m.name
              ∧ m1.labels = m.labels) := by
  unfold doSize at h
  simp only at h
  cases hm : d.module with
  | none =>
    rw [hm] at h
    have := state_abort _ _ h
    subst this
    exact ⟨rfl, Or.inl rfl⟩
  | some m =>
    rw [hm] at h
    have := state_next _ _ h
    subst this
    exact ⟨rfl, Or.inr ⟨m, _, rfl, rfl, rfl, rfl⟩⟩

theorem doEntryPoint_shape (d d1 : Decoder) (h : (doEntryPoint d).state? = some d1) :
    d1.modules = d.modules
      ∧ (d1.module = d.module
          ∨ ∃ m m1, d.module = some m ∧ d1.module = some m1 ∧ m1.name = m.name
              ∧ ∃ offset name, m1.labels = pushLabel m.labels offset name) := by
  unfold doEntryPoint at h
  simp only at h
  cases hm : d.module with
  | none =>
    rw [hm] at h
    have := state_abort _ _ h
    subst this
    exact ⟨rfl, Or.inl rfl⟩
  | some m =>
    rw [hm] at h
    have := state_next _ _ h
    subst this
    exact ⟨rfl, Or.inr ⟨m, _, rfl, rfl, rfl, _, _, rfl⟩⟩

theorem dispatch_shape (recordType : Nat) (d d1 : Decoder)
    (h : (dispatch recordType d).state? = some d1) :
    (d1.modules = d.modules
      ∧ (d1.module = d.module
          ∨ ∃ m m1, d.module = some m ∧ d1.module = some m1 ∧ m1.name = m.name
              ∧ (m1.labels = m.labels
                  ∨ ∃ offset name, m1.labels = pushLabel m.labels offset name)))
    ∨ (d1.modules = d.allModules
        ∧ ∃ m, d1.module = some m ∧ m.labels = [(0, [m.name])]) := by
  unfold dispatch at h
  by_cases h0 : recordType = 0
  · rw [if_pos h0] at h
    have := state_next _ _ h
    subst this
    exact Or.inl ⟨rfl, Or.inl rfl⟩
  rw [if_neg h0] at h
  by_cases h3 : recordType = 3
  · rw [if_pos h3] at h
    obtain ⟨_, e2, e3⟩ := doComment_state _ d1 h
    exact Or.inl ⟨e2, Or.inl e3⟩
  rw [if_neg h3] at h
  by_cases h4 : recordType = 4
  · rw [if_pos h4] at h
    obtain ⟨_, _, e2, e3⟩ := doDictionary_state _ d1 h
    exact Or.inl ⟨e2, Or.inl e3⟩
  rw [if_neg h4] at h
  by_cases h5 : recordType = 5
  · rw [if_pos h5, doModule_eq] at h
    have := state_next _ _ h
    subst this
    exact Or.inr ⟨rfl, _, rfl, rfl⟩
  rw [if_neg h5] at h
  by_cases h8 : recordType = 8
  · rw [if_pos h8] at h
    obtain ⟨e2, e3⟩ := doContent_shape d d1 h
    rcases e3 with e3 | ⟨m, m1, k1, k2, k3, k4⟩
    · exact Or.inl ⟨e2, Or.inl e3⟩
    · exact Or.inl ⟨e2, Or.inr ⟨m, m1, k1, k2, k3, Or.inl k4⟩⟩
  rw [if_neg h8] at h
  by_cases h7 : recordType = 7
  · rw [if_pos h7] at h
    obtain ⟨e2, e3⟩ := doSize_shape d d1 h
    rcases e3 with e3 | ⟨m, m1, k1, k2, k3, k4⟩
    · exact Or.inl ⟨e2, Or.inl e3⟩
    · exact Or.inl ⟨e2, Or.inr ⟨m, m1, k1, k2, k3, Or.inl k4⟩⟩
  rw [if_neg h7] at h
  by_cases h9 : recordType = 9
  · rw [if_pos h9] at h
    obtain ⟨_, e2, e3⟩ := doReference_state _ d1 h
    rcases e3 with e3 | ⟨m, m1, k1, k2, k3, _, _, _, k7, _⟩
    · exact Or.inl ⟨e2, Or.inl e3⟩
    · exact Or.inl ⟨e2, Or.inr ⟨m, m1, k1, k2, k3, Or.inl k7⟩⟩
  rw [if_neg h9] at h
  by_cases h6 : recordType = 6
  · rw [if_pos h6] at h
    obtain ⟨e2, e3⟩ := doEntryPoint_shape d d1 h
    rcases e3 with e3 | ⟨m, m1, k1, k2, k3, k4⟩
    · exact Or.inl ⟨e2, Or.inl e3⟩
    · exact Or.inl ⟨e2, Or.inr ⟨m, m1, k1, k2, k3, Or.inr k4⟩⟩
  rw [if_neg h6] at h
  by_cases h10 : recordType = 10
  · rw [if_pos h10] at h
    obtain ⟨_, _, e2, e3⟩ := doComputedRef_state _ d1 h
    rcases e3 with ⟨e3, _⟩ | ⟨m, m1, k1, k2, k3, _, _, _, k7, _⟩
    · exact Or.inl ⟨e2, Or.inl e3⟩
    · exact Or.inl ⟨e2, Or.inr ⟨m, m1, k1, k2, k3, Or.inl k7⟩⟩
  rw [if_neg h10] at h
  by_cases h11 : recordType = 11
  · rw [if_pos h11] at h
    obtain ⟨_, e2, e3⟩ := doFilename_state _ d1 h
    exact Or.inl ⟨e2, Or.inl e3⟩
  rw [if_neg h11] at h
  by_cases h2 : recordType = 2
  · rw [if_pos h2] at h
    obtain ⟨_, e2, e3⟩ := doLast_state _ d1 h
    exact Or.inl ⟨e2, Or.inl e3⟩
  rw [if_neg h2] at h
  have := state_exit1 _ _ _ h
  subst this
  exact Or.inl ⟨rfl, Or.inl rfl⟩

theorem step_shape (d d1 : Decoder) (h : (step d).state? = some d1) :
    (d1.modules = d.modules
      ∧ (d1.module = d.module
          ∨ ∃ m m1, d.module = some m ∧ d1.module = some m1 ∧ m1.name = m.name
              ∧ (m1.labels = m.labels
                  ∨ ∃ offset name, m1.labels = pushLabel m.labels offset name)))
    ∨ (d1.modules = d.allModules
        ∧ ∃ m, d1.module = some m ∧ m.labels = [(0, [m.name])]) := by
  unfold step at h
  simp only at h
  by_cases hf : d.inp.byte.2.failed = true
  · rw [if_pos hf] at h
    have := state_exit1 _ _ _ h
    subst this
    exact Or.inl ⟨rfl, Or.inl rfl⟩
  · rw [if_neg hf] at h
    have hd := dispatch_shape _ _ d1 h
    exact hd

theorem pushLabel_first (labels : List (Nat × List stringid)) (offset : Nat)
    (name x : stringid) (more : List stringid) (h : labels.lookup 0 = some (x :: more)) :
    ∃ more2, (pushLabel labels offset name).lookup 0 = some (x :: more2) := by
  unfold pushLabel
  rw [lookup_mapSet_key]
  by_cases ho : 0 = offset
  · subst ho
    rw [if_pos rfl, h]
    exact ⟨more ++ [name], rfl⟩
  · rw [if_neg ho]
    exact ⟨more, h⟩

theorem nameFirst_step (d d1 : Decoder) (hp : NameFirst d) (h : (step d).state? = some d1) :
    NameFirst d1 := by
  intro m hm
  rw [mem_allModules] at hm
  rcases step_shape d d1 h with ⟨e2, e3⟩ | ⟨e2, m0, e3, e4⟩
  · rcases hm with hm | hm
    · exact hp m ((mem_allModules d m).2 (Or.inl (e2 ▸ hm)))
    · rcases e3 with e3 | ⟨m0, m1, k1, k2, k3, k4⟩
      · exact hp m ((mem_allModules d m).2 (Or.inr (e3 ▸ hm)))
      · rw [k2] at hm
        cases hm
        obtain ⟨more, hmore⟩ := hp m0 ((mem_allModules d m0).2 (Or.inr k1))
        rw [k3]
        rcases k4 with k4 | ⟨offset, name, k4⟩
        · rw [k4]
          exact ⟨more, hmore⟩
        · rw [k4]
          exact pushLabel_first m0.labels offset name m0.name more hmore
  · rcases hm with hm | hm
    · exact hp m (e2 ▸ hm)
    · rw [e3] at hm
      cases hm
      rw [e4]
      exact ⟨[], by simp [List.lookup]⟩

theorem decoder_name_first (s : IStream) (fuel : Nat) (d1 : Decoder)
    (h : (recordLoop fuel { inp := s }).state? = some d1) : NameFirst d1 := by
  have hinit : NameFirst { inp := s } := by
    intro m hm
    simp [Decoder.allModules] at hm
  exact recordLoop_invariant NameFirst nameFirst_step fuel _ d1 hinit h

theorem fooEntryStream_decoded :
    recordLoop 53 { inp := { data := fooEntryStream, pos := 4 } }
      = .last { inp := { data := fooEntryStream, pos := 52 }, tables := fooEntryTables,
                module := some fooEntryModule } := by
  have h1 : step { inp := { data := fooEntryStream, pos := 4 } }
      = .next { inp := { data := fooEntryStream, pos := 18 },
                tables := { stringDictionary := [(0, [102, 111, 111]), (1, [98, 97, 114])] } } :=
    rfl
  have h2 : step { inp := { data := fooEntryStream, pos := 18 },
                   tables := { stringDictionary := [(0, [102, 111, 111]), (1, [98, 97, 114])] } }
      = .next { inp := { data := fooEntryStream, pos := 24 }, tables := fooEntryTables,
                module := some { fooEntryModule with bytes := [], labels := [(0, [0])] } } := rfl
  have h3 : step { inp := { data := fooEntryStream, pos := 24 }, tables := fooEntryTables,
                   module := some { fooEntryModule with bytes := [], labels := [(0, [0])] } }
      = .next { inp := { data := fooEntryStream, pos := 30 }, tables := fooEntryTables,
                module := some { fooEntryModule with bytes := [0, 0, 0, 0],
                                                     labels := [(0, [0])] } } := rfl
  have h4 : step { inp := { data := fooEntryStream, pos := 30 }, tables := fooEntryTables,
                   module := some { fooEntryModule with bytes := [0, 0, 0, 0],
                                                        labels := [(0, [0])] } }
      = .next { inp := { data := fooEntryStream, pos := 42 }, tables := fooEntryTables,
                module := some { fooEntryModule with labels := [(0, [0])] } } := rfl
  have h5 : step { inp := { data := fooEntryStream, pos := 42 }, tables := fooEntryTables,
                   module := some { fooEntryModule with labels := [(0, [0])] } }
      = .next { inp := { data := fooEntryStream, pos := 50 }, tables := fooEntryTables,
                module := some fooEntryModule } := rfl
  have h6 : step { inp := { data := fooEntryStream, pos := 50 }, tables := fooEntryTables,
                   module := some fooEntryModule }
      = .last { inp := { data := fooEntryStream, pos := 52 }, tables := fooEntryTables,
                module := some fooEntryModule } := rfl
  rw [recordLoop_next _ _ _ h1, recordLoop_next _ _ _ h2, recordLoop_next _ _ _ h3,
    recordLoop_next _ _ _ h4, recordLoop_next _ _ _ h5, recordLoop_last _ _ _ h6]

/-- C12 (amended): for every code module that the decoder has built, with an empty
relocation map and a name that is not local, Module::write returns; it writes one
code-section directive, then the items of the emission loop, then the debug-name
trailer and the separator.  The directives among the items are exactly one `.byte`
per buffer byte, in offset order, the i-th carrying the unsigned value of byte i, and
there is no relocation directive; the other items are the labels registered at the
offsets.  When the buffer holds n >= 1 bytes the first item is the global label of the
module's name; when the buffer is empty no item is written, so only the section
directive and the trailer appear, without the label. -/
theorem module_write_plain (s : IStream) (fuel : Nat) (d : Decoder)
    (h : (recordLoop fuel { inp := s }).state? = some d)
    (m : Module) (hm : m ∈ d.allModules) (hcode : m.isData = false) (hrel : m.relocs = [])
    (hglobal : m.name ∉ d.tables.localLabels) :
    walk d.tables m = .ok (plainWalk d.tables m)
    ∧ Module.write d.tables m
        = .ok ("\t.section    .text." ++ encodeIdentifier d.tables (d.tables.section m.name)
                  ++ ",\"ax\",@progbits\n" ++ "\t.align 2,0\n"
                ++ String.join ((plainWalk d.tables m).map Item.text)
                ++ macsbugTrailer m (encodeIdentifier d.tables (d.tables.section m.name))
                ++ "# ######\n\n")
    ∧ (plainWalk d.tables m).filter Item.isDirective
        = (m.bytes.enum.map fun ib =>
            Item.byte ib.1 ("\t.byte " ++ toString ib.2.val ++ "\n"))
    ∧ (0 < m.bytes.length →
        ∃ rest, plainWalk d.tables m
          = Item.label 0 m.name
              ("\t.globl " ++ encodeIdentifier d.tables m.name ++ "\n"
                ++ encodeIdentifier d.tables m.name ++ ":\n") :: rest)
    ∧ (m.bytes = [] →
        plainWalk d.tables m = []
        ∧ Module.write d.tables m
            = .ok ("\t.section    .text." ++ encodeIdentifier d.tables (d.tables.section m.name)
                      ++ ",\"ax\",@progbits\n" ++ "\t.align 2,0\n"
                    ++ macsbugTrailer m (encodeIdentifier d.tables (d.tables.section m.name))
                    ++ "# ######\n\n")) := by
  have hw := walk_plainWalk d.tables m hrel
  have hs : sectionHeader m (encodeIdentifier d.tables (d.tables.section m.name))
      = "\t.section    .text." ++ encodeIdentifier d.tables (d.tables.section m.name)
          ++ ",\"ax\",@progbits\n" ++ "\t.align 2,0\n" := by
    unfold sectionHeader
    rw [hcode]
    rfl
  have hwrite : Module.write d.tables m
      = .ok ("\t.section    .text." ++ encodeIdentifier d.tables (d.tables.section m.name)
                ++ ",\"ax\",@progbits\n" ++ "\t.align 2,0\n"
              ++ String.join ((plainWalk d.tables m).map Item.text)
              ++ macsbugTrailer m (encodeIdentifier d.tables (d.tables.section m.name))
              ++ "# ######\n\n") := by
    unfold Module.write
    simp only [hw]
    rw [hs]
  have hlabel : labelText d.tables m.name
      = "\t.globl " ++ encodeIdentifier d.tables m.name ++ "\n"
          ++ encodeIdentifier d.tables m.name ++ ":\n" := by
    unfold labelText
    simp only [if_pos hglobal]
  refine ⟨hw, hwrite, plainWalk_directives d.tables m, ?_, ?_⟩
  · intro hn
    obtain ⟨more, hmore⟩ := decoder_name_first s fuel d h m hm
    obtain ⟨rest, hrest⟩ := plainWalk_head d.tables m more hmore hn
    rw [hlabel] at hrest
    exact ⟨rest, hrest⟩
  · intro hnil
    have hp : plainWalk d.tables m = [] := by
      unfold plainWalk
      rw [hnil]
      rfl
    refine ⟨hp, ?_⟩
    rw [hwrite, hp]
    have hj : String.join (([] : List Item).map Item.text) = "" := rfl
    rw [hj, String.append_empty]

set_option maxRecDepth 100000 in
/-- The amended statement at the module decoded from the stream First(version 3),
Dictionary{0:"foo"}, Module(name 0, segment 0, flags 0x08), Size(4), Content(offset 0,
bytes [0,0,0,0]), Last, with the output of the program on that stream (one
code-section directive, the global label "foo", four `.byte 0` lines, no relocation
line), and at the module of a stream that also declares the entry point "bar" at
offset 2, whose label stands between the second and the third `.byte` line. -/
theorem module_write_plain_witness :
    ((recordLoop 41 { inp := { data := fooStream, pos := 4 } }).state? = some fooDecoded
      ∧ fooModule ∈ fooDecoded.allModules ∧ fooModule.isData = false ∧ fooModule.relocs = []
      ∧ fooModule.name ∉ fooDecoded.tables.localLabels ∧ 0 < fooModule.bytes.length)
    ∧ walk fooDecoded.tables fooModule = .ok (plainWalk fooDecoded.tables fooModule)
    ∧ (∃ rest, plainWalk fooDecoded.tables fooModule
        = Item.label 0 fooModule.name
            ("\t.globl " ++ encodeIdentifier fooDecoded.tables fooModule.name ++ "\n"
              ++ encodeIdentifier fooDecoded.tables fooModule.name ++ ":\n") :: rest)
    ∧ main fooStream
        = .exit 0 ("\t.text\n\t.align 2\n"
            ++ "\t.section    .text.foo,\"ax\",@progbits\n\t.align 2,0\n"
            ++ "\t.globl foo\nfoo:\n"
            ++ "\t.byte 0\n\t.byte 0\n\t.byte 0\n\t.byte 0\n"
            ++ "\t.section    .text.foo.macsbug,\"ax\",@progbits\n\t.byte 131\n"
            ++ "\t.ascii \"foo\"\n\t.align 2,0\n\t.short 0\n"
            ++ "# ######\n\n")
    ∧ ((recordLoop 53 { inp := { data := fooEntryStream, pos := 4 } }).state?
          = some fooEntryDecoded
      ∧ fooEntryModule ∈ fooEntryDecoded.allModules ∧ fooEntryModule.isData = false
      ∧ fooEntryModule.relocs = []
      ∧ fooEntryModule.name ∉ fooEntryDecoded.tables.localLabels)
    ∧ (plainWalk fooEntryDecoded.tables fooEntryModule).filter Item.isDirective
        = (fooEntryModule.bytes.enum.map fun ib =>
            Item.byte ib.1 ("\t.byte " ++ toString ib.2.val ++ "\n"))
    ∧ Module.write fooEntryDecoded.tables fooEntryModule
        = .ok ("\t.section    .text.foo,\"ax\",@progbits\n\t.align 2,0\n"
            ++ "\t.globl foo\nfoo:\n"
            ++ "\t.byte 1\n\t.byte 2\n"
            ++ "\t.globl bar\nbar:\n"
            ++ "\t.byte 3\n\t.byte 4\n"
            ++ "\t.section    .text.foo.macsbug,\"ax\",@progbits\n\t.byte 131\n"
            ++ "\t.ascii \"foo\"\n\t.align 2,0\n\t.short 0\n"
            ++ "# ######\n\n") := by
  have hd : (recordLoop 41 { inp := { data := fooStream, pos := 4 } }).state?
      = some fooDecoded := by
    rw [fooStream_decoded]
    rfl
  have he : (recordLoop 53 { inp := { data := fooEntryStream, pos := 4 } }).state?
      = some fooEntryDecoded := by
    rw [fooEntryStream_decoded]
    rfl
  have h0 : main fooStream
      = finish (recordLoop 41 { inp := { data := fooStream, pos := 4 } }) := rfl
  have h4 : finish (.last { inp := { data := fooStream, pos := 40 }, tables := fooTables,
                              module := some fooModule })
      = .exit 0 ("\t.text\n\t.align 2\n"
            ++ "\t.section    .text.foo,\"ax\",@progbits\n\t.align 2,0\n"
            ++ "\t.globl foo\nfoo:\n"
            ++ "\t.byte 0\n\t.byte 0\n\t.byte 0\n\t.byte 0\n"
            ++ "\t.section    .text.foo.macsbug,\"ax\",@progbits\n\t.byte 131\n"
            ++ "\t.ascii \"foo\"\n\t.align 2,0\n\t.short 0\n"
            ++ "# ######\n\n") := by decide
  have hfoo := module_write_plain { data := fooStream, pos := 4 } 41 fooDecoded hd fooModule
    (by decide) rfl rfl (by decide)
  have hent := module_write_plain { data := fooEntryStream, pos := 4 } 53 fooEntryDecoded he
    fooEntryModule (by decide) rfl rfl (by decide)
  exact ⟨⟨hd, by decide, rfl, rfl, by decide, by decide⟩, hfoo.1, hfoo.2.2.2.1 (by decide),
    by rw [h0, fooStream_decoded, h4],
    ⟨he, by decide, rfl, rfl, by decide⟩, hent.2.2.1, by decide⟩

end ConvertObj
